import Mathlib

/-! The character loader of `internal/api/loaders/characterloader_gen.go` and the
functions of `pkg/character` that validate and merge the hierarchy, keep names unique,
resolve the parents on import and export a character.

A shallow embedding of the request-coalescing batch cache.  Pointers to batches
are indices into a heap, every section of code that runs under the loader's
mutex is one atomic transition, and the goroutines spawned by the code
(`startTimer`, `end`) are pending entries that a scheduler step may run at any
later moment.  A Go `int` is a 64-bit integer: `maxBatch-1` wraps around.  The fetch
function may keep state of its own, so it is given the number of earlier invocations.
The functions of `pkg/character` take the store as a record of query functions.
-/

namespace Stash

/-! ## `pkg/models` -/

/-- The type `models.RelatedStrings`: a list of strings that is either loaded or not. -/
abbrev RelatedStrings := Option (List String)

/-- The type `models.RelatedIDs`: a list of IDs that is either loaded or not. -/
abbrev RelatedIDs := Option (List Int)

/-- The struct `models.Character`; a `time.Time` is kept as a number. -/
structure Character where
  ID : Int
  Name : String
  Favorite : Bool
  Description : String
  CreatedAt : Int
  UpdatedAt : Int
  Aliases : RelatedStrings
  ParentIDs : RelatedIDs
  ChildIDs : RelatedIDs
  deriving DecidableEq, Repr

namespace Loaders

/-! ## Go values -/

/-- A `*models.Character`: `none` is the nil pointer. -/
abbrev Value := Option Character

/-- A Go `error`: `none` is the nil error, `some msg` an error with that message. -/
abbrev Err := Option String

/-- The run-time faults the loader's code can raise. -/
inductive Fault where
  | nilDereference
  | indexOutOfRange
  | fetchAborted
  | closeOfClosedChannel
  deriving DecidableEq, Repr

/-- What running a piece of code does: it returns, it panics, or it blocks on a channel
that is not closed yet. -/
inductive Run (α : Type) where
  | ret (a : α)
  | panics (f : Fault)
  | blocks
  deriving DecidableEq, Repr

/-- The returned value of a run, forgetting how it failed. -/
def Run.toOption {α : Type} : Run α → Option α
  | Run.ret a => some a
  | Run.panics _ => none
  | Run.blocks => none

/-- Apply a function to what a run returns. -/
def Run.map {α β : Type} (f : α → β) : Run α → Run β
  | Run.ret a => Run.ret (f a)
  | Run.panics e => Run.panics e
  | Run.blocks => Run.blocks

/-- Wrap an integer into the range of a 64-bit Go `int`. -/
def wrapInt (x : Int) : Int := (x + 2 ^ 63) % 2 ^ 64 - 2 ^ 63

/-- The integer is a value of a 64-bit Go `int`. -/
def isInt (x : Int) : Prop := -(2 ^ 63) ≤ x ∧ x < 2 ^ 63

instance (x : Int) : Decidable (isInt x) := by unfold isInt; infer_instance

/-! ## Go maps (`map[int]*models.Character`) -/

/-- A map that has been created: its entries, at most the first entry of a key counts. -/
abbrev Entries := List (Int × Value)

/-- Reading `m[key]` with the comma-ok form; a nil map (`none`) has no entry. -/
def mapGet (m : Option Entries) (key : Int) : Option Value :=
  match m with
  | none => none
  | some es => es.lookup key

/-- The statement `delete(m, key)`; a no-op on a nil map. -/
def mapDelete (m : Option Entries) (key : Int) : Option Entries :=
  match m with
  | none => none
  | some es => some (es.filter (fun e => e.1 ≠ key))

/-- The assignment `m[key] = value` on a created map. -/
def mapSet (es : Entries) (key : Int) (value : Value) : Entries :=
  (key, value) :: es.filter (fun e => e.1 ≠ key)

/-! ## The loader and its batches -/

/-- What one invocation of the fetch function returns: `data` is the value slice,
`error` the error slice, where `none` is the nil slice. -/
structure FetchResult where
  data : List Value
  error : Option (List Err)
  deriving DecidableEq, Repr

/-- The type of `Fetch`.  The first argument is the number of invocations made before
this one and stands for whatever state the collaborator keeps; the result `none` is an
invocation that aborts with a panic instead of returning. -/
abbrev FetchFn := Nat → List Int → Option FetchResult

/-- The struct `CharacterLoaderConfig`. -/
structure CharacterLoaderConfig where
  Fetch : FetchFn
  Wait : Int
  MaxBatch : Int

/-- The struct `characterLoaderBatch`; `done` is true once the channel is closed. -/
structure characterLoaderBatch where
  keys : List Int
  data : List Value
  error : Option (List Err)
  closing : Bool
  done : Bool
  deriving DecidableEq, Repr

instance : Inhabited characterLoaderBatch := ⟨⟨[], [], none, false, false⟩⟩

/-- The struct `CharacterLoader` without its mutex; `cache` is `none` for the nil map
and `batch` is a pointer into the heap of batches. -/
structure CharacterLoader where
  fetch : FetchFn
  wait : Int
  maxBatch : Int
  cache : Option Entries
  batch : Option Nat

/-- The function `NewCharacterLoader`. -/
def NewCharacterLoader (config : CharacterLoaderConfig) : CharacterLoader :=
  { fetch := config.Fetch, wait := config.Wait, maxBatch := config.MaxBatch,
    cache := none, batch := none }

/-- The function returned by `LoadThunk`: either the closure over a cached value, or the
closure over a batch pointer, a position and the key. -/
inductive Thunk where
  | cached (it : Value)
  | waiting (batch : Nat) (pos : Nat) (key : Int)
  deriving DecidableEq, Repr

/-- One invocation of the fetch function, as logged: the batch, the key list passed
and what came back. -/
structure FetchCall where
  batch : Nat
  keys : List Int
  result : FetchResult
  deriving DecidableEq, Repr

/-- The loader together with the heap of batches and the goroutines in flight.
`timers` are the batches whose `startTimer` goroutine still sleeps, `enders` the
batches whose `end` has been scheduled and has not run, `calls` the log of fetch
invocations and `handles` the waiting thunks handed out so far. -/
structure World where
  l : CharacterLoader
  heap : List characterLoaderBatch
  timers : List Nat
  enders : List Nat
  calls : List FetchCall
  handles : List Thunk

/-- The world right after `NewCharacterLoader`. -/
def World.new (config : CharacterLoaderConfig) : World :=
  { l := NewCharacterLoader config, heap := [], timers := [], enders := [], calls := [],
    handles := [] }

/-- Dereference a batch pointer.  Every pointer the loader or a handle holds is on the
heap (see `Inv`), so the default batch is never read in a reachable world. -/
def World.deref (w : World) (b : Nat) : characterLoaderBatch := w.heap.getD b default

/-- The method `unsafeSet`. -/
def unsafeSet (l : CharacterLoader) (key : Int) (value : Value) : CharacterLoader :=
  { l with cache := some (mapSet (l.cache.getD []) key value) }

/-- The loop at the head of `keyIndex`: the first index, counted from `i`, that holds `key`. -/
def scanKeys (key : Int) : List Int → Nat → Option Nat
  | [], _ => none
  | existingKey :: rest, i => if key = existingKey then some i else scanKeys key rest (i + 1)

/-- What `keyIndex` leaves behind: the batch, the loader, the returned position and
whether it spawned `startTimer` and `end`. -/
structure KeyIndexResult where
  b : characterLoaderBatch
  l : CharacterLoader
  pos : Nat
  goTimer : Bool
  goEnd : Bool

/-- The method `keyIndex`. -/
def keyIndex (b : characterLoaderBatch) (l : CharacterLoader) (key : Int) : KeyIndexResult :=
  match scanKeys key b.keys 0 with
  | some i => { b := b, l := l, pos := i, goTimer := false, goEnd := false }
  | none =>
    let pos := b.keys.length
    let b1 := { b with keys := b.keys ++ [key] }
    let goTimer := pos == 0
    if l.maxBatch ≠ 0 ∧ (pos : Int) ≥ wrapInt (l.maxBatch - 1) then
      if !b1.closing then
        { b := { b1 with closing := true }, l := { l with batch := none }, pos := pos,
          goTimer := goTimer, goEnd := true }
      else { b := b1, l := l, pos := pos, goTimer := goTimer, goEnd := false }
    else { b := b1, l := l, pos := pos, goTimer := goTimer, goEnd := false }

/-- The part of `LoadThunk` that runs under the mutex; it returns the thunk. -/
def LoadThunk (w : World) (key : Int) : World × Thunk :=
  match mapGet w.l.cache key with
  | some it => (w, Thunk.cached it)
  | none =>
    let w1 : World :=
      match w.l.batch with
      | some _ => w
      | none =>
        { w with l := { w.l with batch := some w.heap.length },
                 heap := w.heap ++ [⟨[], [], none, false, false⟩] }
    let batch := w1.l.batch.getD 0
    let r := keyIndex (w1.deref batch) w1.l key
    let t := Thunk.waiting batch r.pos key
    ({ l := r.l, heap := w1.heap.set batch r.b,
       timers := if r.goTimer then w1.timers ++ [batch] else w1.timers,
       enders := if r.goEnd then w1.enders ++ [batch] else w1.enders,
       calls := w1.calls, handles := w1.handles ++ [t] }, t)

/-- Calling a thunk returned by `LoadThunk`. -/
def Thunk.call (w : World) : Thunk → Run (World × (Value × Err))
  | Thunk.cached it => Run.ret (w, (it, none))
  | Thunk.waiting b pos key =>
    let batch := w.deref b
    if !batch.done then Run.blocks
    else
      let data : Value := if pos < batch.data.length then batch.data.getD pos none else none
      let err : Option Err :=
        match batch.error with
        | none => some none
        | some es => if es.length = 1 then some (es.getD 0 none) else es.get? pos
      match err with
      | none => Run.panics Fault.indexOutOfRange
      | some none => Run.ret ({ w with l := unsafeSet w.l key data }, (data, none))
      | some (some e) => Run.ret (w, (data, some e))

/-- The method `Prime`. -/
def Prime (w : World) (key : Int) (value : Value) : Run (World × Bool) :=
  match mapGet w.l.cache key with
  | some _ => Run.ret (w, false)
  | none =>
    match value with
    | none => Run.panics Fault.nilDereference
    | some cpy => Run.ret ({ w with l := unsafeSet w.l key (some cpy) }, true)

/-- The method `Clear`. -/
def Clear (w : World) (key : Int) : World :=
  { w with l := { w.l with cache := mapDelete w.l.cache key } }

/-- The method `startTimer` of batch `b`, from the moment its sleep is over. -/
def startTimer (w : World) (b : Nat) : World :=
  if (w.deref b).closing then { w with timers := w.timers.erase b }
  else
    { w with l := { w.l with batch := none }, timers := w.timers.erase b,
             enders := w.enders ++ [b] }

/-- The method `end` of batch `b`. -/
def endBatch (w : World) (b : Nat) : Run World :=
  let batch := w.deref b
  match w.l.fetch w.calls.length batch.keys with
  | none => Run.panics Fault.fetchAborted
  | some r =>
    if batch.done then Run.panics Fault.closeOfClosedChannel
    else
      Run.ret
        { w with heap := w.heap.set b { batch with data := r.data, error := r.error, done := true },
                 enders := w.enders.erase b,
                 calls := w.calls ++ [⟨b, batch.keys, r⟩] }

/-! ## Executions -/

/-- The atomic steps of an execution: a caller runs `LoadThunk`, calls a thunk it was
handed, runs `Prime` or `Clear`; the `startTimer` goroutine of batch `b` wakes up
(`timer b`); the scheduled `end` of batch `b` runs (`finish b`). -/
inductive Op where
  | loadThunk (key : Int)
  | call (t : Thunk)
  | prime (key : Int) (value : Value)
  | clear (key : Int)
  | timer (b : Nat)
  | finish (b : Nat)
  deriving DecidableEq, Repr

/-- One step: `none` when the step cannot be taken in this world (the goroutine does
not exist, the thunk was never handed out or blocks) or when it panics. -/
def step (w : World) : Op → Option World
  | Op.loadThunk key => some (LoadThunk w key).1
  | Op.call t => if t ∈ w.handles then ((t.call w).map Prod.fst).toOption else none
  | Op.prime key value => ((Prime w key value).map Prod.fst).toOption
  | Op.clear key => some (Clear w key)
  | Op.timer b => if b ∈ w.timers then some (startTimer w b) else none
  | Op.finish b => if b ∈ w.enders then (endBatch w b).toOption else none

/-- Run a list of steps. -/
def exec (w : World) : List Op → Option World
  | [] => some w
  | op :: ops => (step w op).bind (fun w1 => exec w1 ops)

/-- The worlds a loader built by `NewCharacterLoader config` can be in. -/
def Reachable (config : CharacterLoaderConfig) (w : World) : Prop :=
  ∃ ops, exec (World.new config) ops = some w

/-- The batches that have been fetched, by the log of invocations. -/
def World.fetched (w : World) : List Nat := w.calls.map FetchCall.batch

/-- The invariant of the reachable worlds. -/
structure Inv (config : CharacterLoaderConfig) (w : World) : Prop where
  maxBatch_eq : w.l.maxBatch = config.MaxBatch
  nodup : ∀ (i : Nat) (b : characterLoaderBatch), w.heap[i]? = some b → b.keys.Nodup
  nonempty : ∀ (i : Nat) (b : characterLoaderBatch), w.heap[i]? = some b → b.keys ≠ []
  open_ok : ∀ i, w.l.batch = some i → ∃ b, w.heap[i]? = some b ∧ b.closing = false ∧
    b.done = false ∧ i ∈ w.timers ∧ i ∉ w.enders ∧ i ∉ w.fetched
  timers_nodup : w.timers.Nodup
  timers_ok : ∀ i ∈ w.timers, ∃ b, w.heap[i]? = some b ∧ (b.closing = false → w.l.batch = some i)
  enders_ok : ∀ i ∈ w.enders, ∃ b, w.heap[i]? = some b ∧ b.done = false
  once : ∀ i, w.enders.count i + w.fetched.count i ≤ 1
  calls_ok : ∀ c ∈ w.calls, ∃ b, w.heap[c.batch]? = some b ∧ b.keys = c.keys ∧
    b.data = c.result.data ∧ b.error = c.result.error ∧ b.done = true
  handles_ok : ∀ i pos k, Thunk.waiting i pos k ∈ w.handles →
    ∃ b, w.heap[i]? = some b ∧ b.keys[pos]? = some k
  sealed_ok : ∀ (i : Nat) (b : characterLoaderBatch), w.heap[i]? = some b →
    w.l.batch = some i ∨ i ∈ w.enders ∨ i ∈ w.fetched
  done_ok : ∀ (i : Nat) (b : characterLoaderBatch), w.heap[i]? = some b → b.done = true → i ∈ w.fetched
  bound : isInt config.MaxBatch → 0 < config.MaxBatch →
    (∀ (i : Nat) (b : characterLoaderBatch), w.heap[i]? = some b → (b.keys.length : Int) ≤ config.MaxBatch) ∧
    (∀ (i : Nat) (b : characterLoaderBatch), w.l.batch = some i → w.heap[i]? = some b → (b.keys.length : Int) < config.MaxBatch)

/-! ## Example loaders -/

/-- A character with the given ID. -/
def exampleCharacter (id : Int) : Character :=
  { ID := id, Name := "name", Favorite := false, Description := "", CreatedAt := 0,
    UpdatedAt := 0, Aliases := none, ParentIDs := none, ChildIDs := none }

/-- A fetch function that finds every key and returns a nil error slice. -/
def fetchAll : FetchFn := fun _ keys =>
  some { data := keys.map (fun k => some (exampleCharacter k)), error := none }

/-- A fetch function with one error per key: key 2 is not found. -/
def fetchPerKey : FetchFn := fun _ keys =>
  some { data := keys.map (fun k => if k = 2 then none else some (exampleCharacter k)),
         error := some (keys.map (fun k => if k = 2 then some "not found" else none)) }

/-- A fetch function that returns a single error for the whole batch. -/
def fetchFails : FetchFn := fun _ _ =>
  some { data := [], error := some [some "unavailable"] }

/-- The world the steps `ops` lead to from a new loader, or the new loader itself
when a step cannot be taken. -/
def worldAfter (config : CharacterLoaderConfig) (ops : List Op) : World :=
  (exec (World.new config) ops).getD (World.new config)

/-- An unbounded loader in which keys 1 and 2 were requested (key 1 twice) and the
batch has been fetched after its timer fired. -/
def dedupWorld : World :=
  worldAfter { Fetch := fetchPerKey, Wait := 1, MaxBatch := 0 }
    [Op.loadThunk 1, Op.loadThunk 2, Op.loadThunk 1, Op.timer 0, Op.finish 0]

/-- The fetch invocation logged in `dedupWorld`. -/
def dedupCall : FetchCall :=
  { batch := 0, keys := [1, 2],
    result := { data := [some (exampleCharacter 1), none],
                error := some [none, some "not found"] } }

/-- A new unbounded loader whose cache was primed with key 7. -/
def primedWorld : World :=
  worldAfter { Fetch := fetchAll, Wait := 1, MaxBatch := 0 }
    [Op.prime 7 (some (exampleCharacter 7))]

/-- The world `dedupWorld` after the handle for key 1 has been resolved. -/
def resolvedWorld : World :=
  worldAfter { Fetch := fetchPerKey, Wait := 1, MaxBatch := 0 }
    [Op.loadThunk 1, Op.loadThunk 2, Op.loadThunk 1, Op.timer 0, Op.finish 0,
     Op.call (Thunk.waiting 0 0 1)]

/-- A loader with `MaxBatch = 2` in which keys 1, 2 and 3 were requested and the first
batch, sealed by the second admission, has been fetched. -/
def boundedWorld : World :=
  worldAfter { Fetch := fetchAll, Wait := 1, MaxBatch := 2 }
    [Op.loadThunk 1, Op.loadThunk 2, Op.loadThunk 3, Op.finish 0]

/-- A loader with `MaxBatch = 2` in which keys 1 and 2 were requested: the second
admission sealed batch 0 while its timer still sleeps. -/
def thresholdWorld : World :=
  worldAfter { Fetch := fetchAll, Wait := 1, MaxBatch := 2 } [Op.loadThunk 1, Op.loadThunk 2]

/-- An unbounded loader in which keys 1, 2 and 3 were requested and the batch has been
fetched, the fetch returning a single error. -/
def failedWorld : World :=
  worldAfter { Fetch := fetchFails, Wait := 1, MaxBatch := 0 }
    [Op.loadThunk 1, Op.loadThunk 2, Op.loadThunk 3, Op.timer 0, Op.finish 0]

/-- The fetch invocation logged in `failedWorld`. -/
def failedCall : FetchCall :=
  { batch := 0, keys := [1, 2, 3], result := { data := [], error := some [some "unavailable"] } }

/-! ## `LoadAll` -/

/-- What the rest of the program does between two steps of a caller: the steps `ops`
when they can all be taken, nothing otherwise. -/
def interfere (w : World) (ops : List Op) : World := (exec w ops).getD w

/-- The first loop of `LoadAll`: one `LoadThunk` per key, in input order.  Before each
of them the rest of the program takes the steps at the head of `env`. -/
def loadThunks (w : World) : List Int → List (List Op) → World × List Thunk
  | [], _ => (w, [])
  | key :: keys, env =>
    let r := LoadThunk (interfere w (env.headD [])) key
    let rest := loadThunks r.1 keys env.tail
    (rest.1, r.2 :: rest.2)

/-- What a caller blocked on batch `b` waits for: the timer of the batch, when it still
sleeps, wakes up, and the `end` of the batch, when it is scheduled, runs.  The `end` runs
in a goroutine of its own: when it does not get to `close(b.done)`, because the fetch
function aborts, the caller is not woken and stays on `<-batch.done`. -/
def await (w : World) (b : Nat) : Run World :=
  let w1 := if b ∈ w.timers then startTimer w b else w
  if b ∈ w1.enders then
    match endBatch w1 b with
    | Run.ret w2 => Run.ret w2
    | Run.panics _ => Run.blocks
    | Run.blocks => Run.blocks
  else Run.ret w1

/-- Calling a thunk and staying blocked on `<-batch.done` until the batch is done. -/
def Thunk.wait (w : World) (t : Thunk) : Run (World × (Value × Err)) :=
  match t with
  | Thunk.cached _ => t.call w
  | Thunk.waiting b _ _ =>
    if (w.deref b).done then t.call w
    else
      match await w b with
      | Run.ret w1 => t.call w1
      | Run.panics f => Run.panics f
      | Run.blocks => Run.blocks

/-- The method `Load`: `LoadThunk`, then the call of the thunk it returned, which stays
on `<-batch.done` until the batch is done. -/
def Load (w : World) (key : Int) : Run (World × (Value × Err)) :=
  (LoadThunk w key).2.wait (LoadThunk w key).1

/-- The second loop of `LoadAll`: the thunks are called in order.  Before each call the
rest of the program takes the steps at the head of `env`. -/
def callThunks (w : World) : List Thunk → List (List Op) → Run (World × List (Value × Err))
  | [], _ => Run.ret (w, [])
  | t :: ts, env =>
    match t.wait (interfere w (env.headD [])) with
    | Run.ret r => (callThunks r.1 ts env.tail).map (fun p => (p.1, r.2 :: p.2))
    | Run.panics f => Run.panics f
    | Run.blocks => Run.blocks

/-- The method `LoadAll`, run against the interference `env1` during its first loop and
`env2` during its second. -/
def LoadAll (w : World) (keys : List Int) (env1 env2 : List (List Op)) :
    Run (World × (List Value × List Err)) :=
  (callThunks (loadThunks w keys env1).1 (loadThunks w keys env1).2 env2).map
    (fun p => (p.1, (p.2.map Prod.fst, p.2.map Prod.snd)))

/-- Admissions one after the other, with no other step in between. -/
def admitAll (w : World) (keys : List Int) : World :=
  keys.foldl (fun w1 key => (LoadThunk w1 key).1) w

/-- A fetch function that keeps to the result contract: it always returns, and its error
slice is nil, holds one error, or has a position for every key. -/
def WellBehaved (fetch : FetchFn) : Prop :=
  ∀ (n : Nat) (keys : List Int), ∃ r, fetch n keys = some r ∧
    (r.error = none ∨ ∃ es, r.error = some es ∧ (es.length = 1 ∨ keys.length ≤ es.length))

/-- A second invariant of the reachable worlds: the loader keeps its fetch function, the
log holds what that function returned, and only a bounded loader marks a batch as
closing. -/
structure Log (config : CharacterLoaderConfig) (w : World) : Prop where
  fetch_eq : w.l.fetch = config.Fetch
  logged : ∀ c ∈ w.calls, ∃ n, config.Fetch n c.keys = some c.result
  closing_ok : ∀ (i : Nat) (b : characterLoaderBatch), w.heap[i]? = some b →
    b.closing = true → config.MaxBatch ≠ 0

/-- A thunk that `LoadThunk` may have returned in this world or before: a closure over a
cached value, or a waiting thunk on the list of handles. -/
def Issued (w : World) : Thunk → Prop
  | Thunk.cached _ => True
  | Thunk.waiting b pos key => Thunk.waiting b pos key ∈ w.handles

/-- A fetch function that fails the whole batch when key 3 is among the keys. -/
def fetchUnlessThree : FetchFn := fun _ keys =>
  if 3 ∈ keys then some { data := [], error := some [some "key 3 not found"] }
  else some { data := keys.map (fun k => some (exampleCharacter k)), error := none }

/-- A fetch function that breaks the contract: it returns a value for the first key only,
and a nil error slice. -/
def fetchShort : FetchFn := fun _ keys =>
  some { data := (keys.take 1).map (fun k => some (exampleCharacter k)), error := none }

/-- A fetch function that returns an error slice that is empty but not nil. -/
def fetchEmptyErrors : FetchFn := fun _ keys =>
  some { data := keys.map (fun k => some (exampleCharacter k)), error := some [] }

/-- A fetch function that aborts. -/
def fetchAborts : FetchFn := fun _ _ => none

/-- A loader with `MaxBatch = 2` in which keys 1, 2 and 3 were requested one after the
other, and then every batch was fetched: the first by its `end`, scheduled by the
second admission, the second after its timer fired. -/
def chunkedWorld : World :=
  worldAfter { Fetch := fetchAll, Wait := 1, MaxBatch := 2 }
    [Op.loadThunk 1, Op.loadThunk 2, Op.loadThunk 3, Op.finish 0, Op.timer 1, Op.finish 1]

/-- The world after a handle for `key` has resolved to the value `v` and the error `e`:
the value is written to the cache when the error is nil. -/
def cacheResult (w : World) (key : Int) (v : Value) (e : Err) : World :=
  if e = none then { w with l := unsafeSet w.l key v } else w

/-- An unbounded loader in which keys 1 and 2 were requested and the batch has been
fetched by a fetch function that returned one value for the two keys. -/
def shortWorld : World :=
  worldAfter { Fetch := fetchShort, Wait := 1, MaxBatch := 0 }
    [Op.loadThunk 1, Op.loadThunk 2, Op.timer 0, Op.finish 0]

/-- The fetch invocation logged in `shortWorld`. -/
def shortCall : FetchCall :=
  { batch := 0, keys := [1, 2], result := { data := [some (exampleCharacter 1)], error := none } }

/-- An unbounded loader in which key 1 was requested and the batch has been fetched by a
fetch function that returned an empty error slice. -/
def emptyErrorsWorld : World :=
  worldAfter { Fetch := fetchEmptyErrors, Wait := 1, MaxBatch := 0 }
    [Op.loadThunk 1, Op.timer 0, Op.finish 0]

/-- The fetch invocation logged in `emptyErrorsWorld`. -/
def emptyErrorsCall : FetchCall :=
  { batch := 0, keys := [1], result := { data := [some (exampleCharacter 1)], error := some [] } }

/-- An unbounded loader whose fetch function aborts, in which key 1 was requested and
the timer of its batch has fired. -/
def abortWorld : World :=
  worldAfter { Fetch := fetchAborts, Wait := 1, MaxBatch := 0 } [Op.loadThunk 1, Op.timer 0]

/-- An unbounded loader in which key 1 was requested: its batch is open and its timer
still sleeps. -/
def loneWorld : World :=
  worldAfter { Fetch := fetchAll, Wait := 1, MaxBatch := 0 } [Op.loadThunk 1]

/-- The world `loneWorld` after the timer of its batch has fired: the batch is sealed and
its `end` is scheduled. -/
def timedWorld : World :=
  worldAfter { Fetch := fetchAll, Wait := 1, MaxBatch := 0 } [Op.loadThunk 1, Op.timer 0]

/-- An unbounded loader in which key 1 was requested and fetched, and the cache was then
primed with another character under key 1 before the handle was resolved. -/
def overwriteWorld : World :=
  worldAfter { Fetch := fetchAll, Wait := 1, MaxBatch := 0 }
    [Op.loadThunk 1, Op.timer 0, Op.finish 0, Op.prime 1 (some (exampleCharacter 9))]

/-- The state of a loader that seals every batch at its first key: no batch is open, and
every batch holds one key and is closing. -/
def Single (w : World) : Prop :=
  w.l.batch = none ∧
  ∀ (i : Nat) (b : characterLoaderBatch), w.heap[i]? = some b → (∃ k, b.keys = [k]) ∧ b.closing = true

/-- A loader with the least `MaxBatch` there is, in which keys 1 and 2 were requested
one after the other, the timer of their batch has fired and the batch has been fetched. -/
def leastWorld : World :=
  worldAfter { Fetch := fetchAll, Wait := 1, MaxBatch := -(2 ^ 63) }
    [Op.loadThunk 1, Op.loadThunk 2, Op.timer 0, Op.finish 0]

/-- The fetch invocation logged in `leastWorld`. -/
def leastCall : FetchCall :=
  { batch := 0, keys := [1, 2],
    result := { data := [some (exampleCharacter 1), some (exampleCharacter 2)], error := none } }

/-- An unbounded loader in which key 5 was requested and the cache was then primed with a
character under key 5. -/
def admittedWorld : World :=
  worldAfter { Fetch := fetchAll, Wait := 1, MaxBatch := 0 }
    [Op.loadThunk 5, Op.prime 5 (some (exampleCharacter 5))]

end Loaders

/-! ## `pkg/models`: paths -/

/-- The struct `models.CharacterPath`: a character together with its path. -/
structure CharacterPath extends Character where
  Path : String
  deriving DecidableEq, Repr

/-! ## `pkg/models/jsonschema` -/

/-- The struct `jsonschema.Character`, with the fields that `export.go` and `import.go`
use; a nil slice is the empty list, and a time is the instant it holds. -/
structure jsonschema.Character where
  Name : String
  Description : String
  Favorite : Bool
  Aliases : List String
  Image : String
  Parents : List String
  CreatedAt : Int
  UpdatedAt : Int
  deriving DecidableEq, Repr

/-! ## `pkg/character` -/

namespace character

/-! ### Errors -/

/-- The struct `NameExistsError`. -/
structure NameExistsError where
  Name : String
  deriving DecidableEq, Repr

/-- The struct `NameUsedByAliasError`. -/
structure NameUsedByAliasError where
  Name : String
  OtherCharacter : String
  deriving DecidableEq, Repr

/-- The struct `InvalidCharacterHierarchyError`. -/
structure InvalidCharacterHierarchyError where
  Direction : String
  CurrentRelation : String
  InvalidCharacter : String
  ApplyingCharacter : String
  CharacterPath : String
  deriving DecidableEq, Repr

/-- The struct `ParentCharacterNotExistError`. -/
structure ParentCharacterNotExistError where
  missingParent : String
  deriving DecidableEq, Repr

/-- A non-nil Go `error` as this package meets it: one of its own error types, or an
error with the given message, such as a query of the store returns and `fmt.Errorf`
builds. -/
inductive Error where
  | nameExists (e : NameExistsError)
  | nameUsedByAlias (e : NameUsedByAliasError)
  | invalidHierarchy (e : InvalidCharacterHierarchyError)
  | parentNotExist (e : ParentCharacterNotExistError)
  | other (msg : String)
  deriving DecidableEq, Repr

/-- The method `Error` of `NameExistsError`. -/
def NameExistsError.Error (e : NameExistsError) : String :=
  "character with name '" ++ e.Name ++ "' already exists"

/-- The method `Error` of `NameUsedByAliasError`. -/
def NameUsedByAliasError.Error (e : NameUsedByAliasError) : String :=
  "name '" ++ e.Name ++ "' is used as alias for '" ++ e.OtherCharacter ++ "'"

/-- The method `Error` of `InvalidCharacterHierarchyError`. -/
def InvalidCharacterHierarchyError.Error (e : InvalidCharacterHierarchyError) : String :=
  if e.ApplyingCharacter = "" then
    "cannot apply character \"" ++ e.InvalidCharacter ++ "\" as a " ++ e.Direction
      ++ " of character as it is already " ++ e.CurrentRelation
  else
    "cannot apply character \"" ++ e.InvalidCharacter ++ "\" as a " ++ e.Direction
      ++ " of \"" ++ e.ApplyingCharacter ++ "\" as it is already " ++ e.CurrentRelation
      ++ " (" ++ e.CharacterPath ++ ")"

/-- The method `Error` of `ParentCharacterNotExistError`. -/
def ParentCharacterNotExistError.Error (e : ParentCharacterNotExistError) : String :=
  "parent character <" ++ e.missingParent ++ "> does not exist"

/-- The method `Error` of the interface `error`: the message, which is what the verb
`%v` prints. -/
def Error.message : Error → String
  | Error.nameExists e => e.Error
  | Error.nameUsedByAlias e => e.Error
  | Error.invalidHierarchy e => e.Error
  | Error.parentNotExist e => e.Error
  | Error.other msg => msg

/-- The call `fmt.Errorf(format, err)` for a format that is a text followed by `%v`:
a new error whose message is the text followed by the message of `err`. -/
def Errorf (text : String) (err : Error) : Error := Error.other (text ++ err.message)

/-! ### The hierarchy (`update.go`) -/

/-- The interface `RelationshipFinder`: each query returns its result and an error, nil
(`none`) when it succeeded.  The paths a query returns are pointers, none of them nil. -/
structure RelationshipFinder where
  FindAllAncestors : Int → List Int → List CharacterPath × Option Error
  FindAllDescendants : Int → List Int → List CharacterPath × Option Error
  GetParentIDs : Int → List Int × Option Error
  GetChildIDs : Int → List Int × Option Error

/-- A `map[int]*models.CharacterPath`: its entries, the first entry of a key counts. -/
abbrev PathMap := List (Int × CharacterPath)

/-- The assignment `m[path.ID] = path`. -/
def PathMap.set (m : PathMap) (path : CharacterPath) : PathMap :=
  (path.ID, path) :: m.filter (fun e => e.1 ≠ path.ID)

/-- The loop that fills a map from the paths a query returned. -/
def collect (paths : List CharacterPath) : PathMap := paths.foldl PathMap.set []

/-- The loop that validates the IDs in order and returns the first error. -/
def firstError (validate : Int → Option Error) : List Int → Option Error
  | [] => none
  | id :: ids =>
    match validate id with
    | some err => some err
    | none => firstError validate ids

/-- The function `ValidateHierarchyExisting`; `none` is the nil error. -/
def ValidateHierarchyExisting (character : Character) (parentIDs childIDs : List Int)
    (qb : RelationshipFinder) : Option Error :=
  match qb.FindAllAncestors character.ID [] with
  | (_, some err) => some err
  | (parentsAncestors, none) =>
    let allAncestors := collect parentsAncestors
    match qb.FindAllDescendants character.ID [] with
    | (_, some err) => some err
    | (childsDescendants, none) =>
      let allDescendants := collect childsDescendants
      let validateParent : Int → Option Error := fun testID =>
        match allDescendants.lookup testID with
        | some parentCharacter =>
          some (Error.invalidHierarchy
            { Direction := "parent", CurrentRelation := "a descendant",
              InvalidCharacter := parentCharacter.Name,
              ApplyingCharacter := character.Name,
              CharacterPath := parentCharacter.Path })
        | none => none
      let validateChild : Int → Option Error := fun testID =>
        match allAncestors.lookup testID with
        | some childCharacter =>
          some (Error.invalidHierarchy
            { Direction := "child", CurrentRelation := "an ancestor",
              InvalidCharacter := childCharacter.Name,
              ApplyingCharacter := character.Name,
              CharacterPath := childCharacter.Path })
        | none => none
      match firstError validateParent parentIDs with
      | some err => some err
      | none => firstError validateChild childIDs

/-- The characters of `update_test.go`. -/
def testCharacter (id : Int) (name : String) : Character :=
  { ID := id, Name := name, Favorite := false, Description := "", CreatedAt := 0,
    UpdatedAt := 0, Aliases := none, ParentIDs := none, ChildIDs := none }

/-- The paths of `update_test.go`: the character with an empty path. -/
def testPath (id : Int) (name : String) : CharacterPath :=
  { toCharacter := testCharacter id name, Path := "" }

/-- The store of a case of `update_test.go`: the two queries return the lists given. -/
def testFinder (ancestors descendants : List CharacterPath) : RelationshipFinder :=
  { FindAllAncestors := fun _ _ => (ancestors, none),
    FindAllDescendants := fun _ _ => (descendants, none),
    GetParentIDs := fun _ => ([], none),
    GetChildIDs := fun _ => ([], none) }

/-! ### Uniqueness of names (`update.go`) -/

/-- The store as `EnsureCharacterNameUnique` reads it, through the package functions
`ByName` and `ByAlias`: a lookup returns a character (nil, `none`, when it finds none)
and an error. -/
structure CharacterQueryer where
  ByName : String → Option Character × Option Error
  ByAlias : String → Option Character × Option Error

/-- The function `EnsureCharacterNameUnique`; `none` is the nil error.  The filter is the
test `sameNameCharacter != nil && id != sameNameCharacter.ID`. -/
def EnsureCharacterNameUnique (id : Int) (name : String) (qb : CharacterQueryer) :
    Option Error :=
  match qb.ByName name with
  | (_, some err) => some err
  | (sameNameCharacter, none) =>
    match sameNameCharacter.filter (fun c => id ≠ c.ID) with
    | some _ => some (Error.nameExists { Name := name })
    | none =>
      match qb.ByAlias name with
      | (_, some err) => some err
      | (sameNameCharacter, none) =>
        match sameNameCharacter.filter (fun c => id ≠ c.ID) with
        | some c => some (Error.nameUsedByAlias { Name := name, OtherCharacter := c.Name })
        | none => none

/-- The function `EnsureAliasesUnique`. -/
def EnsureAliasesUnique (id : Int) (aliases : List String) (qb : CharacterQueryer) :
    Option Error :=
  match aliases with
  | [] => none
  | a :: rest =>
    match EnsureCharacterNameUnique id a qb with
    | some err => some err
    | none => EnsureAliasesUnique id rest qb

/-- A store with two characters: "one" (ID 1), with the alias "uno", and "two" (ID 2). -/
def testQueryer : CharacterQueryer :=
  { ByName := fun name =>
      if name = "one" then (some (testCharacter 1 "one"), none)
      else if name = "two" then (some (testCharacter 2 "two"), none)
      else (none, none),
    ByAlias := fun name =>
      if name = "uno" then (some (testCharacter 1 "one"), none) else (none, none) }

/-! ### Merging (`update.go`) -/

/-- The closure `addTo` of `MergeHierarchy`; `allIds` is the variable it captures. -/
def addTo (allIds : List Int) (mergedItems characterIDs : List Int) : List Int :=
  characterIDs.foldl (fun mergedItems characterID =>
    if characterID ∈ mergedItems then mergedItems
    else if characterID ∈ allIds then mergedItems
    else mergedItems ++ [characterID]) mergedItems

/-- The loop of `MergeHierarchy` over `allIds`, from the IDs still to visit. -/
def mergeLoop (allIds : List Int) (qb : RelationshipFinder) :
    List Int → List Int → List Int → Except Error (List Int × List Int)
  | mergedParents, mergedChildren, [] => Except.ok (mergedParents, mergedChildren)
  | mergedParents, mergedChildren, id :: rest =>
    match qb.GetParentIDs id with
    | (_, some err) => Except.error err
    | (parents, none) =>
      let mergedParents := addTo allIds mergedParents parents
      match qb.GetChildIDs id with
      | (_, some err) => Except.error err
      | (children, none) =>
        let mergedChildren := addTo allIds mergedChildren children
        mergeLoop allIds qb mergedParents mergedChildren rest

/-- The function `MergeHierarchy`: the merged parents and the merged children, or the
error of a query. -/
def MergeHierarchy (destination : Int) (sources : List Int) (qb : RelationshipFinder) :
    Except Error (List Int × List Int) :=
  mergeLoop (destination :: sources) qb [] [] (destination :: sources)

/-- The distinct elements of a list, each at the place of its first occurrence. -/
def firstOccurrences : List Int → List Int
  | [] => []
  | x :: xs => x :: (firstOccurrences xs).filter (fun y => y ≠ x)

/-- A store of relations: character 1 has the parents 10, 2 and 11 and the child 20,
character 2 has the parents 11, 1 and 12 and the children 20 and 21. -/
def mergeFinder : RelationshipFinder :=
  { FindAllAncestors := fun _ _ => ([], none),
    FindAllDescendants := fun _ _ => ([], none),
    GetParentIDs := fun id => if id = 1 then ([10, 2, 11], none) else ([11, 1, 12], none),
    GetChildIDs := fun id => if id = 1 then ([20], none) else ([20, 21], none) }

/-- A store of relations whose query for the children of character 2 fails. -/
def failingFinder : RelationshipFinder :=
  { FindAllAncestors := fun _ _ => ([], none),
    FindAllDescendants := fun _ _ => ([], none),
    GetParentIDs := fun _ => ([10], none),
    GetChildIDs := fun id => if id = 2 then ([], some (Error.other "no children")) else ([], none) }

/-! ### Import (`import.go`) -/

/-- The type `models.ImportMissingRefEnum`, a string type: the three values that
`getParents` compares with, and `other` for every other value, the zero value included. -/
inductive ImportMissingRefEnum where
  | Fail
  | Ignore
  | Create
  | other
  deriving DecidableEq, Repr

/-- The interface `ImporterReaderWriter`, with the methods that `getParents` calls, over
a store in state `σ`: each call returns the next state of the store with its results.
`Create` returns the character as the call leaves it behind its pointer. -/
structure ImporterReaderWriter (σ : Type) where
  FindByName : σ → String → Bool → σ × (Option Character × Option Error)
  Create : σ → Character → σ × (Character × Option Error)

/-- The struct `Importer`, with the fields that `getParents` reads. -/
structure Importer (σ : Type) where
  ReaderWriter : ImporterReaderWriter σ
  Input : jsonschema.Character
  MissingRefBehaviour : ImportMissingRefEnum

/-- The method `createParent`; `newCharacter` is what `models.NewCharacter()` returned. -/
def Importer.createParent {σ : Type} (i : Importer σ) (newCharacter : Character) (s : σ)
    (name : String) : σ × (Int × Option Error) :=
  match i.ReaderWriter.Create s { newCharacter with Name := name } with
  | (s1, (_, some err)) => (s1, (0, some err))
  | (s1, (created, none)) => (s1, (created.ID, none))

/-- The loop of `getParents`, from the names still to visit. -/
def Importer.getParentsLoop {σ : Type} (i : Importer σ) (newCharacter : Character) :
    σ → List Int → List String → σ × Except Error (List Int)
  | s, parents, [] => (s, Except.ok parents)
  | s, parents, parent :: rest =>
    match i.ReaderWriter.FindByName s parent false with
    | (s1, (_, some err)) => (s1, Except.error (Errorf "error finding parent by name: " err))
    | (s1, (none, none)) =>
      if i.MissingRefBehaviour = ImportMissingRefEnum.Fail then
        (s1, Except.error (Error.parentNotExist { missingParent := parent }))
      else if i.MissingRefBehaviour = ImportMissingRefEnum.Ignore then
        i.getParentsLoop newCharacter s1 parents rest
      else if i.MissingRefBehaviour = ImportMissingRefEnum.Create then
        match i.createParent newCharacter s1 parent with
        | (s2, (_, some err)) => (s2, Except.error err)
        | (s2, (parentID, none)) => i.getParentsLoop newCharacter s2 (parents ++ [parentID]) rest
      else i.getParentsLoop newCharacter s1 parents rest
    | (s1, (some character, none)) =>
      i.getParentsLoop newCharacter s1 (parents ++ [character.ID]) rest

/-- The method `getParents`, run on a store in state `s`: the state it leaves, and the
IDs of the parents or an error. -/
def Importer.getParents {σ : Type} (i : Importer σ) (newCharacter : Character) (s : σ) :
    σ × Except Error (List Int) :=
  i.getParentsLoop newCharacter s [] i.Input.Parents

/-- A store that holds its characters in a list: `FindByName` returns the first character
of the name, `Create` gives the new character the ID 100 plus the number of characters
and fails for the name "CreateError". -/
def listStore : ImporterReaderWriter (List Character) :=
  { FindByName := fun s name _ => (s, (s.find? (fun c => c.Name = name), none)),
    Create := fun s c =>
      if c.Name = "CreateError" then (s, (c, some (Error.other "failed creating parent")))
      else (s ++ [{ c with ID := 100 + s.length }], ({ c with ID := 100 + s.length }, none)) }

/-- A store whose lookups fail. -/
def failingStore : ImporterReaderWriter (List Character) :=
  { FindByName := fun s _ _ => (s, (none, some (Error.other "failed finding parent"))),
    Create := fun s c => (s, (c, none)) }

/-- An importer of a character with the given parents. -/
def testImporter (rw : ImporterReaderWriter (List Character)) (parents : List String)
    (behaviour : ImportMissingRefEnum) : Importer (List Character) :=
  { ReaderWriter := rw,
    Input := { Name := "child", Description := "", Favorite := false, Aliases := [],
               Image := "", Parents := parents, CreatedAt := 0, UpdatedAt := 0 },
    MissingRefBehaviour := behaviour }

/-! ### Export (`export.go`) -/

/-- The interface `FinderAliasImageGetter`: each read returns its result and an error.
A `[]byte` is the list of its bytes, and the characters a read returns are pointers,
none of them nil. -/
structure FinderAliasImageGetter where
  GetAliases : Int → List String × Option Error
  GetImage : Int → List Nat × Option Error
  FindByChildCharacterID : Int → List Character × Option Error

/-- The function `GetNames`. -/
def GetNames (characters : List Character) : List String :=
  characters.foldl (fun results character => results ++ [character.Name]) []

/-- The function `ToJSON`: the JSON object or an error.  `GetBase64StringFromData` is the
function of that name of the package `utils`; the error of `GetImage` is only logged. -/
def ToJSON (GetBase64StringFromData : List Nat → String) (reader : FinderAliasImageGetter)
    (character : Character) : Except Error jsonschema.Character :=
  let newCharacterJSON : jsonschema.Character :=
    { Name := character.Name, Description := character.Description,
      Favorite := character.Favorite, Aliases := [], Image := "", Parents := [],
      CreatedAt := character.CreatedAt, UpdatedAt := character.UpdatedAt }
  match reader.GetAliases character.ID with
  | (_, some err) => Except.error (Errorf "error getting character aliases: " err)
  | (aliases, none) =>
    let newCharacterJSON := { newCharacterJSON with Aliases := aliases }
    let image := (reader.GetImage character.ID).1
    let newCharacterJSON :=
      if image.length > 0 then
        { newCharacterJSON with Image := GetBase64StringFromData image }
      else newCharacterJSON
    match reader.FindByChildCharacterID character.ID with
    | (_, some err) => Except.error (Errorf "error getting parents: " err)
    | (parents, none) => Except.ok { newCharacterJSON with Parents := GetNames parents }

/-- A stand-in for the encoder: one letter for each byte. -/
def testEncode (data : List Nat) : String := String.mk (data.map (fun _ => 'A'))

/-- The character of `export_test.go`. -/
def createCharacter (id : Int) : Character :=
  { ID := id, Name := "testCharacter", Favorite := true, Description := "description",
    CreatedAt := 978307200, UpdatedAt := 1009843200, Aliases := none, ParentIDs := none,
    ChildIDs := none }

/-- The store of `export_test.go`: character 1 has an alias and an image, the image of
character 3 cannot be read, the aliases of character 4 cannot be read, character 5 has a
parent, the parents of character 6 cannot be read.  Character 7 is not in the test: the
read of its image returns an error together with a byte. -/
def testReader : FinderAliasImageGetter :=
  { GetAliases := fun id =>
      if id = 1 then (["alias"], none)
      else if id = 4 then ([], some (Error.other "error getting aliases"))
      else ([], none),
    GetImage := fun id =>
      if id = 1 ∨ id = 5 then ([1, 2, 3], none)
      else if id = 3 then ([], some (Error.other "error getting image"))
      else if id = 7 then ([1], some (Error.other "error getting image"))
      else ([], none),
    FindByChildCharacterID := fun id =>
      if id = 5 then ([testCharacter 0 "parent"], none)
      else if id = 6 then ([], some (Error.other "error getting parents"))
      else ([], none) }

end character

namespace Loaders

/-! ## The invariant holds in every reachable world -/

theorem inv_new (config : CharacterLoaderConfig) : Inv config (World.new config) := by
  constructor <;> simp [World.new, NewCharacterLoader, World.fetched]

theorem inv_of_eq {config : CharacterLoaderConfig} {w w1 : World} (h : Inv config w)
    (h1 : w1.l.maxBatch = w.l.maxBatch) (h2 : w1.l.batch = w.l.batch) (h3 : w1.heap = w.heap)
    (h4 : w1.timers = w.timers) (h5 : w1.enders = w.enders) (h6 : w1.calls = w.calls)
    (h7 : w1.handles = w.handles) : Inv config w1 := by
  have h8 : w1.fetched = w.fetched := by simp [World.fetched, h6]
  constructor
  · rw [h1]; exact h.maxBatch_eq
  · rw [h3]; exact h.nodup
  · rw [h3]; exact h.nonempty
  · rw [h2, h3, h4, h5, h8]; exact h.open_ok
  · rw [h4]; exact h.timers_nodup
  · rw [h2, h3, h4]; exact h.timers_ok
  · rw [h3, h5]; exact h.enders_ok
  · rw [h5, h8]; exact h.once
  · rw [h3, h6]; exact h.calls_ok
  · rw [h3, h7]; exact h.handles_ok
  · rw [h2, h3, h5, h8]; exact h.sealed_ok
  · rw [h3, h8]; exact h.done_ok
  · rw [h2, h3]; exact h.bound

theorem inv_clear {config : CharacterLoaderConfig} {w : World} (h : Inv config w) (key : Int) :
    Inv config (Clear w key) :=
  inv_of_eq h rfl rfl rfl rfl rfl rfl rfl

theorem inv_prime {config : CharacterLoaderConfig} {w w1 : World} (h : Inv config w)
    (key : Int) (value : Value) (r : Bool) (hp : Prime w key value = Run.ret (w1, r)) :
    Inv config w1 := by
  unfold Prime at hp
  split at hp
  · cases hp; exact h
  · split at hp
    · cases hp
    · cases hp; exact inv_of_eq h rfl rfl rfl rfl rfl rfl rfl

theorem inv_call {config : CharacterLoaderConfig} {w w1 : World} (h : Inv config w)
    (t : Thunk) (r : Value × Err) (hp : t.call w = Run.ret (w1, r)) : Inv config w1 := by
  cases t with
  | cached it => simp only [Thunk.call] at hp; cases hp; exact h
  | waiting b pos key =>
    simp only [Thunk.call] at hp
    split at hp
    · cases hp
    · split at hp
      · cases hp
      · cases hp; exact inv_of_eq h rfl rfl rfl rfl rfl rfl rfl
      · cases hp; exact h

theorem deref_of_get {w : World} {i : Nat} {b : characterLoaderBatch}
    (h : w.heap[i]? = some b) : w.deref i = b := by
  simp [World.deref, List.getD_eq_getElem?_getD, h]

theorem get_set {heap : List characterLoaderBatch} {i : Nat} {b : characterLoaderBatch}
    (h : heap[i]? = some b) (b1 : characterLoaderBatch) (j : Nat) :
    (heap.set i b1)[j]? = if i = j then some b1 else heap[j]? := by
  obtain ⟨hi, _⟩ := List.getElem?_eq_some.mp h
  rw [List.getElem?_set]
  simp [hi]

theorem inv_timer {config : CharacterLoaderConfig} {w : World} (h : Inv config w)
    (i : Nat) (hi : i ∈ w.timers) : Inv config (startTimer w i) := by
  obtain ⟨b, hb, hopen⟩ := h.timers_ok i hi
  have hd := deref_of_get hb
  unfold startTimer
  rw [hd]
  cases hc : b.closing with
  | true =>
    simp only [if_true]
    have hne : ∀ j, w.l.batch = some j → j ≠ i := by
      intro j hj hji
      obtain ⟨b1, hb1, hcl, _⟩ := h.open_ok j hj
      rw [hji, hb] at hb1
      cases hb1
      rw [hc] at hcl
      cases hcl
    constructor
    · exact h.maxBatch_eq
    · exact h.nodup
    · exact h.nonempty
    · intro j hj
      obtain ⟨b1, hb1, h1, h2, h3, h4⟩ := h.open_ok j hj
      exact ⟨b1, hb1, h1, h2, (List.mem_erase_of_ne (hne j hj)).mpr h3, h4⟩
    · exact h.timers_nodup.erase i
    · intro j hj
      exact h.timers_ok j (List.mem_of_mem_erase hj)
    · exact h.enders_ok
    · exact h.once
    · exact h.calls_ok
    · exact h.handles_ok
    · exact h.sealed_ok
    · exact h.done_ok
    · exact h.bound
  | false =>
    simp only [Bool.false_eq_true, if_false]
    have ho := hopen hc
    obtain ⟨b1, hb1, _, hdone, _, hne, hnf⟩ := h.open_ok i ho
    rw [hb] at hb1
    cases hb1
    constructor
    · exact h.maxBatch_eq
    · exact h.nodup
    · exact h.nonempty
    · intro j hj
      cases hj
    · exact h.timers_nodup.erase i
    · intro j hj
      have hj1 := (h.timers_nodup.mem_erase_iff).mp hj
      obtain ⟨b2, hb2, h2⟩ := h.timers_ok j hj1.2
      refine ⟨b2, hb2, ?_⟩
      intro hcl
      have := h2 hcl
      rw [ho] at this
      exact absurd (Option.some.inj this).symm hj1.1
    · intro j hj
      rcases List.mem_append.mp hj with hj | hj
      · exact h.enders_ok j hj
      · rw [List.mem_singleton.mp hj]
        exact ⟨b, hb, hdone⟩
    · intro j
      show List.count j (w.enders ++ [i]) + List.count j w.fetched ≤ 1
      rw [List.count_append, List.count_singleton]
      by_cases hji : j = i
      · subst hji
        rw [List.count_eq_zero.mpr hne, List.count_eq_zero.mpr hnf]
        simp
      · have : ¬ ((i == j) = true) := by simpa using fun e => hji e.symm
        rw [if_neg this]
        exact h.once j
    · exact h.calls_ok
    · exact h.handles_ok
    · intro j b2 hb2
      rcases h.sealed_ok j b2 hb2 with h1 | h1 | h1
      · rw [ho] at h1
        cases h1
        exact Or.inr (Or.inl (List.mem_append.mpr (Or.inr (List.mem_singleton.mpr rfl))))
      · exact Or.inr (Or.inl (List.mem_append.mpr (Or.inl h1)))
      · exact Or.inr (Or.inr h1)
    · exact h.done_ok
    · intro h1 h2
      refine ⟨(h.bound h1 h2).1, ?_⟩
      intro j b2 hj
      cases hj

theorem fetched_append (w : World) (c : FetchCall) :
    List.map FetchCall.batch (w.calls ++ [c]) = w.fetched ++ [c.batch] := by
  simp [World.fetched]

theorem inv_finish {config : CharacterLoaderConfig} {w w1 : World} (h : Inv config w)
    (i : Nat) (hi : i ∈ w.enders) (hr : endBatch w i = Run.ret w1) : Inv config w1 := by
  obtain ⟨b, hb, hdone⟩ := h.enders_ok i hi
  have hd := deref_of_get hb
  unfold endBatch at hr
  simp only [hd, hdone, Bool.false_eq_true, if_false] at hr
  split at hr
  · cases hr
  rename_i r hf
  cases hr
  have hcnt : 1 ≤ List.count i w.enders := List.one_le_count_iff.mpr hi
  have hnf : i ∉ w.fetched := by
    intro hmem
    have h1 := List.one_le_count_iff.mpr hmem
    have h2 := h.once i
    omega
  have hopen : ∀ j, w.l.batch = some j → j ≠ i := by
    intro j hj hji
    obtain ⟨_, _, _, _, _, h5, _⟩ := h.open_ok j hj
    exact h5 (hji ▸ hi)
  have hget := get_set hb { b with data := r.data, error := r.error, done := true }
  have hkeys : ∀ (j : Nat) (b1 : characterLoaderBatch),
      (w.heap.set i { b with data := r.data, error := r.error, done := true })[j]? = some b1 →
      ∃ b0, w.heap[j]? = some b0 ∧ b1.keys = b0.keys ∧ b1.closing = b0.closing ∧
        (j ≠ i → b1 = b0) ∧ (j = i → b1.data = r.data ∧ b1.error = r.error ∧ b1.done = true) := by
    intro j b1 hb1
    rw [hget] at hb1
    by_cases hij : i = j
    · rw [if_pos hij] at hb1
      cases hb1
      subst hij
      exact ⟨b, hb, rfl, rfl, fun hne => absurd rfl hne, fun _ => ⟨rfl, rfl, rfl⟩⟩
    · rw [if_neg hij] at hb1
      exact ⟨b1, hb1, rfl, rfl, fun _ => rfl, fun e => absurd e.symm hij⟩
  have hsame : ∀ j, j ≠ i →
      (w.heap.set i { b with data := r.data, error := r.error, done := true })[j]? = w.heap[j]? := by
    intro j hj
    rw [hget, if_neg (fun e => hj e.symm)]
  constructor
  · exact h.maxBatch_eq
  · intro j b1 hb1
    obtain ⟨b0, hb0, hk, _⟩ := hkeys j b1 hb1
    rw [hk]
    exact h.nodup j b0 hb0
  · intro j b1 hb1
    obtain ⟨b0, hb0, hk, _⟩ := hkeys j b1 hb1
    rw [hk]
    exact h.nonempty j b0 hb0
  · intro j hj
    obtain ⟨b1, hb1, h1, h2, h3, h4, h5⟩ := h.open_ok j hj
    have hji := hopen j hj
    refine ⟨b1, ?_, h1, h2, h3, ?_, ?_⟩
    · show (w.heap.set i _)[j]? = some b1
      rw [hsame j hji]; exact hb1
    · exact fun hm => h4 (List.mem_of_mem_erase hm)
    · show j ∉ List.map FetchCall.batch (w.calls ++ [_])
      rw [fetched_append]
      intro hm
      rcases List.mem_append.mp hm with hm | hm
      · exact h5 hm
      · exact hji (List.mem_singleton.mp hm)
  · exact h.timers_nodup
  · intro j hj
    obtain ⟨b1, hb1, h1⟩ := h.timers_ok j hj
    by_cases hji : j = i
    · subst hji
      rw [hb] at hb1
      cases hb1
      refine ⟨{ b with data := r.data, error := r.error, done := true }, ?_, h1⟩
      show (w.heap.set j _)[j]? = some _
      rw [hget, if_pos rfl]
    · refine ⟨b1, ?_, h1⟩
      show (w.heap.set i _)[j]? = some b1
      rw [hsame j hji]; exact hb1
  · intro j hj
    have hj1 : j ∈ w.enders := List.mem_of_mem_erase hj
    have hji : j ≠ i := by
      intro e
      subst e
      have h1 : 1 ≤ List.count j (w.enders.erase j) := List.one_le_count_iff.mpr hj
      rw [List.count_erase_self] at h1
      have h2 := h.once j
      omega
    obtain ⟨b1, hb1, h1⟩ := h.enders_ok j hj1
    refine ⟨b1, ?_, h1⟩
    show (w.heap.set i _)[j]? = some b1
    rw [hsame j hji]; exact hb1
  · intro j
    show List.count j (w.enders.erase i) + List.count j (List.map FetchCall.batch (w.calls ++ [_])) ≤ 1
    rw [fetched_append, List.count_append, List.count_singleton]
    have h2 := h.once j
    by_cases hji : j = i
    · subst hji
      rw [List.count_erase_self]
      simp only [beq_self_eq_true, if_true]
      omega
    · have : ¬ ((i == j) = true) := by simpa using fun e => hji e.symm
      rw [if_neg this, List.count_erase_of_ne hji]
      exact h2
  · intro c hc
    rcases List.mem_append.mp hc with hc | hc
    · obtain ⟨b1, hb1, h1⟩ := h.calls_ok c hc
      have hci : c.batch ≠ i := by
        intro e
        exact hnf (e ▸ List.mem_map_of_mem FetchCall.batch hc)
      refine ⟨b1, ?_, h1⟩
      show (w.heap.set i _)[c.batch]? = some b1
      rw [hsame _ hci]; exact hb1
    · rw [List.mem_singleton.mp hc]
      refine ⟨{ b with data := r.data, error := r.error, done := true }, ?_, rfl, rfl, rfl, rfl⟩
      show (w.heap.set i _)[i]? = some _
      rw [hget, if_pos rfl]
  · intro j pos k hj
    obtain ⟨b1, hb1, h1⟩ := h.handles_ok j pos k hj
    by_cases hji : j = i
    · subst hji
      rw [hb] at hb1
      cases hb1
      refine ⟨{ b with data := r.data, error := r.error, done := true }, ?_, h1⟩
      show (w.heap.set j _)[j]? = some _
      rw [hget, if_pos rfl]
    · refine ⟨b1, ?_, h1⟩
      show (w.heap.set i _)[j]? = some b1
      rw [hsame j hji]; exact hb1
  · intro j b1 hb1
    show w.l.batch = some j ∨ j ∈ w.enders.erase i ∨ j ∈ List.map FetchCall.batch (w.calls ++ [_])
    rw [fetched_append]
    by_cases hji : j = i
    · subst hji
      exact Or.inr (Or.inr (List.mem_append.mpr (Or.inr (List.mem_singleton.mpr rfl))))
    · obtain ⟨b0, hb0, _⟩ := hkeys j b1 hb1
      rcases h.sealed_ok j b0 hb0 with h1 | h1 | h1
      · exact Or.inl h1
      · exact Or.inr (Or.inl ((List.mem_erase_of_ne hji).mpr h1))
      · exact Or.inr (Or.inr (List.mem_append.mpr (Or.inl h1)))
  · intro j b1 hb1 hd1
    show j ∈ List.map FetchCall.batch (w.calls ++ [_])
    rw [fetched_append]
    by_cases hji : j = i
    · subst hji
      exact List.mem_append.mpr (Or.inr (List.mem_singleton.mpr rfl))
    · obtain ⟨b0, hb0, _, _, h4, _⟩ := hkeys j b1 hb1
      rw [h4 hji] at hd1
      exact List.mem_append.mpr (Or.inl (h.done_ok j b0 hb0 hd1))
  · intro h1 h2
    obtain ⟨hb1, hb2⟩ := h.bound h1 h2
    constructor
    · intro j b1 hj
      obtain ⟨b0, hb0, hk, _⟩ := hkeys j b1 hj
      rw [hk]
      exact hb1 j b0 hb0
    · intro j b1 hj hj1
      obtain ⟨b0, hb0, hk, _⟩ := hkeys j b1 hj1
      rw [hk]
      exact hb2 j b0 hj hb0

/-- An admission into the open batch `i`: its key list grows by `ex`, and the batch is
sealed when `shut` is true. -/
theorem inv_admit {config : CharacterLoaderConfig} {w w1 : World} (h : Inv config w)
    {i : Nat} {b : characterLoaderBatch} (b1 : characterLoaderBatch) (ex : List Int)
    (shut : Bool) (pos : Nat) (key : Int)
    (ho : w.l.batch = some i) (hb : w.heap[i]? = some b)
    (hk : b1.keys = b.keys ++ ex) (hnd : b1.keys.Nodup) (hcl : b1.closing = shut)
    (hdn : b1.done = false) (hpos : b1.keys[pos]? = some key)
    (hbound : isInt config.MaxBatch → 0 < config.MaxBatch →
      (b1.keys.length : Int) ≤ config.MaxBatch ∧
      (shut = false → (b1.keys.length : Int) < config.MaxBatch))
    (e1 : w1.l.maxBatch = w.l.maxBatch)
    (e2 : w1.l.batch = if shut then none else some i)
    (e3 : w1.heap = w.heap.set i b1) (e4 : w1.timers = w.timers)
    (e5 : w1.enders = if shut then w.enders ++ [i] else w.enders)
    (e6 : w1.calls = w.calls)
    (e7 : w1.handles = w.handles ++ [Thunk.waiting i pos key]) : Inv config w1 := by
  have e8 : w1.fetched = w.fetched := by simp [World.fetched, e6]
  obtain ⟨b0, hb0, hcl0, hdn0, htm, hne, hnf⟩ := h.open_ok i ho
  rw [hb] at hb0
  cases hb0
  have hget := get_set hb b1
  have hat : w1.heap[i]? = some b1 := by rw [e3, hget, if_pos rfl]
  have hsame : ∀ j, j ≠ i → w1.heap[j]? = w.heap[j]? := by
    intro j hj
    rw [e3, hget, if_neg (fun e => hj e.symm)]
  have hsub : ∀ j, j ∈ w.enders → j ∈ w1.enders := by
    intro j hj
    rw [e5]
    split
    · exact List.mem_append.mpr (Or.inl hj)
    · exact hj
  constructor
  · rw [e1]; exact h.maxBatch_eq
  · intro j b2 hj
    by_cases hji : j = i
    · subst hji; rw [hat] at hj; cases hj; exact hnd
    · rw [hsame j hji] at hj; exact h.nodup j b2 hj
  · intro j b2 hj
    by_cases hji : j = i
    · subst hji; rw [hat] at hj; cases hj
      rw [hk]
      intro e
      exact h.nonempty j b hb (List.append_eq_nil.mp e).1
    · rw [hsame j hji] at hj; exact h.nonempty j b2 hj
  · intro j hj
    rw [e2] at hj
    cases shut with
    | true => cases hj
    | false =>
      simp only [Bool.false_eq_true, if_false] at hj e5
      cases hj
      rw [e4, e5, e8]
      exact ⟨b1, hat, hcl, hdn, htm, hne, hnf⟩
  · rw [e4]; exact h.timers_nodup
  · intro j hj
    rw [e4] at hj
    by_cases hji : j = i
    · subst hji
      refine ⟨b1, hat, ?_⟩
      intro hc
      rw [hcl] at hc
      rw [e2, hc]
      rfl
    · obtain ⟨b2, hb2, h2⟩ := h.timers_ok j hj
      refine ⟨b2, by rw [hsame j hji]; exact hb2, ?_⟩
      intro hc
      have := h2 hc
      rw [ho] at this
      exact absurd (Option.some.inj this).symm hji
  · intro j hj
    by_cases hji : j = i
    · subst hji
      exact ⟨b1, hat, hdn⟩
    · have hj1 : j ∈ w.enders := by
        rw [e5] at hj
        split at hj
        · rcases List.mem_append.mp hj with hj | hj
          · exact hj
          · exact absurd (List.mem_singleton.mp hj) hji
        · exact hj
      obtain ⟨b2, hb2, h2⟩ := h.enders_ok j hj1
      exact ⟨b2, by rw [hsame j hji]; exact hb2, h2⟩
  · intro j
    rw [e8, e5]
    have h2 := h.once j
    split
    · rw [List.count_append, List.count_singleton]
      by_cases hji : j = i
      · subst hji
        rw [List.count_eq_zero.mpr hne, List.count_eq_zero.mpr hnf]
        simp
      · have : ¬ ((i == j) = true) := by simpa using fun e => hji e.symm
        rw [if_neg this]
        exact h2
    · exact h2
  · intro c hc
    rw [e6] at hc
    obtain ⟨b2, hb2, h2⟩ := h.calls_ok c hc
    have hci : c.batch ≠ i := by
      intro e
      exact hnf (e ▸ List.mem_map_of_mem FetchCall.batch hc)
    exact ⟨b2, by rw [hsame _ hci]; exact hb2, h2⟩
  · intro j p k hj
    rw [e7] at hj
    rcases List.mem_append.mp hj with hj | hj
    · obtain ⟨b2, hb2, h2⟩ := h.handles_ok j p k hj
      by_cases hji : j = i
      · subst hji
        rw [hb] at hb2
        cases hb2
        refine ⟨b1, hat, ?_⟩
        rw [hk, List.getElem?_append_left (List.getElem?_eq_some.mp h2).1]
        exact h2
      · exact ⟨b2, by rw [hsame j hji]; exact hb2, h2⟩
    · cases List.mem_singleton.mp hj
      exact ⟨b1, hat, hpos⟩
  · intro j b2 hj
    rw [e8]
    by_cases hji : j = i
    · subst hji
      rw [e2, e5]
      cases shut with
      | true => exact Or.inr (Or.inl (List.mem_append.mpr (Or.inr (List.mem_singleton.mpr rfl))))
      | false => exact Or.inl rfl
    · rw [hsame j hji] at hj
      rcases h.sealed_ok j b2 hj with h1 | h1 | h1
      · rw [ho] at h1
        exact absurd (Option.some.inj h1).symm hji
      · exact Or.inr (Or.inl (hsub j h1))
      · exact Or.inr (Or.inr h1)
  · intro j b2 hj hd2
    rw [e8]
    by_cases hji : j = i
    · subst hji
      rw [hat] at hj
      cases hj
      rw [hdn] at hd2
      cases hd2
    · rw [hsame j hji] at hj
      exact h.done_ok j b2 hj hd2
  · intro h1 h2
    obtain ⟨hb1, hb2⟩ := h.bound h1 h2
    obtain ⟨hn1, hn2⟩ := hbound h1 h2
    constructor
    · intro j b2 hj
      by_cases hji : j = i
      · subst hji; rw [hat] at hj; cases hj; exact hn1
      · rw [hsame j hji] at hj; exact hb1 j b2 hj
    · intro j b2 hj hj1
      rw [e2] at hj
      cases shut with
      | true => cases hj
      | false =>
        simp only [Bool.false_eq_true, if_false] at hj
        cases hj
        rw [hat] at hj1
        cases hj1
        exact hn2 rfl

theorem get_concat {heap : List characterLoaderBatch} (x b : characterLoaderBatch) (j : Nat)
    (h : (heap ++ [x])[j]? = some b) :
    (j < heap.length ∧ heap[j]? = some b) ∨ (j = heap.length ∧ b = x) := by
  rcases Nat.lt_trichotomy j heap.length with hj | hj | hj
  · rw [List.getElem?_append_left hj] at h
    exact Or.inl ⟨hj, h⟩
  · subst hj
    rw [List.getElem?_concat_length] at h
    exact Or.inr ⟨rfl, (Option.some.inj h).symm⟩
  · rw [List.getElem?_eq_none (by simp; omega)] at h
    cases h

theorem get_lt {heap : List characterLoaderBatch} {j : Nat} {b : characterLoaderBatch}
    (h : heap[j]? = some b) : j < heap.length :=
  (List.getElem?_eq_some.mp h).1

theorem get_concat_old {heap : List characterLoaderBatch} (x : characterLoaderBatch) {j : Nat}
    {b : characterLoaderBatch} (h : heap[j]? = some b) : (heap ++ [x])[j]? = some b := by
  rw [List.getElem?_append_left (get_lt h)]
  exact h

/-- The first admission after the loader has no open batch: a new batch holding `key` is
put on the heap, its timer is started, and it is sealed at once when `shut` is true. -/
theorem inv_alloc {config : CharacterLoaderConfig} {w w1 : World} (h : Inv config w)
    (shut : Bool) (key : Int) (ho : w.l.batch = none)
    (hbound : isInt config.MaxBatch → 0 < config.MaxBatch →
      (1 : Int) ≤ config.MaxBatch ∧ (shut = false → (1 : Int) < config.MaxBatch))
    (e1 : w1.l.maxBatch = w.l.maxBatch)
    (e2 : w1.l.batch = if shut then none else some w.heap.length)
    (e3 : w1.heap = w.heap ++ [⟨[key], [], none, shut, false⟩])
    (e4 : w1.timers = w.timers ++ [w.heap.length])
    (e5 : w1.enders = if shut then w.enders ++ [w.heap.length] else w.enders)
    (e6 : w1.calls = w.calls)
    (e7 : w1.handles = w.handles ++ [Thunk.waiting w.heap.length 0 key]) : Inv config w1 := by
  have e8 : w1.fetched = w.fetched := by simp [World.fetched, e6]
  have hat : w1.heap[w.heap.length]? = some ⟨[key], [], none, shut, false⟩ := by
    rw [e3, List.getElem?_concat_length]
  have hold : ∀ (j : Nat) (b : characterLoaderBatch), w.heap[j]? = some b →
      w1.heap[j]? = some b := by
    intro j b hj
    rw [e3]
    exact get_concat_old _ hj
  have hnt : w.heap.length ∉ w.timers := by
    intro hm
    obtain ⟨b, hb, _⟩ := h.timers_ok _ hm
    exact absurd (get_lt hb) (lt_irrefl _)
  have hne : w.heap.length ∉ w.enders := by
    intro hm
    obtain ⟨b, hb, _⟩ := h.enders_ok _ hm
    exact absurd (get_lt hb) (lt_irrefl _)
  have hnf : w.heap.length ∉ w.fetched := by
    intro hm
    obtain ⟨c, hc, hcb⟩ := List.mem_map.mp hm
    obtain ⟨b, hb, _⟩ := h.calls_ok c hc
    rw [hcb] at hb
    exact absurd (get_lt hb) (lt_irrefl _)
  have hsub : ∀ j, j ∈ w.enders → j ∈ w1.enders := by
    intro j hj
    rw [e5]
    split
    · exact List.mem_append.mpr (Or.inl hj)
    · exact hj
  constructor
  · rw [e1]; exact h.maxBatch_eq
  · intro j b hj
    rw [e3] at hj
    rcases get_concat _ b j hj with ⟨_, hj⟩ | ⟨_, hj⟩
    · exact h.nodup j b hj
    · subst hj; simp
  · intro j b hj
    rw [e3] at hj
    rcases get_concat _ b j hj with ⟨_, hj⟩ | ⟨_, hj⟩
    · exact h.nonempty j b hj
    · subst hj; simp
  · intro j hj
    rw [e2] at hj
    cases shut with
    | true => cases hj
    | false =>
      simp only [Bool.false_eq_true, if_false] at hj e5
      cases hj
      rw [e4, e5, e8]
      exact ⟨_, hat, rfl, rfl, List.mem_append.mpr (Or.inr (List.mem_singleton.mpr rfl)), hne, hnf⟩
  · rw [e4]
    exact List.Nodup.append h.timers_nodup (List.nodup_singleton _)
      (by
        intro a ha hb
        rw [List.mem_singleton.mp hb] at ha
        exact hnt ha)
  · intro j hj
    rw [e4] at hj
    rcases List.mem_append.mp hj with hj | hj
    · obtain ⟨b, hb, h2⟩ := h.timers_ok j hj
      refine ⟨b, hold j b hb, ?_⟩
      intro hc
      have := h2 hc
      rw [ho] at this
      cases this
    · cases List.mem_singleton.mp hj
      refine ⟨_, hat, ?_⟩
      intro hc
      simp only at hc
      rw [e2, hc]
      rfl
  · intro j hj
    by_cases hji : j = w.heap.length
    · subst hji
      exact ⟨_, hat, rfl⟩
    · have hj1 : j ∈ w.enders := by
        rw [e5] at hj
        split at hj
        · rcases List.mem_append.mp hj with hj | hj
          · exact hj
          · exact absurd (List.mem_singleton.mp hj) hji
        · exact hj
      obtain ⟨b, hb, h2⟩ := h.enders_ok j hj1
      exact ⟨b, hold j b hb, h2⟩
  · intro j
    rw [e8, e5]
    have h2 := h.once j
    split
    · rw [List.count_append, List.count_singleton]
      by_cases hji : j = w.heap.length
      · subst hji
        rw [List.count_eq_zero.mpr hne, List.count_eq_zero.mpr hnf]
        simp
      · have : ¬ ((w.heap.length == j) = true) := by simpa using fun e => hji e.symm
        rw [if_neg this]
        exact h2
    · exact h2
  · intro c hc
    rw [e6] at hc
    obtain ⟨b, hb, h2⟩ := h.calls_ok c hc
    exact ⟨b, hold _ b hb, h2⟩
  · intro j p k hj
    rw [e7] at hj
    rcases List.mem_append.mp hj with hj | hj
    · obtain ⟨b, hb, h2⟩ := h.handles_ok j p k hj
      exact ⟨b, hold j b hb, h2⟩
    · cases List.mem_singleton.mp hj
      exact ⟨_, hat, rfl⟩
  · intro j b hj
    rw [e8]
    rw [e3] at hj
    rcases get_concat _ b j hj with ⟨_, hj⟩ | ⟨hj, _⟩
    · rcases h.sealed_ok j b hj with h1 | h1 | h1
      · rw [ho] at h1
        cases h1
      · exact Or.inr (Or.inl (hsub j h1))
      · exact Or.inr (Or.inr h1)
    · subst hj
      rw [e2, e5]
      cases shut with
      | true => exact Or.inr (Or.inl (List.mem_append.mpr (Or.inr (List.mem_singleton.mpr rfl))))
      | false => exact Or.inl rfl
  · intro j b hj hd
    rw [e8]
    rw [e3] at hj
    rcases get_concat _ b j hj with ⟨_, hj⟩ | ⟨_, hj⟩
    · exact h.done_ok j b hj hd
    · subst hj
      cases hd
  · intro h1 h2
    obtain ⟨hb1, hb2⟩ := h.bound h1 h2
    obtain ⟨hn1, hn2⟩ := hbound h1 h2
    constructor
    · intro j b hj
      rw [e3] at hj
      rcases get_concat _ b j hj with ⟨_, hj⟩ | ⟨_, hj⟩
      · exact hb1 j b hj
      · subst hj
        simpa using hn1
    · intro j b hj hj1
      rw [e2] at hj
      cases shut with
      | true => cases hj
      | false =>
        simp only [Bool.false_eq_true, if_false] at hj
        cases hj
        rw [hat] at hj1
        cases hj1
        simpa using hn2 rfl

/-! ## What `keyIndex` and `LoadThunk` do, case by case -/

theorem scanKeys_eq (key : Int) (ks : List Int) (i : Nat) :
    scanKeys key ks i = if key ∈ ks then some (i + ks.indexOf key) else none := by
  induction ks generalizing i with
  | nil => simp [scanKeys]
  | cons a rest ih =>
    unfold scanKeys
    by_cases h : key = a
    · subst h
      simp
    · rw [if_neg h, ih, List.indexOf_cons_ne _ (Ne.symm h)]
      by_cases hm : key ∈ rest
      · simp [hm]
        omega
      · simp [hm, h]

theorem wrapInt_pred {m : Int} (h1 : isInt m) (h2 : 0 < m) : wrapInt (m - 1) = m - 1 := by
  unfold isInt at h1
  unfold wrapInt
  have e63 : (2 : Int) ^ 63 = 9223372036854775808 := by norm_num
  have e64 : (2 : Int) ^ 64 = 18446744073709551616 := by norm_num
  rw [e63] at h1
  rw [e63, e64]
  omega

theorem keyIndex_found {b : characterLoaderBatch} {l : CharacterLoader} {key : Int}
    (h : key ∈ b.keys) :
    keyIndex b l key =
      { b := b, l := l, pos := b.keys.indexOf key, goTimer := false, goEnd := false } := by
  unfold keyIndex
  rw [scanKeys_eq, if_pos h]
  simp

theorem keyIndex_seal {b : characterLoaderBatch} {l : CharacterLoader} {key : Int}
    (h : key ∉ b.keys) (hc : b.closing = false)
    (hm : l.maxBatch ≠ 0 ∧ (b.keys.length : Int) ≥ wrapInt (l.maxBatch - 1)) :
    keyIndex b l key =
      { b := { b with keys := b.keys ++ [key], closing := true }, l := { l with batch := none },
        pos := b.keys.length, goTimer := b.keys.length == 0, goEnd := true } := by
  unfold keyIndex
  rw [scanKeys_eq, if_neg h]
  simp only [hc]
  rw [if_pos hm]
  simp

theorem keyIndex_append {b : characterLoaderBatch} {l : CharacterLoader} {key : Int}
    (h : key ∉ b.keys)
    (hm : ¬ (l.maxBatch ≠ 0 ∧ (b.keys.length : Int) ≥ wrapInt (l.maxBatch - 1))) :
    keyIndex b l key =
      { b := { b with keys := b.keys ++ [key] }, l := l,
        pos := b.keys.length, goTimer := b.keys.length == 0, goEnd := false } := by
  unfold keyIndex
  rw [scanKeys_eq, if_neg h]
  simp only
  rw [if_neg hm]

theorem LoadThunk_hit {w : World} {key : Int} {it : Value}
    (h : mapGet w.l.cache key = some it) : LoadThunk w key = (w, Thunk.cached it) := by
  unfold LoadThunk
  rw [h]

theorem LoadThunk_open {w : World} {key : Int} {i : Nat} {b : characterLoaderBatch}
    (hm : mapGet w.l.cache key = none) (ho : w.l.batch = some i) (hb : w.heap[i]? = some b) :
    LoadThunk w key =
      ({ l := (keyIndex b w.l key).l, heap := w.heap.set i (keyIndex b w.l key).b,
         timers := if (keyIndex b w.l key).goTimer then w.timers ++ [i] else w.timers,
         enders := if (keyIndex b w.l key).goEnd then w.enders ++ [i] else w.enders,
         calls := w.calls,
         handles := w.handles ++ [Thunk.waiting i (keyIndex b w.l key).pos key] },
       Thunk.waiting i (keyIndex b w.l key).pos key) := by
  unfold LoadThunk
  rw [hm]
  simp only [ho, Option.getD_some, deref_of_get hb]

theorem LoadThunk_new {w : World} {key : Int}
    (hm : mapGet w.l.cache key = none) (ho : w.l.batch = none) (shut : Bool)
    (hs : shut = true ↔ (w.l.maxBatch ≠ 0 ∧ (0 : Int) ≥ wrapInt (w.l.maxBatch - 1))) :
    LoadThunk w key =
      ({ l := { w.l with batch := if shut then none else some w.heap.length },
         heap := w.heap ++ [⟨[key], [], none, shut, false⟩],
         timers := w.timers ++ [w.heap.length],
         enders := if shut then w.enders ++ [w.heap.length] else w.enders,
         calls := w.calls,
         handles := w.handles ++ [Thunk.waiting w.heap.length 0 key] },
       Thunk.waiting w.heap.length 0 key) := by
  unfold LoadThunk
  rw [hm]
  simp only [ho, Option.getD_some, World.deref, List.getD_eq_getElem?_getD,
    List.getElem?_concat_length]
  cases shut with
  | true =>
    have hm1 := hs.mp rfl
    rw [keyIndex_seal (by simp) rfl (by simpa using hm1)]
    simp
  | false =>
    have hm1 : ¬ (w.l.maxBatch ≠ 0 ∧ (0 : Int) ≥ wrapInt (w.l.maxBatch - 1)) := by
      intro hc
      have := hs.mpr hc
      cases this
    rw [keyIndex_append (by simp) (by simpa using hm1)]
    simp

theorem inv_LoadThunk {config : CharacterLoaderConfig} {w : World} (h : Inv config w)
    (key : Int) : Inv config (LoadThunk w key).1 := by
  cases hm : mapGet w.l.cache key with
  | some it => rw [LoadThunk_hit hm]; exact h
  | none =>
    cases ho : w.l.batch with
    | none =>
      by_cases hs : w.l.maxBatch ≠ 0 ∧ (0 : Int) ≥ wrapInt (w.l.maxBatch - 1)
      · rw [LoadThunk_new hm ho true (by simpa using hs)]
        refine inv_alloc h true key ho ?_ rfl rfl rfl rfl rfl rfl rfl
        intro h1 h2
        rw [h.maxBatch_eq, wrapInt_pred h1 h2] at hs
        exact ⟨h2, fun e => by cases e⟩
      · rw [LoadThunk_new hm ho false (by simpa using hs)]
        refine inv_alloc h false key ho ?_ rfl rfl rfl rfl rfl rfl rfl
        intro h1 h2
        rw [h.maxBatch_eq, wrapInt_pred h1 h2] at hs
        refine ⟨h2, fun _ => ?_⟩
        by_contra hlt
        exact hs ⟨by omega, by omega⟩
    | some i =>
      obtain ⟨b, hb, hcl, hdn, htm, _, _⟩ := h.open_ok i ho
      have hne := h.nonempty i b hb
      have hlen : (b.keys.length == 0) = false := by
        cases hk : b.keys with
        | nil => exact absurd hk hne
        | cons a t => rfl
      rw [LoadThunk_open hm ho hb]
      by_cases hmem : key ∈ b.keys
      · rw [keyIndex_found hmem]
        refine inv_admit h b [] false (b.keys.indexOf key) key ho hb (by simp)
          (h.nodup i b hb) hcl hdn (List.getElem?_indexOf hmem) ?_ rfl ho rfl rfl rfl rfl rfl
        intro h1 h2
        obtain ⟨hb1, hb2⟩ := h.bound h1 h2
        exact ⟨hb1 i b hb, fun _ => hb2 i b ho hb⟩
      · have hnd : (b.keys ++ [key]).Nodup := by
          rw [List.nodup_append]
          refine ⟨h.nodup i b hb, List.nodup_singleton _, ?_⟩
          intro a ha hk
          rw [List.mem_singleton.mp hk] at ha
          exact hmem ha
        have hpos : (b.keys ++ [key])[b.keys.length]? = some key :=
          List.getElem?_concat_length _ _
        by_cases hs : w.l.maxBatch ≠ 0 ∧ (b.keys.length : Int) ≥ wrapInt (w.l.maxBatch - 1)
        · rw [keyIndex_seal hmem hcl hs]
          simp only [hlen, Bool.false_eq_true, if_false, if_true]
          refine inv_admit h { b with keys := b.keys ++ [key], closing := true } [key] true
            b.keys.length key ho hb rfl hnd rfl hdn hpos ?_
            rfl rfl rfl rfl rfl rfl rfl
          intro h1 h2
          obtain ⟨_, hb2⟩ := h.bound h1 h2
          have := hb2 i b ho hb
          refine ⟨?_, fun e => by cases e⟩
          simp only [List.length_append, List.length_singleton, Nat.cast_add, Nat.cast_one]
          omega
        · rw [keyIndex_append hmem hs]
          simp only [hlen, Bool.false_eq_true, if_false]
          refine inv_admit h { b with keys := b.keys ++ [key] } [key] false
            b.keys.length key ho hb rfl hnd hcl hdn hpos ?_ rfl ho rfl rfl rfl rfl rfl
          intro h1 h2
          rw [h.maxBatch_eq, wrapInt_pred h1 h2] at hs
          have hlt : (b.keys.length : Int) + 1 < config.MaxBatch := by
            by_contra hge
            exact hs ⟨by omega, by omega⟩
          simp only [List.length_append, List.length_singleton, Nat.cast_add, Nat.cast_one]
          exact ⟨by omega, fun _ => hlt⟩

theorem inv_step {config : CharacterLoaderConfig} {w w1 : World} (h : Inv config w)
    (op : Op) (hs : step w op = some w1) : Inv config w1 := by
  cases op with
  | loadThunk key =>
    simp only [step, Option.some.injEq] at hs
    rw [← hs]
    exact inv_LoadThunk h key
  | call t =>
    simp only [step] at hs
    split at hs
    · cases hc : t.call w with
      | ret a =>
        rw [hc] at hs
        simp only [Run.map, Run.toOption, Option.some.injEq] at hs
        rw [← hs]
        exact inv_call h t a.2 hc
      | panics f => rw [hc] at hs; simp [Run.map, Run.toOption] at hs
      | blocks => rw [hc] at hs; simp [Run.map, Run.toOption] at hs
    · cases hs
  | prime key value =>
    simp only [step] at hs
    cases hc : Prime w key value with
    | ret a =>
      rw [hc] at hs
      simp only [Run.map, Run.toOption, Option.some.injEq] at hs
      rw [← hs]
      exact inv_prime h key value a.2 hc
    | panics f => rw [hc] at hs; simp [Run.map, Run.toOption] at hs
    | blocks => rw [hc] at hs; simp [Run.map, Run.toOption] at hs
  | clear key =>
    simp only [step, Option.some.injEq] at hs
    rw [← hs]
    exact inv_clear h key
  | timer b =>
    simp only [step] at hs
    split at hs
    · rename_i hb
      simp only [Option.some.injEq] at hs
      rw [← hs]
      exact inv_timer h b hb
    · cases hs
  | finish b =>
    simp only [step] at hs
    split at hs
    · rename_i hb
      cases hc : endBatch w b with
      | ret a =>
        rw [hc] at hs
        simp only [Run.toOption, Option.some.injEq] at hs
        rw [← hs]
        exact inv_finish h b hb hc
      | panics f => rw [hc] at hs; simp [Run.toOption] at hs
      | blocks => rw [hc] at hs; simp [Run.toOption] at hs
    · cases hs

theorem inv_exec {config : CharacterLoaderConfig} (ops : List Op) {w w1 : World}
    (h : Inv config w) (hs : exec w ops = some w1) : Inv config w1 := by
  induction ops generalizing w with
  | nil =>
    simp only [exec, Option.some.injEq] at hs
    rw [← hs]
    exact h
  | cons op ops ih =>
    simp only [exec] at hs
    cases hw : step w op with
    | none => rw [hw] at hs; cases hs
    | some w2 =>
      rw [hw] at hs
      exact ih (inv_step h op hw) hs

theorem inv_reachable {config : CharacterLoaderConfig} {w : World}
    (h : Reachable config w) : Inv config w := by
  obtain ⟨ops, hops⟩ := h
  exact inv_exec ops (inv_new config) hops

/-! ## Frame lemmas -/

theorem set_same {heap : List characterLoaderBatch} {i : Nat} {b : characterLoaderBatch}
    (h : heap[i]? = some b) : heap.set i b = heap := by
  apply List.ext_getElem?
  intro j
  rw [get_set h]
  split
  · rename_i hij
    rw [← hij, h]
  · rfl

theorem LoadThunk_cache (w : World) (key : Int) : (LoadThunk w key).1.l.cache = w.l.cache := by
  unfold LoadThunk
  split
  · rfl
  · simp only [keyIndex]
    split <;> split <;> (try split) <;> (try split) <;> simp_all

theorem LoadThunk_frame {config : CharacterLoaderConfig} {w : World} (h : Inv config w)
    (key : Int) {j : Nat} {b : characterLoaderBatch} (hj : w.heap[j]? = some b)
    (hne : w.l.batch ≠ some j) : (LoadThunk w key).1.heap[j]? = some b := by
  cases hm : mapGet w.l.cache key with
  | some it => rw [LoadThunk_hit hm]; exact hj
  | none =>
    cases ho : w.l.batch with
    | none =>
      by_cases hs : w.l.maxBatch ≠ 0 ∧ (0 : Int) ≥ wrapInt (w.l.maxBatch - 1)
      · rw [LoadThunk_new hm ho true (by simpa using hs)]
        exact get_concat_old _ hj
      · rw [LoadThunk_new hm ho false (by simpa using hs)]
        exact get_concat_old _ hj
    | some i =>
      obtain ⟨b0, hb0, _⟩ := h.open_ok i ho
      rw [LoadThunk_open hm ho hb0]
      show (w.heap.set i _)[j]? = some b
      rw [get_set hb0, if_neg]
      · exact hj
      · intro e
        exact hne (by rw [ho, e])

theorem frozen_step {config : CharacterLoaderConfig} {w w1 : World} (h : Inv config w)
    (op : Op) (hs : step w op = some w1) {j : Nat} {b : characterLoaderBatch}
    (hj : w.heap[j]? = some b) (hd : b.done = true) : w1.heap[j]? = some b := by
  cases op with
  | loadThunk key =>
    simp only [step, Option.some.injEq] at hs
    rw [← hs]
    refine LoadThunk_frame h key hj ?_
    intro ho
    obtain ⟨b0, hb0, _, hdn, _⟩ := h.open_ok j ho
    rw [hj] at hb0
    cases hb0
    rw [hd] at hdn
    cases hdn
  | call t =>
    simp only [step] at hs
    split at hs
    · cases t with
      | cached it =>
        simp only [Thunk.call, Run.map, Run.toOption, Option.some.injEq] at hs
        rw [← hs]; exact hj
      | waiting i pos key =>
        simp only [Thunk.call] at hs
        split at hs
        · simp [Run.map, Run.toOption] at hs
        · split at hs
          · simp [Run.map, Run.toOption] at hs
          · simp only [Run.map, Run.toOption, Option.some.injEq] at hs
            rw [← hs]; exact hj
          · simp only [Run.map, Run.toOption, Option.some.injEq] at hs
            rw [← hs]; exact hj
    · cases hs
  | prime key value =>
    simp only [step, Prime] at hs
    split at hs
    · simp only [Run.map, Run.toOption, Option.some.injEq] at hs
      rw [← hs]; exact hj
    · split at hs
      · simp [Run.map, Run.toOption] at hs
      · simp only [Run.map, Run.toOption, Option.some.injEq] at hs
        rw [← hs]; exact hj
  | clear key =>
    simp only [step, Option.some.injEq] at hs
    rw [← hs]; exact hj
  | timer i =>
    simp only [step] at hs
    split at hs
    · simp only [Option.some.injEq] at hs
      rw [← hs]
      unfold startTimer
      split <;> exact hj
    · cases hs
  | finish i =>
    simp only [step] at hs
    split at hs
    · rename_i hi
      obtain ⟨b0, hb0, hdn⟩ := h.enders_ok i hi
      have hij : i ≠ j := by
        intro e
        rw [e, hj] at hb0
        cases hb0
        rw [hd] at hdn
        cases hdn
      unfold endBatch at hs
      simp only [deref_of_get hb0, hdn, Bool.false_eq_true, if_false] at hs
      split at hs
      · simp [Run.toOption] at hs
      · simp only [Run.toOption, Option.some.injEq] at hs
        rw [← hs]
        show (w.heap.set i _)[j]? = some b
        rw [get_set hb0, if_neg hij]
        exact hj
    · cases hs

theorem frozen_exec {config : CharacterLoaderConfig} (ops : List Op) {w w1 : World}
    (h : Inv config w) (hs : exec w ops = some w1) {j : Nat} {b : characterLoaderBatch}
    (hj : w.heap[j]? = some b) (hd : b.done = true) : w1.heap[j]? = some b := by
  induction ops generalizing w with
  | nil =>
    simp only [exec, Option.some.injEq] at hs
    rw [← hs]
    exact hj
  | cons op ops ih =>
    simp only [exec] at hs
    cases hw : step w op with
    | none => rw [hw] at hs; cases hs
    | some w2 =>
      rw [hw] at hs
      exact ih (inv_step h op hw) hs (frozen_step h op hw hj hd)

theorem call_congr {w w1 : World} {i : Nat} (h : w.deref i = w1.deref i) (pos : Nat) (key : Int) :
    ((Thunk.waiting i pos key).call w).map Prod.snd =
      ((Thunk.waiting i pos key).call w1).map Prod.snd := by
  simp only [Thunk.call, h]
  split
  · rfl
  · split <;> rfl

theorem pos_unique {ks : List Int} (hn : ks.Nodup) {p q : Nat} {k : Int}
    (hp : ks[p]? = some k) (hq : ks[q]? = some k) : p = q := by
  obtain ⟨h1, e1⟩ := List.getElem?_eq_some.mp hp
  obtain ⟨h2, e2⟩ := List.getElem?_eq_some.mp hq
  exact (List.Nodup.getElem_inj_iff hn).mp (e1.trans e2.symm)

theorem mem_of_get {ks : List Int} {p : Nat} {k : Int} (hp : ks[p]? = some k) : k ∈ ks := by
  obtain ⟨h1, e1⟩ := List.getElem?_eq_some.mp hp
  exact e1 ▸ List.getElem_mem h1

theorem exec_append (w : World) (ops1 ops2 : List Op) :
    exec w (ops1 ++ ops2) = (exec w ops1).bind (fun w1 => exec w1 ops2) := by
  induction ops1 generalizing w with
  | nil => rfl
  | cons op ops ih =>
    simp only [List.cons_append, exec]
    cases step w op with
    | none => rfl
    | some w2 => exact ih w2

theorem reachable_exec {config : CharacterLoaderConfig} {w w1 : World}
    (h : Reachable config w) (ops : List Op) (hs : exec w ops = some w1) :
    Reachable config w1 := by
  obtain ⟨ops0, h0⟩ := h
  refine ⟨ops0 ++ ops, ?_⟩
  rw [exec_append, h0]
  exact hs

/-! ## The cache -/

theorem lookup_head (a : Int) (v : Value) (es : Entries) :
    List.lookup a ((a, v) :: es) = some v := by
  simp [List.lookup_cons]

theorem lookup_tail {k a : Int} (h : k ≠ a) (v : Value) (es : Entries) :
    List.lookup k ((a, v) :: es) = List.lookup k es := by
  rw [List.lookup_cons]
  have : (k == a) = false := by simpa using h
  rw [this]

theorem filter_drop (a : Int) (v : Value) (es : Entries) :
    List.filter (fun e => decide (e.1 ≠ a)) ((a, v) :: es)
      = List.filter (fun e => decide (e.1 ≠ a)) es := by
  rw [List.filter_cons_of_neg]
  simp

theorem filter_keep {k a : Int} (h : a ≠ k) (v : Value) (es : Entries) :
    List.filter (fun e => decide (e.1 ≠ k)) ((a, v) :: es)
      = (a, v) :: List.filter (fun e => decide (e.1 ≠ k)) es := by
  rw [List.filter_cons_of_pos]
  simpa using h

theorem lookup_filter_self (es : Entries) (k : Int) :
    (es.filter (fun e => e.1 ≠ k)).lookup k = none := by
  induction es with
  | nil => rfl
  | cons e es ih =>
    obtain ⟨a, v⟩ := e
    by_cases h : a = k
    · subst h
      rw [filter_drop]; exact ih
    · rw [filter_keep h, lookup_tail (fun e => h e.symm)]; exact ih

theorem lookup_filter_ne (es : Entries) {k k1 : Int} (h : k1 ≠ k) :
    (es.filter (fun e => e.1 ≠ k)).lookup k1 = es.lookup k1 := by
  induction es with
  | nil => rfl
  | cons e es ih =>
    obtain ⟨a, v⟩ := e
    by_cases ha : a = k
    · subst ha
      rw [filter_drop, lookup_tail h]; exact ih
    · rw [filter_keep ha]
      by_cases hk : k1 = a
      · subst hk
        rw [lookup_head, lookup_head]
      · rw [lookup_tail hk, lookup_tail hk]; exact ih

theorem filter_absent (es : Entries) (k : Int) (h : es.lookup k = none) :
    es.filter (fun e => e.1 ≠ k) = es := by
  induction es with
  | nil => rfl
  | cons e es ih =>
    obtain ⟨a, v⟩ := e
    by_cases ha : a = k
    · subst ha
      rw [lookup_head] at h
      cases h
    · rw [lookup_tail (fun e => ha e.symm)] at h
      rw [filter_keep ha, ih h]

theorem mapGet_unsafeSet_self (l : CharacterLoader) (k : Int) (v : Value) :
    mapGet (unsafeSet l k v).cache k = some v := by
  simp only [unsafeSet, mapGet, mapSet]
  exact lookup_head k v _

theorem mapGet_unsafeSet_ne (l : CharacterLoader) {k k1 : Int} (h : k1 ≠ k) (v : Value) :
    mapGet (unsafeSet l k v).cache k1 = mapGet l.cache k1 := by
  simp only [unsafeSet, mapGet, mapSet]
  rw [lookup_tail h, lookup_filter_ne _ h]
  cases l.cache <;> rfl

theorem mapGet_unsafeSet_some (l : CharacterLoader) (k k1 : Int) (v : Value)
    (h : ∃ it, mapGet l.cache k1 = some it) : ∃ it, mapGet (unsafeSet l k v).cache k1 = some it := by
  by_cases hk : k1 = k
  · subst hk
    exact ⟨v, mapGet_unsafeSet_self l k1 v⟩
  · rw [mapGet_unsafeSet_ne l hk]
    exact h

theorem mapGet_mapDelete_self (m : Option Entries) (k : Int) :
    mapGet (mapDelete m k) k = none := by
  cases m with
  | none => rfl
  | some es => exact lookup_filter_self es k

theorem mapGet_mapDelete_ne (m : Option Entries) {k k1 : Int} (h : k1 ≠ k) :
    mapGet (mapDelete m k) k1 = mapGet m k1 := by
  cases m with
  | none => rfl
  | some es => exact lookup_filter_ne es h

theorem mapDelete_absent (m : Option Entries) (k : Int) (h : mapGet m k = none) :
    mapDelete m k = m := by
  cases m with
  | none => rfl
  | some es =>
    simp only [mapDelete]
    rw [filter_absent es k h]

theorem LoadThunk_miss {w : World} {k : Int} (h : mapGet w.l.cache k = none) :
    ∃ i pos, (LoadThunk w k).2 = Thunk.waiting i pos k := by
  unfold LoadThunk
  rw [h]
  exact ⟨_, _, rfl⟩

theorem cached_step {w w1 : World} {k : Int} (op : Op) (hs : step w op = some w1)
    (hne : op ≠ Op.clear k) (h : ∃ it, mapGet w.l.cache k = some it) :
    ∃ it, mapGet w1.l.cache k = some it := by
  cases op with
  | loadThunk key =>
    simp only [step, Option.some.injEq] at hs
    rw [← hs, LoadThunk_cache]
    exact h
  | call t =>
    simp only [step] at hs
    split at hs
    · cases t with
      | cached it =>
        simp only [Thunk.call, Run.map, Run.toOption, Option.some.injEq] at hs
        rw [← hs]; exact h
      | waiting i pos key =>
        simp only [Thunk.call] at hs
        split at hs
        · simp [Run.map, Run.toOption] at hs
        · split at hs
          · simp [Run.map, Run.toOption] at hs
          · simp only [Run.map, Run.toOption, Option.some.injEq] at hs
            rw [← hs]
            exact mapGet_unsafeSet_some _ _ _ _ h
          · simp only [Run.map, Run.toOption, Option.some.injEq] at hs
            rw [← hs]; exact h
    · cases hs
  | prime key value =>
    simp only [step, Prime] at hs
    split at hs
    · simp only [Run.map, Run.toOption, Option.some.injEq] at hs
      rw [← hs]; exact h
    · split at hs
      · simp [Run.map, Run.toOption] at hs
      · simp only [Run.map, Run.toOption, Option.some.injEq] at hs
        rw [← hs]
        exact mapGet_unsafeSet_some _ _ _ _ h
  | clear key =>
    simp only [step, Option.some.injEq] at hs
    rw [← hs]
    have hk : k ≠ key := by
      intro e
      exact hne (by rw [e])
    show ∃ it, mapGet (mapDelete w.l.cache key) k = some it
    rw [mapGet_mapDelete_ne _ hk]
    exact h
  | timer i =>
    simp only [step] at hs
    split at hs
    · simp only [Option.some.injEq] at hs
      rw [← hs]
      unfold startTimer
      split <;> exact h
    · cases hs
  | finish i =>
    simp only [step] at hs
    split at hs
    · unfold endBatch at hs
      simp only at hs
      split at hs
      · simp [Run.toOption] at hs
      · split at hs
        · simp [Run.toOption] at hs
        · simp only [Run.toOption, Option.some.injEq] at hs
          rw [← hs]; exact h
    · cases hs

theorem cached_exec {k : Int} (ops : List Op) {w w1 : World} (hs : exec w ops = some w1)
    (hne : Op.clear k ∉ ops) (h : ∃ it, mapGet w.l.cache k = some it) :
    ∃ it, mapGet w1.l.cache k = some it := by
  induction ops generalizing w with
  | nil =>
    simp only [exec, Option.some.injEq] at hs
    rw [← hs]
    exact h
  | cons op ops ih =>
    simp only [exec] at hs
    cases hw : step w op with
    | none => rw [hw] at hs; cases hs
    | some w2 =>
      rw [hw] at hs
      refine ih hs (fun hm => hne (List.mem_cons_of_mem _ hm)) (cached_step op hw ?_ h)
      intro e
      exact hne (e ▸ List.mem_cons_self _ _)

theorem Load_hit {w : World} {k : Int} {it : Value} (h : mapGet w.l.cache k = some it) :
    Load w k = Run.ret (w, (it, none)) := by
  unfold Load
  rw [LoadThunk_hit h]
  rfl

/-! ## Sealed batches stay sealed -/

theorem LoadThunk_calls (w : World) (key : Int) : (LoadThunk w key).1.calls = w.calls := by
  unfold LoadThunk
  split
  · rfl
  · cases w.l.batch <;> rfl

theorem LoadThunk_enders (w : World) (key : Int) {i : Nat} (h : i ∈ w.enders) :
    i ∈ (LoadThunk w key).1.enders := by
  unfold LoadThunk
  split
  · exact h
  · cases w.l.batch <;> simp only <;> split <;>
      first
      | exact h
      | exact List.mem_append.mpr (Or.inl h)

theorem LoadThunk_handle {w : World} {key : Int} (h : mapGet w.l.cache key = none) :
    (LoadThunk w key).2 ∈ (LoadThunk w key).1.handles := by
  unfold LoadThunk
  rw [h]
  simp

theorem sealed_step {w w1 : World} (op : Op) (hs : step w op = some w1) {i : Nat}
    (h : i ∈ w.enders ∨ i ∈ w.fetched) : i ∈ w1.enders ∨ i ∈ w1.fetched := by
  cases op with
  | loadThunk key =>
    simp only [step, Option.some.injEq] at hs
    rw [← hs]
    rcases h with h | h
    · exact Or.inl (LoadThunk_enders w key h)
    · refine Or.inr ?_
      unfold World.fetched
      rw [LoadThunk_calls]
      exact h
  | call t =>
    simp only [step] at hs
    split at hs
    · cases t with
      | cached it =>
        simp only [Thunk.call, Run.map, Run.toOption, Option.some.injEq] at hs
        rw [← hs]; exact h
      | waiting j pos key =>
        simp only [Thunk.call] at hs
        split at hs
        · simp [Run.map, Run.toOption] at hs
        · split at hs
          · simp [Run.map, Run.toOption] at hs
          · simp only [Run.map, Run.toOption, Option.some.injEq] at hs
            rw [← hs]; exact h
          · simp only [Run.map, Run.toOption, Option.some.injEq] at hs
            rw [← hs]; exact h
    · cases hs
  | prime key value =>
    simp only [step, Prime] at hs
    split at hs
    · simp only [Run.map, Run.toOption, Option.some.injEq] at hs
      rw [← hs]; exact h
    · split at hs
      · simp [Run.map, Run.toOption] at hs
      · simp only [Run.map, Run.toOption, Option.some.injEq] at hs
        rw [← hs]; exact h
  | clear key =>
    simp only [step, Option.some.injEq] at hs
    rw [← hs]; exact h
  | timer j =>
    simp only [step] at hs
    split at hs
    · simp only [Option.some.injEq] at hs
      rw [← hs]
      unfold startTimer
      split
      · exact h
      · rcases h with h | h
        · exact Or.inl (List.mem_append.mpr (Or.inl h))
        · exact Or.inr h
    · cases hs
  | finish j =>
    simp only [step] at hs
    split at hs
    · unfold endBatch at hs
      simp only at hs
      split at hs
      · simp [Run.toOption] at hs
      · split at hs
        · simp [Run.toOption] at hs
        · simp only [Run.toOption, Option.some.injEq] at hs
          rw [← hs]
          show i ∈ w.enders.erase j ∨ i ∈ List.map FetchCall.batch (w.calls ++ [_])
          rw [fetched_append]
          by_cases hij : i = j
          · exact Or.inr (List.mem_append.mpr (Or.inr (List.mem_singleton.mpr hij)))
          · rcases h with h | h
            · exact Or.inl ((List.mem_erase_of_ne hij).mpr h)
            · exact Or.inr (List.mem_append.mpr (Or.inl h))
    · cases hs

theorem sealed_exec (ops : List Op) {w w1 : World} (hs : exec w ops = some w1) {i : Nat}
    (h : i ∈ w.enders ∨ i ∈ w.fetched) : i ∈ w1.enders ∨ i ∈ w1.fetched := by
  induction ops generalizing w with
  | nil =>
    simp only [exec, Option.some.injEq] at hs
    rw [← hs]
    exact h
  | cons op ops ih =>
    simp only [exec] at hs
    cases hw : step w op with
    | none => rw [hw] at hs; cases hs
    | some w2 =>
      rw [hw] at hs
      exact ih hs (sealed_step op hw h)

theorem reachable_LoadThunk {config : CharacterLoaderConfig} {w : World}
    (h : Reachable config w) (key : Int) : Reachable config (LoadThunk w key).1 :=
  reachable_exec h [Op.loadThunk key] rfl

theorem reachable_timer {config : CharacterLoaderConfig} {w : World}
    (h : Reachable config w) {i : Nat} (hi : i ∈ w.timers) :
    Reachable config (startTimer w i) :=
  reachable_exec h [Op.timer i] (by simp [exec, step, hi])

theorem startTimer_open {w : World} {i : Nat} (hc : (w.deref i).closing = false) :
    (startTimer w i).l.batch = none ∧ (startTimer w i).enders = w.enders ++ [i] := by
  unfold startTimer
  rw [if_neg (by simp [hc])]
  exact ⟨rfl, rfl⟩

/-! ## The claims -/

/-- C1 (dedup).  In every reachable world no batch on the heap and no key list passed to
fetch holds a key twice.  Two handles for the same key that wait on the same batch have
the same position, the key occurs exactly once in the batch and in the key list its fetch
received, a further request for the key while that batch is open and the key is not cached
returns the very same handle and leaves the heap as it is, and once the batch is done every
handle for the key on that batch resolves, now and in any later world, to the same
outcome. -/
theorem dedup (config : CharacterLoaderConfig) (w : World) (hw : Reachable config w) :
    (∀ (i : Nat) (b : characterLoaderBatch), w.heap[i]? = some b → b.keys.Nodup) ∧
    (∀ c ∈ w.calls, c.keys.Nodup) ∧
    (∀ (i pos1 pos2 : Nat) (k : Int), Thunk.waiting i pos1 k ∈ w.handles →
      Thunk.waiting i pos2 k ∈ w.handles → pos1 = pos2) ∧
    (∀ (i pos : Nat) (k : Int), Thunk.waiting i pos k ∈ w.handles →
      (w.deref i).keys.count k = 1 ∧ ∀ c ∈ w.calls, c.batch = i → c.keys.count k = 1) ∧
    (∀ (i pos : Nat) (k : Int), Thunk.waiting i pos k ∈ w.handles → w.l.batch = some i →
      mapGet w.l.cache k = none →
      (LoadThunk w k).2 = Thunk.waiting i pos k ∧ (LoadThunk w k).1.heap = w.heap) ∧
    (∀ (i pos : Nat) (k : Int), Thunk.waiting i pos k ∈ w.handles → (w.deref i).done = true →
      ∀ (ops : List Op) (w1 : World), exec w ops = some w1 →
      ∀ pos1 : Nat, Thunk.waiting i pos1 k ∈ w1.handles →
        ((Thunk.waiting i pos1 k).call w1).map Prod.snd =
          ((Thunk.waiting i pos k).call w).map Prod.snd) := by
  have h := inv_reachable hw
  refine ⟨h.nodup, ?_, ?_, ?_, ?_, ?_⟩
  · intro c hc
    obtain ⟨b, hb, hk, _⟩ := h.calls_ok c hc
    rw [← hk]
    exact h.nodup _ b hb
  · intro i pos1 pos2 k h1 h2
    obtain ⟨b, hb, hp1⟩ := h.handles_ok i pos1 k h1
    obtain ⟨b2, hb2, hp2⟩ := h.handles_ok i pos2 k h2
    rw [hb] at hb2
    cases hb2
    exact pos_unique (h.nodup i b hb) hp1 hp2
  · intro i pos k h1
    obtain ⟨b, hb, hp⟩ := h.handles_ok i pos k h1
    have hc : b.keys.count k = 1 := List.count_eq_one_of_mem (h.nodup i b hb) (mem_of_get hp)
    refine ⟨by rw [deref_of_get hb]; exact hc, ?_⟩
    intro c hc1 hci
    obtain ⟨b2, hb2, hk, _⟩ := h.calls_ok c hc1
    rw [hci, hb] at hb2
    cases hb2
    rw [← hk]
    exact hc
  · intro i pos k h1 ho hm
    obtain ⟨b, hb, hp⟩ := h.handles_ok i pos k h1
    have hmem := mem_of_get hp
    rw [LoadThunk_open hm ho hb, keyIndex_found hmem]
    have hpos : b.keys.indexOf k = pos :=
      pos_unique (h.nodup i b hb) (List.getElem?_indexOf hmem) hp
    refine ⟨by rw [hpos], ?_⟩
    exact set_same hb
  · intro i pos k h1 hd ops w1 hs pos1 h2
    obtain ⟨b, hb, hp⟩ := h.handles_ok i pos k h1
    rw [deref_of_get hb] at hd
    have hb1 := frozen_exec ops h hs hb hd
    have hinv1 := inv_exec ops h hs
    obtain ⟨b2, hb2, hp2⟩ := hinv1.handles_ok i pos1 k h2
    rw [hb1] at hb2
    cases hb2
    have hpp : pos1 = pos := pos_unique (h.nodup i b hb) hp2 hp
    subst hpp
    exact call_congr (by rw [deref_of_get hb, deref_of_get hb1]) pos1 k

theorem dedup_witness :
    Reachable { Fetch := fetchPerKey, Wait := 1, MaxBatch := 0 } dedupWorld ∧
    (dedupWorld.deref 0).keys = [1, 2] ∧
    (dedupWorld.deref 0).keys.count 1 = 1 ∧
    (∀ c ∈ dedupWorld.calls, c.keys.Nodup) :=
  have hr : Reachable { Fetch := fetchPerKey, Wait := 1, MaxBatch := 0 } dedupWorld :=
    ⟨[Op.loadThunk 1, Op.loadThunk 2, Op.loadThunk 1, Op.timer 0, Op.finish 0], rfl⟩
  ⟨hr, rfl,
    ((dedup _ dedupWorld hr).2.2.2.1 0 0 1 (by decide)).1,
    (dedup _ dedupWorld hr).2.1⟩

/-- C2 (positional result distribution).  In a reachable world, take a fetch invocation
that returned a value slice and an error slice both as long as its key list, and a handle
that waits on its batch at position `pos` for key `k`.  Then `k` is the key at `pos` of
the key list passed to fetch, `pos` is the index of `k` in that list, and the handle
resolves to the value and the error that fetch returned at `pos`. -/
theorem positional_results (config : CharacterLoaderConfig) (w : World)
    (hw : Reachable config w) (c : FetchCall) (hc : c ∈ w.calls) (es : List Err)
    (he : c.result.error = some es) (hd : c.result.data.length = c.keys.length)
    (hl : es.length = c.keys.length) (pos : Nat) (k : Int)
    (ht : Thunk.waiting c.batch pos k ∈ w.handles) :
    c.keys[pos]? = some k ∧ c.keys.indexOf k = pos ∧
    ∃ (v : Value) (e : Err), c.result.data[pos]? = some v ∧ es[pos]? = some e ∧
      ((Thunk.waiting c.batch pos k).call w).map Prod.snd = Run.ret (v, e) := by
  have h := inv_reachable hw
  obtain ⟨b, hb, hk, hdata, herr, hdone⟩ := h.calls_ok c hc
  obtain ⟨b2, hb2, hp⟩ := h.handles_ok c.batch pos k ht
  rw [hb] at hb2
  cases hb2
  rw [hk] at hp
  have hnd : c.keys.Nodup := hk ▸ h.nodup _ b hb
  have hlt : pos < c.keys.length := (List.getElem?_eq_some.mp hp).1
  have hlt1 : pos < c.result.data.length := by omega
  have hlt2 : pos < es.length := by omega
  refine ⟨hp, pos_unique hnd (List.getElem?_indexOf (mem_of_get hp)) hp, ?_⟩
  refine ⟨c.result.data[pos], es[pos], List.getElem?_eq_getElem hlt1,
    List.getElem?_eq_getElem hlt2, ?_⟩
  have hgetD : c.result.data.getD pos none = c.result.data[pos] := by
    rw [List.getD_eq_getElem?_getD, List.getElem?_eq_getElem hlt1]
    rfl
  have herr2 : (if es.length = 1 then some (es.getD 0 none) else es.get? pos)
      = some es[pos] := by
    split
    · rename_i h1
      have hp0 : pos = 0 := by omega
      subst hp0
      rw [List.getD_eq_getElem?_getD, List.getElem?_eq_getElem hlt2]
      rfl
    · rw [List.get?_eq_getElem?, List.getElem?_eq_getElem hlt2]
  simp only [Thunk.call, deref_of_get hb, hdone, herr, he, hgetD, herr2, hdata, hlt1,
    Bool.not_true, Bool.false_eq_true, if_false, if_true]
  cases es[pos] <;> simp only [Run.map]

theorem positional_results_witness :
    Reachable { Fetch := fetchPerKey, Wait := 1, MaxBatch := 0 } dedupWorld ∧
    dedupCall ∈ dedupWorld.calls ∧
    Thunk.waiting 0 1 2 ∈ dedupWorld.handles ∧
    dedupCall.keys[1]? = some 2 ∧ dedupCall.keys.indexOf 2 = 1 :=
  have hr : Reachable { Fetch := fetchPerKey, Wait := 1, MaxBatch := 0 } dedupWorld :=
    ⟨[Op.loadThunk 1, Op.loadThunk 2, Op.loadThunk 1, Op.timer 0, Op.finish 0], rfl⟩
  have hp := positional_results _ dedupWorld hr dedupCall (by decide)
    [none, some "not found"] rfl rfl rfl 1 2 (by decide)
  ⟨hr, by decide, by decide, hp.1, hp.2.1⟩

/-- C3 (cache hit), as amended.  Let a handle for `k` resolve with a nil error, the handle
being either one that waited on a batch, or one issued by `LoadThunk` with no `Clear(k)`
between its issue and its resolution.  Then in every later world reached without a
`Clear(k)` the key is cached, `LoadThunk(k)` returns the closure over the cached value and
`Load(k)` returns that value with a nil error, both leaving the whole world (the open-batch
reference and every batch) as it is; and right after the resolution of a waiting handle
the cached value is the resolved one. -/
theorem cache_hit (w w1 : World) (t : Thunk) (k : Int) (v : Value)
    (ht : (∃ i pos, t = Thunk.waiting i pos k) ∨
      (∃ (w0 : World) (ops0 : List Op), t = (LoadThunk w0 k).2 ∧
        exec (LoadThunk w0 k).1 ops0 = some w ∧ Op.clear k ∉ ops0))
    (hcall : t.call w = Run.ret (w1, (v, none))) :
    ((∃ i pos, t = Thunk.waiting i pos k) → mapGet w1.l.cache k = some v) ∧
    ∀ (ops : List Op) (w2 : World), exec w1 ops = some w2 → Op.clear k ∉ ops →
      ∃ it, mapGet w2.l.cache k = some it ∧ LoadThunk w2 k = (w2, Thunk.cached it) ∧
        Load w2 k = Run.ret (w2, (it, none)) := by
  have hwait : (∃ i pos, t = Thunk.waiting i pos k) → mapGet w1.l.cache k = some v := by
    rintro ⟨i, pos, rfl⟩
    simp only [Thunk.call] at hcall
    split at hcall
    · cases hcall
    · split at hcall
      · cases hcall
      · cases hcall
        exact mapGet_unsafeSet_self _ _ _
      · cases hcall
  have hnow : ∃ it, mapGet w1.l.cache k = some it := by
    rcases ht with hw | ⟨w0, ops0, e, hs, hne⟩
    · exact ⟨v, hwait hw⟩
    · cases hm : mapGet w0.l.cache k with
      | none =>
        obtain ⟨i, pos, e2⟩ := LoadThunk_miss hm
        exact ⟨v, hwait ⟨i, pos, e.trans e2⟩⟩
      | some it =>
        rw [LoadThunk_hit hm] at e hs
        subst e
        simp only [Thunk.call] at hcall
        cases hcall
        exact cached_exec ops0 hs hne ⟨_, hm⟩
  refine ⟨hwait, ?_⟩
  intro ops w2 hs hne
  obtain ⟨it, hit⟩ := cached_exec ops hs hne hnow
  exact ⟨it, hit, LoadThunk_hit hit, Load_hit hit⟩

theorem cache_hit_witness :
    (Thunk.waiting 0 0 1).call dedupWorld
      = Run.ret (resolvedWorld, (some (exampleCharacter 1), none)) ∧
    mapGet resolvedWorld.l.cache 1 = some (some (exampleCharacter 1)) :=
  ⟨rfl, (cache_hit dedupWorld resolvedWorld (Thunk.waiting 0 0 1) 1 (some (exampleCharacter 1))
    (Or.inl ⟨0, 0, rfl⟩) rfl).1 ⟨0, 0, rfl⟩⟩

/-- C3, as stated, fails for a handle that was served from the cache: with key 7 primed,
`LoadThunk(7)` returns the closure over the cached value; after `Clear(7)` that handle
still resolves to the value with a nil error, and the next `LoadThunk(7)`, with no
`Clear(7)` after the resolution, opens batch 0 and admits key 7 into it. -/
theorem cache_hit_counterexample :
    LoadThunk primedWorld 7 = (primedWorld, Thunk.cached (some (exampleCharacter 7))) ∧
    (Thunk.cached (some (exampleCharacter 7))).call (Clear primedWorld 7)
      = Run.ret (Clear primedWorld 7, (some (exampleCharacter 7), none)) ∧
    (LoadThunk (Clear primedWorld 7) 7).2 = Thunk.waiting 0 0 7 ∧
    (Clear primedWorld 7).l.batch = none ∧
    (LoadThunk (Clear primedWorld 7) 7).1.l.batch = some 0 ∧
    (LoadThunk (Clear primedWorld 7) 7).1.heap = [⟨[7], [], none, false, false⟩] :=
  ⟨rfl, rfl, rfl, rfl, rfl, rfl⟩

/-- C4 (max-batch bound).  For a loader with `MaxBatch > 0`, in every reachable world
every key list passed to fetch has at least one and at most `MaxBatch` keys, the open
batch holds at least one and fewer than `MaxBatch` keys, and an admission after which the
batch of the returned handle holds `MaxBatch` keys has sealed that batch in the same step:
the loader's reference is detached, the batch is marked as closing and its `end` is
scheduled. -/
theorem max_batch_bound (config : CharacterLoaderConfig) (hint : isInt config.MaxBatch)
    (hpos : 0 < config.MaxBatch) (w : World) (hw : Reachable config w) :
    (∀ c ∈ w.calls, 1 ≤ c.keys.length ∧ (c.keys.length : Int) ≤ config.MaxBatch) ∧
    (∀ i, w.l.batch = some i →
      1 ≤ (w.deref i).keys.length ∧ ((w.deref i).keys.length : Int) < config.MaxBatch) ∧
    (∀ (k : Int) (i pos : Nat), (LoadThunk w k).2 = Thunk.waiting i pos k →
      (((LoadThunk w k).1.deref i).keys.length : Int) = config.MaxBatch →
      (LoadThunk w k).1.l.batch = none ∧ ((LoadThunk w k).1.deref i).closing = true ∧
        i ∈ (LoadThunk w k).1.enders) := by
  have h := inv_reachable hw
  obtain ⟨hb1, hb2⟩ := h.bound hint hpos
  refine ⟨?_, ?_, ?_⟩
  · intro c hc
    obtain ⟨b, hb, hk, _⟩ := h.calls_ok c hc
    rw [← hk]
    refine ⟨?_, hb1 _ b hb⟩
    exact List.length_pos.mpr (h.nonempty _ b hb)
  · intro i ho
    obtain ⟨b, hb, _⟩ := h.open_ok i ho
    rw [deref_of_get hb]
    exact ⟨List.length_pos.mpr (h.nonempty _ b hb), hb2 i b ho hb⟩
  · intro k i pos ht hlen
    cases hm : mapGet w.l.cache k with
    | some it => rw [LoadThunk_hit hm] at ht; cases ht
    | none =>
      cases ho : w.l.batch with
      | none =>
        by_cases hs : w.l.maxBatch ≠ 0 ∧ (0 : Int) ≥ wrapInt (w.l.maxBatch - 1)
        · rw [LoadThunk_new hm ho true (by simpa using hs)] at ht ⊢
          cases ht
          have hat : (w.heap ++ [(⟨[k], [], none, true, false⟩ : characterLoaderBatch)])[
              w.heap.length]? = some ⟨[k], [], none, true, false⟩ :=
            List.getElem?_concat_length _ _
          refine ⟨rfl, ?_, List.mem_append.mpr (Or.inr (List.mem_singleton.mpr rfl))⟩
          simp only [World.deref, List.getD_eq_getElem?_getD, hat, Option.getD_some]
        · exfalso
          rw [LoadThunk_new hm ho false (by simpa using hs)] at ht hlen
          cases ht
          have hat : (w.heap ++ [(⟨[k], [], none, false, false⟩ : characterLoaderBatch)])[
              w.heap.length]? = some ⟨[k], [], none, false, false⟩ :=
            List.getElem?_concat_length _ _
          simp only [World.deref, List.getD_eq_getElem?_getD, hat, Option.getD_some,
            List.length_singleton, Nat.cast_one] at hlen
          rw [h.maxBatch_eq, wrapInt_pred hint hpos] at hs
          exact hs ⟨by omega, by omega⟩
      | some j =>
        obtain ⟨b0, hb0, hcl0, _⟩ := h.open_ok j ho
        rw [LoadThunk_open hm ho hb0] at ht hlen ⊢
        have hij : j = i := by cases ht; rfl
        subst hij
        have hd : ∀ (x : characterLoaderBatch) (l1 : CharacterLoader)
            (t1 e1 : List Nat) (c1 : List FetchCall) (h1 : List Thunk),
            World.deref ⟨l1, w.heap.set j x, t1, e1, c1, h1⟩ j = x := by
          intro x l1 t1 e1 c1 h1
          apply deref_of_get
          show (w.heap.set j x)[j]? = some x
          rw [get_set hb0, if_pos rfl]
        rw [hd] at hlen ⊢
        by_cases hmem0 : k ∈ b0.keys
        · exfalso
          rw [keyIndex_found hmem0] at hlen
          have := hb2 j b0 ho hb0
          simp only at hlen
          omega
        · by_cases hs : w.l.maxBatch ≠ 0 ∧ (b0.keys.length : Int) ≥ wrapInt (w.l.maxBatch - 1)
          · rw [keyIndex_seal hmem0 hcl0 hs]
            exact ⟨rfl, rfl, List.mem_append.mpr (Or.inr (List.mem_singleton.mpr rfl))⟩
          · exfalso
            rw [keyIndex_append hmem0 hs] at hlen
            simp only [List.length_append, List.length_singleton, Nat.cast_add,
              Nat.cast_one] at hlen
            rw [h.maxBatch_eq, wrapInt_pred hint hpos] at hs
            exact hs ⟨by omega, by omega⟩

theorem max_batch_bound_witness :
    Reachable { Fetch := fetchAll, Wait := 1, MaxBatch := 2 } boundedWorld ∧
    boundedWorld.calls.map FetchCall.keys = [[1, 2]] ∧
    (∀ c ∈ boundedWorld.calls, 1 ≤ c.keys.length ∧ (c.keys.length : Int) ≤ 2) ∧
    boundedWorld.l.batch = some 1 ∧
    (1 ≤ (boundedWorld.deref 1).keys.length ∧ ((boundedWorld.deref 1).keys.length : Int) < 2) :=
  have hr : Reachable { Fetch := fetchAll, Wait := 1, MaxBatch := 2 } boundedWorld :=
    ⟨[Op.loadThunk 1, Op.loadThunk 2, Op.loadThunk 3, Op.finish 0], rfl⟩
  have hb := max_batch_bound { Fetch := fetchAll, Wait := 1, MaxBatch := 2 } (by decide)
    (by decide) boundedWorld hr
  ⟨hr, rfl, hb.1, rfl, hb.2.1 1 rfl⟩

/-- C5 (exactly-once sealing).  In every reachable world the log holds at most one fetch
invocation per batch, and the `end` of a batch is scheduled or has run at most once in
all.  When the size threshold sealed a batch first, its timer only exits.  When the timer
finds its batch not closing, it detaches the batch and schedules its `end`, and in no
later world is that batch the open batch again or its `end` scheduled a second time. -/
theorem sealed_once (config : CharacterLoaderConfig) (w : World) (hw : Reachable config w) :
    (∀ i, (w.calls.map FetchCall.batch).count i ≤ 1) ∧
    (∀ i, w.enders.count i + (w.calls.map FetchCall.batch).count i ≤ 1) ∧
    (∀ i ∈ w.timers, (w.deref i).closing = true →
      startTimer w i = { w with timers := w.timers.erase i }) ∧
    (∀ i ∈ w.timers, (w.deref i).closing = false →
      (startTimer w i).l.batch = none ∧ (startTimer w i).enders.count i = 1 ∧
      ∀ (ops : List Op) (w1 : World), exec (startTimer w i) ops = some w1 →
        w1.l.batch ≠ some i ∧
        w1.enders.count i + (w1.calls.map FetchCall.batch).count i ≤ 1) := by
  have h := inv_reachable hw
  refine ⟨?_, h.once, ?_, ?_⟩
  · intro i
    have := h.once i
    unfold World.fetched at this
    omega
  · intro i _ hc
    unfold startTimer
    rw [if_pos hc]
  · intro i hi hc
    have hr := reachable_timer hw hi
    have h1 := inv_reachable hr
    have hst := startTimer_open hc
    have hmem : i ∈ (startTimer w i).enders := by
      rw [hst.2]
      exact List.mem_append.mpr (Or.inr (List.mem_singleton.mpr rfl))
    refine ⟨hst.1, ?_, ?_⟩
    · have h2 := h1.once i
      have h3 : 1 ≤ List.count i (startTimer w i).enders := List.one_le_count_iff.mpr hmem
      omega
    · intro ops w1 hs
      have h2 := inv_exec ops h1 hs
      refine ⟨?_, h2.once i⟩
      intro ho
      obtain ⟨_, _, _, _, _, hne, hnf⟩ := h2.open_ok i ho
      rcases sealed_exec ops hs (Or.inl hmem) with h3 | h3
      · exact hne h3
      · exact hnf h3

theorem sealed_once_witness :
    Reachable { Fetch := fetchAll, Wait := 1, MaxBatch := 2 } thresholdWorld ∧
    thresholdWorld.timers = [0] ∧ (thresholdWorld.deref 0).closing = true ∧
    thresholdWorld.enders = [0] ∧
    startTimer thresholdWorld 0 = { thresholdWorld with timers := thresholdWorld.timers.erase 0 } ∧
    (startTimer thresholdWorld 0).enders = [0] :=
  have hr : Reachable { Fetch := fetchAll, Wait := 1, MaxBatch := 2 } thresholdWorld :=
    ⟨[Op.loadThunk 1, Op.loadThunk 2], rfl⟩
  ⟨hr, rfl, rfl, rfl, (sealed_once _ thresholdWorld hr).2.2.1 0 (by decide) rfl, rfl⟩

/-- C6 (errors are never cached).  When a handle resolves with a non-nil error, the world
after the resolution is the world before it, the cache included.  So, in a reachable
world, a key that was not cached is still not cached, and the next `LoadThunk` of that key
returns a waiting handle whose batch holds the key at the handle's position. -/
theorem errors_not_cached (config : CharacterLoaderConfig) (w : World)
    (hw : Reachable config w) (t : Thunk) (w1 : World) (v : Value) (e : String)
    (hcall : t.call w = Run.ret (w1, (v, some e))) :
    w1 = w ∧
    ∀ k : Int, mapGet w.l.cache k = none →
      mapGet w1.l.cache k = none ∧
      ∃ (j p : Nat) (b : characterLoaderBatch), (LoadThunk w1 k).2 = Thunk.waiting j p k ∧
        (LoadThunk w1 k).1.heap[j]? = some b ∧ b.keys[p]? = some k := by
  have hsame : w1 = w := by
    cases t with
    | cached it => simp only [Thunk.call] at hcall; cases hcall
    | waiting i pos key =>
      simp only [Thunk.call] at hcall
      split at hcall
      · cases hcall
      · split at hcall
        · cases hcall
        · cases hcall
        · cases hcall; rfl
  subst hsame
  refine ⟨rfl, ?_⟩
  intro k hk
  refine ⟨hk, ?_⟩
  obtain ⟨j, p, hj⟩ := LoadThunk_miss hk
  have h1 := inv_reachable (reachable_LoadThunk hw k)
  have hmem := LoadThunk_handle hk
  rw [hj] at hmem
  obtain ⟨b, hb, hp⟩ := h1.handles_ok j p k hmem
  exact ⟨j, p, b, hj, hb, hp⟩

theorem errors_not_cached_witness :
    Reachable { Fetch := fetchPerKey, Wait := 1, MaxBatch := 0 } dedupWorld ∧
    (Thunk.waiting 0 1 2).call dedupWorld = Run.ret (dedupWorld, (none, some "not found")) ∧
    mapGet dedupWorld.l.cache 2 = none ∧
    (LoadThunk dedupWorld 2).2 = Thunk.waiting 1 0 2 :=
  have hr : Reachable { Fetch := fetchPerKey, Wait := 1, MaxBatch := 0 } dedupWorld :=
    ⟨[Op.loadThunk 1, Op.loadThunk 2, Op.loadThunk 1, Op.timer 0, Op.finish 0], rfl⟩
  have hc : (Thunk.waiting 0 1 2).call dedupWorld
      = Run.ret (dedupWorld, (none, some "not found")) := rfl
  ⟨hr, hc,
    ((errors_not_cached _ dedupWorld hr (Thunk.waiting 0 1 2) dedupWorld none "not found" hc).2
      2 rfl).1, rfl⟩

/-- C7 (uniform error).  In a reachable world, when the fetch of a batch returned an error
slice holding exactly one error, and that error is not nil, every handle on that batch,
whatever its key and position, resolves with that error (and with the value at its
position, nil when there is none), leaving the world and so the cache as it is. -/
theorem uniform_error (config : CharacterLoaderConfig) (w : World) (hw : Reachable config w)
    (c : FetchCall) (hc : c ∈ w.calls) (e : String) (he : c.result.error = some [some e])
    (pos : Nat) (k : Int) :
    1 ≤ c.keys.length ∧
    (Thunk.waiting c.batch pos k).call w
      = Run.ret (w, (c.result.data.getD pos none, some e)) := by
  have h := inv_reachable hw
  obtain ⟨b, hb, hk, hdata, herr, hdone⟩ := h.calls_ok c hc
  refine ⟨hk ▸ List.length_pos.mpr (h.nonempty _ b hb), ?_⟩
  have hv : (if pos < c.result.data.length then c.result.data.getD pos none else none)
      = c.result.data.getD pos none := by
    split
    · rfl
    · rename_i hlt
      rw [List.getD_eq_getElem?_getD, List.getElem?_eq_none (by omega)]
      rfl
  simp only [Thunk.call, deref_of_get hb, hdone, herr, he, hdata, hv, Bool.not_true,
    Bool.false_eq_true, if_false, List.length_singleton, if_true, List.getD_cons_zero]

theorem uniform_error_witness :
    Reachable { Fetch := fetchFails, Wait := 1, MaxBatch := 0 } failedWorld ∧
    failedCall ∈ failedWorld.calls ∧
    (Thunk.waiting 0 0 1).call failedWorld = Run.ret (failedWorld, (none, some "unavailable")) ∧
    (Thunk.waiting 0 1 2).call failedWorld = Run.ret (failedWorld, (none, some "unavailable")) ∧
    (Thunk.waiting 0 2 3).call failedWorld = Run.ret (failedWorld, (none, some "unavailable")) ∧
    failedWorld.l.cache = none :=
  have hr : Reachable { Fetch := fetchFails, Wait := 1, MaxBatch := 0 } failedWorld :=
    ⟨[Op.loadThunk 1, Op.loadThunk 2, Op.loadThunk 3, Op.timer 0, Op.finish 0], rfl⟩
  have hu := uniform_error _ failedWorld hr failedCall (by decide) "unavailable" rfl
  ⟨hr, by decide, (hu 0 1).2, (hu 1 2).2, (hu 2 3).2, rfl⟩

/-- C8 (Prime semantics).  For every world, whatever its cache (the nil map included),
every key and every non-nil value, `Prime` returns, and it returns true exactly when the
key was absent from the cache.  When it returns true the cache maps the key to a copy of
the value, every other key reads as before, and nothing but the cache has changed.  When
it returns false the world, its cache included, is unchanged. -/
theorem prime_semantics (w : World) (k : Int) (v : Character) :
    ∃ (w1 : World) (r : Bool), Prime w k (some v) = Run.ret (w1, r) ∧
      (r = true ↔ mapGet w.l.cache k = none) ∧
      (r = true → mapGet w1.l.cache k = some (some v) ∧
        (∀ k1, k1 ≠ k → mapGet w1.l.cache k1 = mapGet w.l.cache k1) ∧
        w1 = { w with l := { w.l with cache := w1.l.cache } }) ∧
      (r = false → w1 = w) := by
  cases hm : mapGet w.l.cache k with
  | some it =>
    refine ⟨w, false, ?_, by simp, (fun e => by cases e), fun _ => rfl⟩
    unfold Prime
    rw [hm]
  | none =>
    refine ⟨{ w with l := unsafeSet w.l k (some v) }, true, ?_, by simp, fun _ => ?_,
      (fun e => by cases e)⟩
    · unfold Prime
      rw [hm]
    · exact ⟨mapGet_unsafeSet_self _ _ _, fun k1 hk => mapGet_unsafeSet_ne _ hk _, rfl⟩

/-- C10 (Clear).  For every world, whatever its cache (the nil map included, which stays
nil), and every key, after `Clear` the key is absent, every other key reads as before and
nothing but the cache has changed; `Clear` of a key that is absent leaves the world as it
is, and a second `Clear` of the same key changes nothing more. -/
theorem clear_semantics (w : World) (k : Int) :
    mapGet (Clear w k).l.cache k = none ∧
    (∀ k1, k1 ≠ k → mapGet (Clear w k).l.cache k1 = mapGet w.l.cache k1) ∧
    Clear w k = { w with l := { w.l with cache := (Clear w k).l.cache } } ∧
    (w.l.cache = none → (Clear w k).l.cache = none) ∧
    (mapGet w.l.cache k = none → Clear w k = w) ∧
    Clear (Clear w k) k = Clear w k := by
  refine ⟨mapGet_mapDelete_self _ _, fun k1 hk => mapGet_mapDelete_ne _ hk, rfl, ?_, ?_, ?_⟩
  · intro hn
    show mapDelete w.l.cache k = none
    rw [hn]
    rfl
  · intro hn
    unfold Clear
    rw [mapDelete_absent _ _ hn]
  · have hd : mapDelete (mapDelete w.l.cache k) k = mapDelete w.l.cache k :=
      mapDelete_absent _ _ (mapGet_mapDelete_self _ _)
    unfold Clear
    simp only [hd]

/-! ## The log of fetch invocations -/

theorem step_cases {w w1 : World} (op : Op) (hs : step w op = some w1) :
    (∃ key, op = Op.loadThunk key ∧ w1 = (LoadThunk w key).1) ∨
    (∃ b r, op = Op.finish b ∧ b ∈ w.enders ∧
      w.l.fetch w.calls.length (w.deref b).keys = some r ∧ (w.deref b).done = false ∧
      w1.l = w.l ∧
      w1.heap = w.heap.set b
        { (w.deref b) with data := r.data, error := r.error, done := true } ∧
      w1.timers = w.timers ∧ w1.enders = w.enders.erase b ∧
      w1.calls = w.calls ++ [⟨b, (w.deref b).keys, r⟩] ∧ w1.handles = w.handles) ∨
    (w1.heap = w.heap ∧ w1.calls = w.calls ∧ w1.l.fetch = w.l.fetch ∧
      w1.handles = w.handles ∧ w1.l.maxBatch = w.l.maxBatch) := by
  cases op with
  | loadThunk key =>
    simp only [step, Option.some.injEq] at hs
    exact Or.inl ⟨key, rfl, hs.symm⟩
  | call t =>
    refine Or.inr (Or.inr ?_)
    simp only [step] at hs
    split at hs
    · cases t with
      | cached it =>
        simp only [Thunk.call, Run.map, Run.toOption, Option.some.injEq] at hs
        rw [← hs]; exact ⟨rfl, rfl, rfl, rfl, rfl⟩
      | waiting j pos key =>
        simp only [Thunk.call] at hs
        split at hs
        · simp [Run.map, Run.toOption] at hs
        · split at hs
          · simp [Run.map, Run.toOption] at hs
          · simp only [Run.map, Run.toOption, Option.some.injEq] at hs
            rw [← hs]; exact ⟨rfl, rfl, rfl, rfl, rfl⟩
          · simp only [Run.map, Run.toOption, Option.some.injEq] at hs
            rw [← hs]; exact ⟨rfl, rfl, rfl, rfl, rfl⟩
    · cases hs
  | prime key value =>
    refine Or.inr (Or.inr ?_)
    simp only [step, Prime] at hs
    split at hs
    · simp only [Run.map, Run.toOption, Option.some.injEq] at hs
      rw [← hs]; exact ⟨rfl, rfl, rfl, rfl, rfl⟩
    · split at hs
      · simp [Run.map, Run.toOption] at hs
      · simp only [Run.map, Run.toOption, Option.some.injEq] at hs
        rw [← hs]; exact ⟨rfl, rfl, rfl, rfl, rfl⟩
  | clear key =>
    refine Or.inr (Or.inr ?_)
    simp only [step, Option.some.injEq] at hs
    rw [← hs]; exact ⟨rfl, rfl, rfl, rfl, rfl⟩
  | timer j =>
    refine Or.inr (Or.inr ?_)
    simp only [step] at hs
    split at hs
    · simp only [Option.some.injEq] at hs
      rw [← hs]
      unfold startTimer
      split <;> exact ⟨rfl, rfl, rfl, rfl, rfl⟩
    · cases hs
  | finish j =>
    refine Or.inr (Or.inl ?_)
    simp only [step] at hs
    split at hs
    · rename_i hj
      unfold endBatch at hs
      simp only at hs
      split at hs
      · simp [Run.toOption] at hs
      · rename_i r hf
        split at hs
        · simp [Run.toOption] at hs
        · rename_i hd
          simp only [Run.toOption, Option.some.injEq] at hs
          rw [← hs]
          exact ⟨j, r, rfl, hj, hf, by simpa using hd, rfl, rfl, rfl, rfl, rfl, rfl⟩
    · cases hs

theorem LoadThunk_fetch (w : World) (key : Int) :
    (LoadThunk w key).1.l.fetch = w.l.fetch ∧
    (LoadThunk w key).1.l.maxBatch = w.l.maxBatch := by
  unfold LoadThunk
  split
  · exact ⟨rfl, rfl⟩
  · simp only [keyIndex]
    split <;> split <;> (try split) <;> (try split) <;> simp_all

theorem LoadThunk_handles (w : World) (key : Int) {t : Thunk} (h : t ∈ w.handles) :
    t ∈ (LoadThunk w key).1.handles := by
  unfold LoadThunk
  split
  · exact h
  · cases w.l.batch <;> exact List.mem_append.mpr (Or.inl h)

theorem log_new (config : CharacterLoaderConfig) : Log config (World.new config) := by
  constructor <;> simp [World.new, NewCharacterLoader]

theorem log_step {config : CharacterLoaderConfig} {w w1 : World} (h : Inv config w)
    (hl : Log config w) (op : Op) (hs : step w op = some w1) : Log config w1 := by
  rcases step_cases op hs with ⟨key, _, rfl⟩ | ⟨b, r, _, hb, hf, hd, e1, e2, _, _, e5, _⟩ |
    ⟨e1, e2, e3, _, _⟩
  · refine ⟨by rw [(LoadThunk_fetch w key).1]; exact hl.fetch_eq,
      by rw [LoadThunk_calls]; exact hl.logged, ?_⟩
    intro i b hb hc
    cases hm : mapGet w.l.cache key with
    | some it =>
      rw [LoadThunk_hit hm] at hb
      exact hl.closing_ok i b hb hc
    | none =>
      cases ho : w.l.batch with
      | none =>
        by_cases hsl : w.l.maxBatch ≠ 0 ∧ (0 : Int) ≥ wrapInt (w.l.maxBatch - 1)
        · exact h.maxBatch_eq ▸ hsl.1
        · rw [LoadThunk_new hm ho false (by simpa using hsl)] at hb
          rcases get_concat _ b i hb with ⟨_, hb⟩ | ⟨_, hb⟩
          · exact hl.closing_ok i b hb hc
          · subst hb
            cases hc
      | some j =>
        obtain ⟨b0, hb0, hcl0, _⟩ := h.open_ok j ho
        rw [LoadThunk_open hm ho hb0] at hb
        have hb1 : (w.heap.set j (keyIndex b0 w.l key).b)[i]? = some b := hb
        rw [get_set hb0] at hb1
        by_cases hji : j = i
        · rw [if_pos hji] at hb1
          by_cases hmem : key ∈ b0.keys
          · rw [keyIndex_found hmem] at hb1
            cases hb1
            rw [hcl0] at hc
            cases hc
          · by_cases hsl : w.l.maxBatch ≠ 0 ∧
                (b0.keys.length : Int) ≥ wrapInt (w.l.maxBatch - 1)
            · exact h.maxBatch_eq ▸ hsl.1
            · rw [keyIndex_append hmem hsl] at hb1
              cases hb1
              rw [hcl0] at hc
              cases hc
        · rw [if_neg hji] at hb1
          exact hl.closing_ok i b hb1 hc
  · refine ⟨by rw [e1]; exact hl.fetch_eq, ?_, ?_⟩
    · intro c hc
      rw [e5] at hc
      rcases List.mem_append.mp hc with hc | hc
      · exact hl.logged c hc
      · rw [List.mem_singleton.mp hc]
        exact ⟨w.calls.length, by rw [← hl.fetch_eq]; exact hf⟩
    · intro i b1 hb1 hc
      rw [e2] at hb1
      obtain ⟨b0, hb0, _⟩ := h.enders_ok b hb
      rw [get_set hb0] at hb1
      by_cases hji : b = i
      · rw [if_pos hji] at hb1
        cases hb1
        rw [deref_of_get hb0] at hc
        exact hl.closing_ok b b0 hb0 hc
      · rw [if_neg hji] at hb1
        exact hl.closing_ok i b1 hb1 hc
  · exact ⟨by rw [e3]; exact hl.fetch_eq, by rw [e2]; exact hl.logged,
      by rw [e1]; exact hl.closing_ok⟩

theorem log_exec {config : CharacterLoaderConfig} (ops : List Op) {w w1 : World}
    (h : Inv config w) (hl : Log config w) (hs : exec w ops = some w1) : Log config w1 := by
  induction ops generalizing w with
  | nil =>
    simp only [exec, Option.some.injEq] at hs
    rw [← hs]
    exact hl
  | cons op ops ih =>
    simp only [exec] at hs
    cases hw : step w op with
    | none => rw [hw] at hs; cases hs
    | some w2 =>
      rw [hw] at hs
      exact ih (inv_step h op hw) (log_step h hl op hw) hs

theorem log_reachable {config : CharacterLoaderConfig} {w : World}
    (h : Reachable config w) : Log config w := by
  obtain ⟨ops, hops⟩ := h
  exact log_exec ops (inv_new config) (log_new config) hops

theorem issued_step {w w1 : World} (op : Op) (hs : step w op = some w1) {t : Thunk}
    (h : Issued w t) : Issued w1 t := by
  cases t with
  | cached it => trivial
  | waiting b pos key =>
    have h0 : Thunk.waiting b pos key ∈ w.handles := h
    show Thunk.waiting b pos key ∈ w1.handles
    rcases step_cases op hs with ⟨k, _, rfl⟩ | ⟨_, _, _, _, _, _, _, _, _, _, _, e⟩ |
      ⟨_, _, _, e, _⟩
    · exact LoadThunk_handles w k h0
    · rw [e]; exact h0
    · rw [e]; exact h0

theorem issued_exec (ops : List Op) {w w1 : World} (hs : exec w ops = some w1) {t : Thunk}
    (h : Issued w t) : Issued w1 t := by
  induction ops generalizing w with
  | nil =>
    simp only [exec, Option.some.injEq] at hs
    rw [← hs]
    exact h
  | cons op ops ih =>
    simp only [exec] at hs
    cases hw : step w op with
    | none => rw [hw] at hs; cases hs
    | some w2 =>
      rw [hw] at hs
      exact ih hs (issued_step op hw h)

theorem interfere_exec (w : World) (ops : List Op) : ∃ ops1, exec w ops1 = some (interfere w ops) := by
  unfold interfere
  cases h : exec w ops with
  | none => exact ⟨[], rfl⟩
  | some w1 => exact ⟨ops, h⟩

/-! ## Waiting for a batch -/

theorem call_done {w : World} {b pos : Nat} {key : Int} (h : (w.deref b).done = true) :
    (Thunk.waiting b pos key).call w ≠ Run.blocks := by
  simp only [Thunk.call, h, Bool.not_true, Bool.false_eq_true, if_false]
  split <;> simp

theorem call_ret_done {w w1 : World} {b pos : Nat} {key : Int} {r : Value × Err}
    (h : (Thunk.waiting b pos key).call w = Run.ret (w1, r)) :
    (w.deref b).done = true ∧ w1.heap = w.heap := by
  simp only [Thunk.call] at h
  split at h
  · cases h
  · rename_i hd
    refine ⟨by simpa using hd, ?_⟩
    split at h
    · cases h
    · cases h; rfl
    · cases h; rfl

theorem call_step {w w1 : World} {t : Thunk} {r : Value × Err} (hi : Issued w t)
    (h : t.call w = Run.ret (w1, r)) : ∃ ops, exec w ops = some w1 := by
  cases t with
  | cached it =>
    simp only [Thunk.call] at h
    cases h
    exact ⟨[], rfl⟩
  | waiting b pos key =>
    refine ⟨[Op.call (Thunk.waiting b pos key)], ?_⟩
    have hm : Thunk.waiting b pos key ∈ w.handles := hi
    simp only [exec, step, hm, if_true, h, Run.map, Run.toOption, Option.bind]

theorem call_after {w w1 : World} {t : Thunk} {r : Value × Err}
    (h : t.call w = Run.ret (w1, r)) : (t.call w1).map Prod.snd = Run.ret r := by
  cases t with
  | cached it =>
    simp only [Thunk.call] at h
    cases h
    rfl
  | waiting b pos key =>
    have h1 := call_ret_done h
    have hd : w.deref b = w1.deref b := by
      unfold World.deref
      rw [h1.2]
    rw [← call_congr hd, h]
    rfl

theorem outcome_stable {config : CharacterLoaderConfig} {w w1 : World} (h : Inv config w)
    {t : Thunk} {r : Value × Err} (hc : (t.call w).map Prod.snd = Run.ret r)
    (ops : List Op) (hs : exec w ops = some w1) : (t.call w1).map Prod.snd = Run.ret r := by
  cases t with
  | cached it =>
    simp only [Thunk.call, Run.map] at hc ⊢
    exact hc
  | waiting b pos key =>
    cases hb : w.heap[b]? with
    | none =>
      exfalso
      have hd : w.deref b = default := by
        simp [World.deref, List.getD_eq_getElem?_getD, hb]
      have : (default : characterLoaderBatch).done = false := rfl
      simp only [Thunk.call, hd, this, Bool.not_false, if_true, Run.map] at hc
      cases hc
    | some bb =>
      have hdone : bb.done = true := by
        cases hd : bb.done with
        | true => rfl
        | false =>
          exfalso
          simp only [Thunk.call, deref_of_get hb, hd, Bool.not_false, if_true, Run.map] at hc
          cases hc
      have hb1 := frozen_exec ops h hs hb hdone
      rw [← call_congr (by rw [deref_of_get hb, deref_of_get hb1])]
      exact hc

theorem deref_mk_set {heap : List characterLoaderBatch} {b : Nat} {bb : characterLoaderBatch}
    (hb : heap[b]? = some bb) (x : characterLoaderBatch) (l : CharacterLoader)
    (t e : List Nat) (c : List FetchCall) (h : List Thunk) :
    World.deref ⟨l, heap.set b x, t, e, c, h⟩ b = x := by
  apply deref_of_get
  show (heap.set b x)[b]? = some x
  rw [get_set hb, if_pos rfl]

theorem call_fault {w : World} {t : Thunk} {f : Fault} (h : t.call w = Run.panics f) :
    f = Fault.indexOutOfRange := by
  cases t with
  | cached it => simp [Thunk.call] at h
  | waiting b pos key =>
    simp only [Thunk.call] at h
    split at h
    · cases h
    · split at h
      · simp only [Run.panics.injEq] at h
        exact h.symm
      · cases h
      · cases h

theorem await_spec {config : CharacterLoaderConfig} {w : World} (hw : Reachable config w)
    {b pos : Nat} {key : Int} (ht : Thunk.waiting b pos key ∈ w.handles)
    (hd : (w.deref b).done = false) :
    (∀ f, await w b ≠ Run.panics f) ∧
    ((∀ n ks, config.Fetch n ks ≠ none) → ∃ w1, await w b = Run.ret w1) ∧
    (∀ w1, await w b = Run.ret w1 →
      (∃ ops, exec w ops = some w1) ∧ (w1.deref b).done = true) := by
  have h := inv_reachable hw
  have hl := log_reachable hw
  obtain ⟨bb, hb, _⟩ := h.handles_ok b pos key ht
  rw [deref_of_get hb] at hd
  -- the world after the timer of the batch, when it still sleeps, has woken up
  have hmid : ∃ w0, (if b ∈ w.timers then startTimer w b else w) = w0 ∧
      (∃ ops, exec w ops = some w0) ∧ b ∈ w0.enders ∧ w0.heap = w.heap ∧
      w0.l.fetch = w.l.fetch := by
    refine ⟨_, rfl, ?_⟩
    have hseal : w.l.batch = some b ∨ b ∈ w.enders := by
      rcases h.sealed_ok b bb hb with h1 | h1 | h1
      · exact Or.inl h1
      · exact Or.inr h1
      · exfalso
        obtain ⟨c, hc, hcb⟩ := List.mem_map.mp h1
        obtain ⟨b2, hb2, _, _, _, hd2⟩ := h.calls_ok c hc
        rw [hcb, hb] at hb2
        cases hb2
        rw [hd] at hd2
        cases hd2
    by_cases htm : b ∈ w.timers
    · rw [if_pos htm]
      refine ⟨⟨[Op.timer b], by simp [exec, step, htm]⟩, ?_⟩
      unfold startTimer
      rw [deref_of_get hb]
      rcases hseal with h1 | h1
      · obtain ⟨b2, hb2, hcl, _⟩ := h.open_ok b h1
        rw [hb] at hb2
        cases hb2
        rw [if_neg (by simp [hcl])]
        exact ⟨List.mem_append.mpr (Or.inr (List.mem_singleton.mpr rfl)), rfl, rfl⟩
      · split
        · exact ⟨h1, rfl, rfl⟩
        · exact ⟨List.mem_append.mpr (Or.inl h1), rfl, rfl⟩
    · rw [if_neg htm]
      refine ⟨⟨[], rfl⟩, ?_, rfl, rfl⟩
      rcases hseal with h1 | h1
      · obtain ⟨_, _, _, _, h5, _⟩ := h.open_ok b h1
        exact absurd h5 htm
      · exact h1
  obtain ⟨w0, e0, ⟨ops0, hops0⟩, hin, hheap, hfetch⟩ := hmid
  have hb0 : w0.heap[b]? = some bb := by rw [hheap]; exact hb
  have haw : await w b =
      match endBatch w0 b with
      | Run.ret w2 => Run.ret w2
      | Run.panics _ => Run.blocks
      | Run.blocks => Run.blocks := by
    unfold await
    simp only [e0, hin, if_true]
  rw [haw]
  have hend : ∀ r, w0.l.fetch w0.calls.length bb.keys = some r → ∃ w1,
      endBatch w0 b = Run.ret w1 ∧ exec w0 [Op.finish b] = some w1 ∧
      (w1.deref b).done = true := by
    intro r hr
    have he : endBatch w0 b = Run.ret
        { w0 with heap := w0.heap.set b { bb with data := r.data, error := r.error, done := true },
                  enders := w0.enders.erase b,
                  calls := w0.calls ++ [⟨b, bb.keys, r⟩] } := by
      unfold endBatch
      simp only [deref_of_get hb0, hr, hd, Bool.false_eq_true, if_false]
    refine ⟨_, he, ?_, ?_⟩
    · simp only [exec, step, hin, if_true, he, Run.toOption, Option.bind]
    · rw [deref_mk_set hb0]
  cases hr : w0.l.fetch w0.calls.length bb.keys with
  | none =>
    have he : endBatch w0 b = Run.panics Fault.fetchAborted := by
      unfold endBatch
      simp only [deref_of_get hb0, hr]
    rw [he]
    refine ⟨(fun f e => by cases e), ?_, (fun w1 e => by cases e)⟩
    intro hf
    exfalso
    rw [hfetch, hl.fetch_eq] at hr
    exact hf _ _ hr
  | some r =>
    obtain ⟨w2, he2, hex, hdn⟩ := hend r hr
    rw [he2]
    refine ⟨(fun f e => by cases e), (fun _ => ⟨w2, rfl⟩), ?_⟩
    intro w1 he
    simp only [Run.ret.injEq] at he
    rw [← he]
    refine ⟨⟨ops0 ++ [Op.finish b], ?_⟩, hdn⟩
    rw [exec_append, hops0]
    exact hex

theorem call_total {config : CharacterLoaderConfig} {w : World} (hw : Reachable config w)
    (hf : WellBehaved config.Fetch) {b pos : Nat} {key : Int}
    (ht : Thunk.waiting b pos key ∈ w.handles) (hd : (w.deref b).done = true) :
    ∃ p, (Thunk.waiting b pos key).call w = Run.ret p := by
  have h := inv_reachable hw
  have hl := log_reachable hw
  obtain ⟨bb, hb, hp⟩ := h.handles_ok b pos key ht
  rw [deref_of_get hb] at hd
  obtain ⟨c, hc, hcb⟩ := List.mem_map.mp (h.done_ok b bb hb hd)
  obtain ⟨b2, hb2, hk, _, herr, _⟩ := h.calls_ok c hc
  rw [hcb, hb] at hb2
  cases hb2
  obtain ⟨n, hn⟩ := hl.logged c hc
  obtain ⟨r, hr, hal⟩ := hf n c.keys
  rw [hn] at hr
  cases hr
  have hlt : pos < c.keys.length := hk ▸ (List.getElem?_eq_some.mp hp).1
  simp only [Thunk.call, deref_of_get hb, hd, Bool.not_true, Bool.false_eq_true, if_false]
  rcases hal with he | ⟨es, he, hlen⟩
  · rw [herr, he]
    exact ⟨_, rfl⟩
  · rw [herr, he]
    simp only
    have hsome : ∃ e, (if es.length = 1 then some (es.getD 0 none) else es.get? pos) = some e := by
      split
      · exact ⟨_, rfl⟩
      · rename_i h1
        rcases hlen with h2 | h2
        · exact absurd h2 h1
        · rw [List.get?_eq_getElem?, List.getElem?_eq_getElem (by omega)]
          exact ⟨_, rfl⟩
    obtain ⟨e, he2⟩ := hsome
    rw [he2]
    cases e with
    | none => exact ⟨_, rfl⟩
    | some e1 => exact ⟨_, rfl⟩

theorem wait_spec {config : CharacterLoaderConfig} {w : World} (hw : Reachable config w)
    {t : Thunk} (hi : Issued w t) :
    ((∀ n ks, config.Fetch n ks ≠ none) → t.wait w ≠ Run.blocks) ∧
    (∀ f, t.wait w = Run.panics f → f = Fault.indexOutOfRange) ∧
    (WellBehaved config.Fetch → ∃ p, t.wait w = Run.ret p) ∧
    (∀ w1 r, t.wait w = Run.ret (w1, r) →
      (∃ ops, exec w ops = some w1) ∧ (t.call w1).map Prod.snd = Run.ret r) := by
  cases t with
  | cached it =>
    refine ⟨fun _ => by simp [Thunk.wait, Thunk.call],
      (fun f e => by simp [Thunk.wait, Thunk.call] at e), fun _ => ⟨_, rfl⟩, ?_⟩
    intro w1 r hr
    simp only [Thunk.wait] at hr
    exact ⟨call_step hi hr, call_after hr⟩
  | waiting b pos key =>
    have ht : Thunk.waiting b pos key ∈ w.handles := hi
    cases hd : (w.deref b).done with
    | true =>
      have hwait : (Thunk.waiting b pos key).wait w = (Thunk.waiting b pos key).call w := by
        simp only [Thunk.wait, hd, if_true]
      rw [hwait]
      refine ⟨fun _ => call_done hd, fun f e => call_fault e, fun hf => call_total hw hf ht hd, ?_⟩
      intro w1 r hr
      exact ⟨call_step hi hr, call_after hr⟩
    | false =>
      obtain ⟨ha1, ha2, ha3⟩ := await_spec hw ht hd
      cases ha : await w b with
      | blocks =>
        have hwait : (Thunk.waiting b pos key).wait w = Run.blocks := by
          simp only [Thunk.wait, hd, Bool.false_eq_true, if_false, ha]
        rw [hwait]
        refine ⟨?_, (fun f e => by cases e), ?_, (fun w1 r e => by cases e)⟩
        · intro hf
          obtain ⟨w1, h1⟩ := ha2 hf
          rw [ha] at h1
          cases h1
        · intro hf
          obtain ⟨w1, h1⟩ := ha2 (fun n ks hn => by
            obtain ⟨r, hr, _⟩ := hf n ks
            rw [hn] at hr
            cases hr)
          rw [ha] at h1
          cases h1
      | panics f => exact absurd ha (ha1 f)
      | ret w0 =>
        have hwait : (Thunk.waiting b pos key).wait w = (Thunk.waiting b pos key).call w0 := by
          simp only [Thunk.wait, hd, Bool.false_eq_true, if_false, ha]
        rw [hwait]
        obtain ⟨⟨ops0, hops0⟩, hd0⟩ := ha3 w0 ha
        have hw0 := reachable_exec hw ops0 hops0
        have hi0 : Issued w0 (Thunk.waiting b pos key) := issued_exec ops0 hops0 hi
        refine ⟨fun _ => call_done hd0, fun f e => call_fault e,
          fun hf => call_total hw0 hf hi0 hd0, ?_⟩
        intro w1 r hr
        obtain ⟨ops1, hops1⟩ := call_step hi0 hr
        refine ⟨⟨ops0 ++ ops1, ?_⟩, call_after hr⟩
        rw [exec_append, hops0]
        exact hops1

theorem callThunks_spec {config : CharacterLoaderConfig} (ts : List Thunk) {w : World}
    (hw : Reachable config w) (hi : ∀ t ∈ ts, Issued w t) (env : List (List Op)) :
    ((∀ n ks, config.Fetch n ks ≠ none) → callThunks w ts env ≠ Run.blocks) ∧
    (∀ f, callThunks w ts env = Run.panics f → f = Fault.indexOutOfRange) ∧
    (WellBehaved config.Fetch → ∃ p, callThunks w ts env = Run.ret p) ∧
    (∀ wf rs, callThunks w ts env = Run.ret (wf, rs) →
      (∃ ops, exec w ops = some wf) ∧ rs.length = ts.length ∧
      ∀ (i : Nat) (t : Thunk), ts[i]? = some t →
        ∃ r, rs[i]? = some r ∧ (t.call wf).map Prod.snd = Run.ret r) := by
  induction ts generalizing w env with
  | nil =>
    refine ⟨fun _ => by simp [callThunks], (fun f e => by simp [callThunks] at e),
      fun _ => ⟨_, rfl⟩, ?_⟩
    intro wf rs hr
    simp only [callThunks] at hr
    cases hr
    exact ⟨⟨[], rfl⟩, rfl, fun i t hit => by simp at hit⟩
  | cons t ts ih =>
    obtain ⟨ops0, hops0⟩ := interfere_exec w (env.headD [])
    have hw0 := reachable_exec hw ops0 hops0
    have hi0 : ∀ t1 ∈ t :: ts, Issued (interfere w (env.headD [])) t1 :=
      fun t1 ht1 => issued_exec ops0 hops0 (hi t1 ht1)
    obtain ⟨hb1, hbf, hb2, hb3⟩ := wait_spec hw0 (hi0 t (List.mem_cons_self _ _))
    cases hwt : t.wait (interfere w (env.headD [])) with
    | blocks =>
      have hc : callThunks w (t :: ts) env = Run.blocks := by
        simp only [callThunks, hwt]
      rw [hc]
      refine ⟨fun hf => absurd hwt (hb1 hf), (fun f e => by cases e), ?_,
        (fun wf rs e => by cases e)⟩
      intro hf
      obtain ⟨p, hp⟩ := hb2 hf
      rw [hwt] at hp
      cases hp
    | panics f =>
      have hc : callThunks w (t :: ts) env = Run.panics f := by
        simp only [callThunks, hwt]
      rw [hc]
      refine ⟨fun _ => by simp, ?_, ?_, ?_⟩
      · intro g e
        simp only [Run.panics.injEq] at e
        rw [← e]
        exact hbf f hwt
      · intro hf
        obtain ⟨p, hp⟩ := hb2 hf
        rw [hwt] at hp
        cases hp
      · intro wf rs hr
        cases hr
    | ret p =>
      obtain ⟨w1, r⟩ := p
      have hc : callThunks w (t :: ts) env =
          (callThunks w1 ts env.tail).map (fun q => (q.1, r :: q.2)) := by
        simp only [callThunks, hwt]
      rw [hc]
      obtain ⟨⟨ops1, hops1⟩, hcall⟩ := hb3 w1 r hwt
      have hw1 := reachable_exec hw0 ops1 hops1
      have hi1 : ∀ t1 ∈ ts, Issued w1 t1 :=
        fun t1 ht1 => issued_exec ops1 hops1 (hi0 t1 (List.mem_cons_of_mem _ ht1))
      obtain ⟨ih1, ihf, ih2, ih3⟩ := ih hw1 hi1 env.tail
      refine ⟨?_, ?_, ?_, ?_⟩
      · intro hf
        cases hrest : callThunks w1 ts env.tail with
        | blocks => exact absurd hrest (ih1 hf)
        | panics f => simp [Run.map]
        | ret q => simp [Run.map]
      · intro f e
        cases hrest : callThunks w1 ts env.tail with
        | blocks => rw [hrest] at e; cases e
        | panics g =>
          rw [hrest] at e
          simp only [Run.map, Run.panics.injEq] at e
          rw [← e]
          exact ihf g hrest
        | ret q => rw [hrest] at e; cases e
      · intro hf
        obtain ⟨q, hq⟩ := ih2 hf
        rw [hq]
        exact ⟨_, rfl⟩
      · intro wf rs hr
        cases hrest : callThunks w1 ts env.tail with
        | blocks => rw [hrest] at hr; cases hr
        | panics f => rw [hrest] at hr; cases hr
        | ret q =>
          obtain ⟨w2, rs2⟩ := q
          rw [hrest] at hr
          simp only [Run.map, Run.ret.injEq, Prod.mk.injEq] at hr
          obtain ⟨e1, e2⟩ := hr
          subst e1
          subst e2
          obtain ⟨⟨ops2, hops2⟩, hlen, hall⟩ := ih3 w2 rs2 hrest
          refine ⟨⟨ops0 ++ (ops1 ++ ops2), ?_⟩, by simp [hlen], ?_⟩
          · rw [exec_append, hops0]
            show exec (interfere w (env.headD [])) (ops1 ++ ops2) = some w2
            rw [exec_append, hops1]
            exact hops2
          · intro i t1 hit
            cases i with
            | zero =>
              simp only [List.getElem?_cons_zero, Option.some.injEq] at hit
              subst hit
              exact ⟨r, List.getElem?_cons_zero, outcome_stable (inv_reachable hw1) hcall ops2 hops2⟩
            | succ j =>
              simp only [List.getElem?_cons_succ] at hit
              obtain ⟨r1, hr1, hc1⟩ := hall j t1 hit
              exact ⟨r1, by simpa using hr1, hc1⟩

theorem loadThunks_spec {config : CharacterLoaderConfig} (keys : List Int) {w : World}
    (hw : Reachable config w) (env : List (List Op)) :
    Reachable config (loadThunks w keys env).1 ∧
    (∃ ops, exec w ops = some (loadThunks w keys env).1) ∧
    (loadThunks w keys env).2.length = keys.length ∧
    (∀ t ∈ (loadThunks w keys env).2, Issued (loadThunks w keys env).1 t) ∧
    (∀ (i : Nat) (t : Thunk), (loadThunks w keys env).2[i]? = some t →
      ∃ wi k, Reachable config wi ∧ keys[i]? = some k ∧ t = (LoadThunk wi k).2) := by
  induction keys generalizing w env with
  | nil =>
    exact ⟨hw, ⟨[], rfl⟩, rfl, fun t ht => by simp [loadThunks] at ht,
      fun i t hit => by simp [loadThunks] at hit⟩
  | cons key keys ih =>
    obtain ⟨ops0, hops0⟩ := interfere_exec w (env.headD [])
    have hw0 := reachable_exec hw ops0 hops0
    have hw1 := reachable_LoadThunk hw0 key
    obtain ⟨ih1, ⟨ops2, hops2⟩, ih3, ih4, ih5⟩ := ih hw1 env.tail
    have hfirst : Issued (LoadThunk (interfere w (env.headD [])) key).1
        (LoadThunk (interfere w (env.headD [])) key).2 := by
      cases hm : mapGet (interfere w (env.headD [])).l.cache key with
      | some it => rw [LoadThunk_hit hm]; trivial
      | none =>
        obtain ⟨b, pos, hb⟩ := LoadThunk_miss hm
        have := LoadThunk_handle hm
        rw [hb] at this ⊢
        exact this
    refine ⟨ih1, ⟨ops0 ++ ([Op.loadThunk key] ++ ops2), ?_⟩,
      by simp only [loadThunks, List.length_cons, ih3], ?_, ?_⟩
    · rw [exec_append, hops0]
      show exec (interfere w (env.headD [])) ([Op.loadThunk key] ++ ops2) = some _
      rw [exec_append]
      exact hops2
    · intro t ht
      simp only [loadThunks, List.mem_cons] at ht
      rcases ht with ht | ht
      · rw [ht]
        exact issued_exec ops2 hops2 hfirst
      · exact ih4 t ht
    · intro i t hit
      cases i with
      | zero =>
        simp only [loadThunks, List.getElem?_cons_zero, Option.some.injEq] at hit
        exact ⟨_, key, hw0, List.getElem?_cons_zero, hit.symm⟩
      | succ j =>
        simp only [loadThunks, List.getElem?_cons_succ] at hit
        obtain ⟨wi, k, h1, h2, h3⟩ := ih5 j t hit
        exact ⟨wi, k, h1, by simpa using h2, h3⟩

/-! ## Unbounded loaders -/

theorem LoadThunk_unbounded {config : CharacterLoaderConfig} {w : World} (h : Inv config w)
    (hm0 : config.MaxBatch = 0) (k : Int) :
    (∀ b, w.l.batch = some b → (LoadThunk w k).1.l.batch = some b) ∧
    (mapGet w.l.cache k = none → ∃ b pos, (LoadThunk w k).2 = Thunk.waiting b pos k ∧
      (LoadThunk w k).1.l.batch = some b) ∧
    (LoadThunk w k).1.enders = w.enders := by
  have hz : w.l.maxBatch = 0 := by rw [h.maxBatch_eq, hm0]
  have hns : ∀ n : Nat, ¬ (w.l.maxBatch ≠ 0 ∧ (n : Int) ≥ wrapInt (w.l.maxBatch - 1)) :=
    fun n hc => hc.1 hz
  cases hm : mapGet w.l.cache k with
  | some it =>
    rw [LoadThunk_hit hm]
    exact ⟨fun b hb => hb, (fun hc => by cases hc), rfl⟩
  | none =>
    cases ho : w.l.batch with
    | none =>
      rw [LoadThunk_new hm ho false (by simpa using hns 0)]
      exact ⟨(fun b hb => by cases hb), fun _ => ⟨_, _, rfl, rfl⟩, rfl⟩
    | some j =>
      obtain ⟨b0, hb0, _⟩ := h.open_ok j ho
      rw [LoadThunk_open hm ho hb0]
      by_cases hmem : k ∈ b0.keys
      · rw [keyIndex_found hmem]
        exact ⟨(fun b hb => by rw [← hb, ← ho]), fun _ => ⟨_, _, rfl, ho⟩, rfl⟩
      · rw [keyIndex_append hmem (hns _)]
        exact ⟨(fun b hb => by rw [← hb, ← ho]), fun _ => ⟨_, _, rfl, ho⟩, rfl⟩

theorem loadThunks_unbounded {config : CharacterLoaderConfig} (hm0 : config.MaxBatch = 0)
    (keys : List Int) {w : World} (hw : Reachable config w) :
    (∀ b, w.l.batch = some b → (loadThunks w keys []).1.l.batch = some b) ∧
    (loadThunks w keys []).1.l.cache = w.l.cache ∧
    ∀ (i : Nat) (t : Thunk) (k : Int), (loadThunks w keys []).2[i]? = some t →
      keys[i]? = some k →
      (∀ it, mapGet w.l.cache k = some it → t = Thunk.cached it) ∧
      (mapGet w.l.cache k = none → ∃ b pos, t = Thunk.waiting b pos k ∧
        (loadThunks w keys []).1.l.batch = some b) := by
  induction keys generalizing w with
  | nil =>
    exact ⟨fun b hb => hb, rfl, fun i t k hit => by simp [loadThunks] at hit⟩
  | cons key keys ih =>
    have hstep : loadThunks w (key :: keys) [] =
        ((loadThunks (LoadThunk w key).1 keys []).1,
          (LoadThunk w key).2 :: (loadThunks (LoadThunk w key).1 keys []).2) := rfl
    rw [hstep]
    have h := inv_reachable hw
    obtain ⟨u1, u2, _⟩ := LoadThunk_unbounded h hm0 key
    obtain ⟨ih1, ih2, ih3⟩ := ih (reachable_LoadThunk hw key)
    refine ⟨fun b hb => ih1 b (u1 b hb), by rw [ih2, LoadThunk_cache], ?_⟩
    intro i t k hit hk
    cases i with
    | zero =>
      simp only [List.getElem?_cons_zero, Option.some.injEq] at hit hk
      subst hk
      refine ⟨?_, ?_⟩
      · intro it hc
        rw [← hit, LoadThunk_hit hc]
      · intro hc
        obtain ⟨b, pos, e1, e2⟩ := u2 hc
        exact ⟨b, pos, by rw [← hit, e1], ih1 b e2⟩
    | succ j =>
      simp only [List.getElem?_cons_succ] at hit hk
      have := ih3 j t k hit hk
      rw [LoadThunk_cache] at this
      exact this

theorem LoadAll_ret {w wf : World} {keys : List Int} {env1 env2 : List (List Op)}
    {vs : List Value} {es : List Err}
    (hr : LoadAll w keys env1 env2 = Run.ret (wf, (vs, es))) :
    ∃ rs, callThunks (loadThunks w keys env1).1 (loadThunks w keys env1).2 env2
        = Run.ret (wf, rs) ∧ vs = rs.map Prod.fst ∧ es = rs.map Prod.snd := by
  unfold LoadAll at hr
  cases hc : callThunks (loadThunks w keys env1).1 (loadThunks w keys env1).2 env2 with
  | blocks => rw [hc] at hr; cases hr
  | panics f => rw [hc] at hr; cases hr
  | ret p =>
    rw [hc] at hr
    simp only [Run.map, Run.ret.injEq, Prod.mk.injEq] at hr
    obtain ⟨e1, e2, e3⟩ := hr
    refine ⟨p.2, ?_, e2.symm, e3.symm⟩
    rw [← e1]

theorem LoadAll_returns (config : CharacterLoaderConfig) (w : World)
    (hw : Reachable config w) (keys : List Int) (env1 env2 : List (List Op))
    (hf : WellBehaved config.Fetch) :
    ∃ wf vs es, LoadAll w keys env1 env2 = Run.ret (wf, (vs, es)) := by
  obtain ⟨l1, _, _, l4, _⟩ := loadThunks_spec keys hw env1
  obtain ⟨_, _, c2, _⟩ := callThunks_spec (loadThunks w keys env1).2 l1 l4 env2
  obtain ⟨p, hp⟩ := c2 hf
  unfold LoadAll
  rw [hp]
  exact ⟨_, _, _, rfl⟩

theorem LoadAll_entries (config : CharacterLoaderConfig) (w : World)
    (hw : Reachable config w) (keys : List Int) (env1 env2 : List (List Op)) :
    (loadThunks w keys env1).2.length = keys.length ∧
    ∀ wf vs es, LoadAll w keys env1 env2 = Run.ret (wf, (vs, es)) →
      vs.length = keys.length ∧ es.length = keys.length ∧
      ∀ (i : Nat) (t : Thunk), (loadThunks w keys env1).2[i]? = some t →
        ∃ v e, vs[i]? = some v ∧ es[i]? = some e ∧
          (t.call wf).map Prod.snd = Run.ret (v, e) := by
  obtain ⟨l1, _, l3, l4, _⟩ := loadThunks_spec keys hw env1
  obtain ⟨_, _, _, c3⟩ := callThunks_spec (loadThunks w keys env1).2 l1 l4 env2
  refine ⟨l3, ?_⟩
  intro wf vs es hr
  obtain ⟨rs, hrs, e1, e2⟩ := LoadAll_ret hr
  obtain ⟨_, hlen, hall⟩ := c3 wf rs hrs
  subst e1
  subst e2
  refine ⟨by simp [hlen, l3], by simp [hlen, l3], ?_⟩
  intro i t hit
  obtain ⟨r, hri, hc⟩ := hall i t hit
  exact ⟨r.1, r.2, by simp [List.getElem?_map, hri], by simp [List.getElem?_map, hri], hc⟩

theorem LoadAll_faults (config : CharacterLoaderConfig) (w : World)
    (hw : Reachable config w) (keys : List Int) (env1 env2 : List (List Op)) :
    ((∀ n ks, config.Fetch n ks ≠ none) → LoadAll w keys env1 env2 ≠ Run.blocks) ∧
    (∀ f, LoadAll w keys env1 env2 = Run.panics f → f = Fault.indexOutOfRange) := by
  obtain ⟨l1, _, _, l4, _⟩ := loadThunks_spec keys hw env1
  obtain ⟨c1, cf, _, _⟩ := callThunks_spec (loadThunks w keys env1).2 l1 l4 env2
  unfold LoadAll
  cases hc : callThunks (loadThunks w keys env1).1 (loadThunks w keys env1).2 env2 with
  | blocks => exact ⟨fun hf => absurd hc (c1 hf), (fun f e => by cases e)⟩
  | panics g =>
    refine ⟨fun _ => by simp [Run.map], ?_⟩
    intro f e
    simp only [Run.map, Run.panics.injEq] at e
    rw [← e]
    exact cf g hc
  | ret p => exact ⟨fun _ => by simp [Run.map], (fun f e => by cases e)⟩

/-- C11 (LoadAll positional correspondence), as amended.  From a reachable world and
against any interference: the first loop of `LoadAll` issues one handle per key, the
handle at position `i` being what `LoadThunk` returned for the key at `i`; when `LoadAll`
returns, the value list and the error list are as long as the key list, and the pair at
position `i` is what the handle at `i` resolves to.  `LoadAll` returns when the fetch
function always returns and its error slice is nil, holds one error or has a position
for every key.  When the fetch function always returns, `LoadAll` does not stay blocked,
and the only fault it can raise is an index out of range. -/
theorem LoadAll_positional (config : CharacterLoaderConfig) (w : World)
    (hw : Reachable config w) (keys : List Int) (env1 env2 : List (List Op)) :
    ((∀ n ks, config.Fetch n ks ≠ none) → LoadAll w keys env1 env2 ≠ Run.blocks) ∧
    (∀ f, LoadAll w keys env1 env2 = Run.panics f → f = Fault.indexOutOfRange) ∧
    (WellBehaved config.Fetch → ∃ wf vs es, LoadAll w keys env1 env2 = Run.ret (wf, (vs, es))) ∧
    (loadThunks w keys env1).2.length = keys.length ∧
    (∀ (i : Nat) (t : Thunk), (loadThunks w keys env1).2[i]? = some t →
      ∃ wi k, Reachable config wi ∧ keys[i]? = some k ∧ t = (LoadThunk wi k).2) ∧
    ∀ wf vs es, LoadAll w keys env1 env2 = Run.ret (wf, (vs, es)) →
      vs.length = keys.length ∧ es.length = keys.length ∧
      ∀ (i : Nat) (t : Thunk), (loadThunks w keys env1).2[i]? = some t →
        ∃ v e, vs[i]? = some v ∧ es[i]? = some e ∧
          (t.call wf).map Prod.snd = Run.ret (v, e) := by
  obtain ⟨l1, _, l3, l4, l5⟩ := loadThunks_spec keys hw env1
  exact ⟨(LoadAll_faults config w hw keys env1 env2).1,
    (LoadAll_faults config w hw keys env1 env2).2,
    LoadAll_returns config w hw keys env1 env2, l3, l5,
    (LoadAll_entries config w hw keys env1 env2).2⟩

theorem wellBehaved_fetchAll : WellBehaved fetchAll :=
  fun _ _ => ⟨_, rfl, Or.inl rfl⟩

theorem LoadAll_positional_witness :
    Reachable { Fetch := fetchAll, Wait := 1, MaxBatch := 0 }
      (World.new { Fetch := fetchAll, Wait := 1, MaxBatch := 0 }) ∧
    WellBehaved fetchAll ∧
    (LoadAll (World.new { Fetch := fetchAll, Wait := 1, MaxBatch := 0 }) [1, 2, 1, 4] [] []).map
        Prod.snd
      = Run.ret ([some (exampleCharacter 1), some (exampleCharacter 2),
          some (exampleCharacter 1), some (exampleCharacter 4)], [none, none, none, none]) ∧
    ∃ wf vs es, LoadAll (World.new { Fetch := fetchAll, Wait := 1, MaxBatch := 0 })
      [1, 2, 1, 4] [] [] = Run.ret (wf, (vs, es)) :=
  ⟨⟨[], rfl⟩, wellBehaved_fetchAll, rfl,
    (LoadAll_positional { Fetch := fetchAll, Wait := 1, MaxBatch := 0 }
      (World.new { Fetch := fetchAll, Wait := 1, MaxBatch := 0 }) ⟨[], rfl⟩ [1, 2, 1, 4] [] []).2.2.1
      wellBehaved_fetchAll⟩

/-- C11, as stated, fails.  With a fetch function that returns an error slice that is
empty but not nil, `LoadAll` of key 1 on a new loader does not return two lists: it
panics on the index into the error slice.  With a fetch function that aborts, `LoadAll`
does not return either: the caller is never woken. -/
theorem LoadAll_positional_counterexample :
    fetchEmptyErrors 0 [1] = some { data := [some (exampleCharacter 1)], error := some [] } ∧
    LoadAll (World.new { Fetch := fetchEmptyErrors, Wait := 1, MaxBatch := 0 }) [1] [] []
      = Run.panics Fault.indexOutOfRange ∧
    fetchAborts 0 [1] = none ∧
    LoadAll (World.new { Fetch := fetchAborts, Wait := 1, MaxBatch := 0 }) [1] [] []
      = Run.blocks :=
  ⟨rfl, rfl, rfl, rfl⟩

/-- C12 (repeated keys in LoadAll), as amended.  When `LoadAll` returns, two positions of
the input that hold the same key and were given the same handle receive equal entries.
With `MaxBatch = 0` and no other step taken while the handles are issued, every two
positions that hold the same key were given the same handle, so their entries are
equal. -/
theorem LoadAll_repeated_keys (config : CharacterLoaderConfig) (w : World)
    (hw : Reachable config w) (keys : List Int) (env1 env2 : List (List Op))
    (wf : World) (vs : List Value) (es : List Err)
    (hr : LoadAll w keys env1 env2 = Run.ret (wf, (vs, es)))
    (i j : Nat) (k : Int) (hi : keys[i]? = some k) (hj : keys[j]? = some k) :
    ((loadThunks w keys env1).2[i]? = (loadThunks w keys env1).2[j]? →
      vs[i]? = vs[j]? ∧ es[i]? = es[j]?) ∧
    (config.MaxBatch = 0 → env1 = [] → vs[i]? = vs[j]? ∧ es[i]? = es[j]?) := by
  obtain ⟨hlen, hpos⟩ := LoadAll_entries config w hw keys env1 env2
  obtain ⟨_, _, hall⟩ := hpos wf vs es hr
  have hil : i < (loadThunks w keys env1).2.length :=
    hlen ▸ (List.getElem?_eq_some.mp hi).1
  have hjl : j < (loadThunks w keys env1).2.length :=
    hlen ▸ (List.getElem?_eq_some.mp hj).1
  have hti := List.getElem?_eq_getElem hil
  have htj := List.getElem?_eq_getElem hjl
  have hsame : (loadThunks w keys env1).2[i]? = (loadThunks w keys env1).2[j]? →
      vs[i]? = vs[j]? ∧ es[i]? = es[j]? := by
    intro heq
    obtain ⟨v1, e1, hv1, he1, hc1⟩ := hall i _ hti
    obtain ⟨v2, e2, hv2, he2, hc2⟩ := hall j _ htj
    rw [hti, htj] at heq
    rw [Option.some.inj heq, hc2] at hc1
    simp only [Run.ret.injEq, Prod.mk.injEq] at hc1
    rw [hv1, hv2, he1, he2, hc1.1, hc1.2]
    exact ⟨rfl, rfl⟩
  refine ⟨hsame, ?_⟩
  intro hm0 henv
  subst henv
  apply hsame
  obtain ⟨l1, _, _, l4, _⟩ := loadThunks_spec keys hw []
  obtain ⟨_, _, hu⟩ := loadThunks_unbounded hm0 keys hw
  obtain ⟨hc1, hn1⟩ := hu i _ k hti hi
  obtain ⟨hc2, hn2⟩ := hu j _ k htj hj
  rw [hti, htj]
  cases hm : mapGet w.l.cache k with
  | some it => rw [hc1 it hm, hc2 it hm]
  | none =>
    obtain ⟨b1, p1, e1, ho1⟩ := hn1 hm
    obtain ⟨b2, p2, e2, ho2⟩ := hn2 hm
    rw [ho1] at ho2
    cases ho2
    have hin1 : Issued (loadThunks w keys []).1 (Thunk.waiting b1 p1 k) :=
      e1 ▸ l4 _ (List.getElem_mem hil)
    have hin2 : Issued (loadThunks w keys []).1 (Thunk.waiting b1 p2 k) :=
      e2 ▸ l4 _ (List.getElem_mem hjl)
    have h1 := inv_reachable l1
    obtain ⟨bb, hb, hp1⟩ := h1.handles_ok b1 p1 k hin1
    obtain ⟨bb2, hb2, hp2⟩ := h1.handles_ok b1 p2 k hin2
    rw [hb] at hb2
    cases hb2
    rw [e1, e2, pos_unique (h1.nodup b1 bb hb) hp1 hp2]

theorem LoadAll_repeated_keys_witness :
    (LoadAll (World.new { Fetch := fetchAll, Wait := 1, MaxBatch := 0 }) [1, 2, 1, 4] [] []).map
        Prod.snd
      = Run.ret ([some (exampleCharacter 1), some (exampleCharacter 2),
          some (exampleCharacter 1), some (exampleCharacter 4)], [none, none, none, none]) ∧
    ∃ wf vs es,
      LoadAll (World.new { Fetch := fetchAll, Wait := 1, MaxBatch := 0 }) [1, 2, 1, 4] [] []
        = Run.ret (wf, (vs, es)) ∧ vs[0]? = vs[2]? ∧ es[0]? = es[2]? :=
  ⟨rfl,
    (LoadAll_returns { Fetch := fetchAll, Wait := 1, MaxBatch := 0 }
      (World.new { Fetch := fetchAll, Wait := 1, MaxBatch := 0 }) ⟨[], rfl⟩ [1, 2, 1, 4] [] []
      (fun _ _ => ⟨_, rfl, Or.inl rfl⟩)).imp fun wf hwf => hwf.imp fun vs hvs => hvs.imp
        fun es hes => ⟨hes,
          (LoadAll_repeated_keys { Fetch := fetchAll, Wait := 1, MaxBatch := 0 }
            (World.new { Fetch := fetchAll, Wait := 1, MaxBatch := 0 }) ⟨[], rfl⟩ [1, 2, 1, 4]
            [] [] wf vs es hes 0 2 1 rfl rfl).2 rfl rfl⟩⟩

/-- C12, as stated, fails for a bounded loader: with `MaxBatch = 2` the keys 1, 2, 1, 3 go
into the batches [1, 2] and [1, 3], and when the fetch of the second batch returns an
error for the whole batch the entries at positions 0 and 2, both for key 1, differ. -/
theorem LoadAll_repeated_keys_counterexample :
    (LoadAll (World.new { Fetch := fetchUnlessThree, Wait := 1, MaxBatch := 2 })
        [1, 2, 1, 3] [] []).map
      (fun p => (p.1.calls.map FetchCall.keys, p.2))
      = Run.ret ([[1, 2], [1, 3]],
          ([some (exampleCharacter 1), some (exampleCharacter 2), none, none],
            [none, none, some "key 3 not found", some "key 3 not found"])) :=
  rfl

/-! ## Admissions in a row -/

theorem admitAll_cons (w : World) (k : Int) (ks : List Int) :
    admitAll w (k :: ks) = admitAll (LoadThunk w k).1 ks := rfl

theorem admitAll_append (w : World) (ks1 ks2 : List Int) :
    admitAll w (ks1 ++ ks2) = admitAll (admitAll w ks1) ks2 := by
  unfold admitAll
  rw [List.foldl_append]

theorem admitAll_frame (ks : List Int) (w : World) :
    (admitAll w ks).l.cache = w.l.cache ∧ (admitAll w ks).l.maxBatch = w.l.maxBatch ∧
    (admitAll w ks).l.fetch = w.l.fetch ∧ (admitAll w ks).calls = w.calls := by
  induction ks generalizing w with
  | nil => exact ⟨rfl, rfl, rfl, rfl⟩
  | cons k ks ih =>
    rw [admitAll_cons]
    obtain ⟨h1, h2, h3, h4⟩ := ih (LoadThunk w k).1
    exact ⟨by rw [h1, LoadThunk_cache], by rw [h2, (LoadThunk_fetch w k).2],
      by rw [h3, (LoadThunk_fetch w k).1], by rw [h4, LoadThunk_calls]⟩

theorem batch_eta (b : characterLoaderBatch) (hc : b.closing = false) :
    ({ b with keys := b.keys ++ [], closing := false } : characterLoaderBatch) = b := by
  cases b
  simp_all

/-- Admissions into an open batch that holds fewer than `m` keys: the batch takes the
keys in order and is sealed by the admission that brings it to `m` keys. -/
theorem admit_fill (m : Nat) (hint : isInt (m : Int)) (ks : List Int) :
    ∀ (w : World) (i : Nat) (b : characterLoaderBatch), w.l.maxBatch = (m : Int) →
      w.l.batch = some i → w.heap[i]? = some b → b.closing = false → b.keys ≠ [] →
      b.keys.length < m → b.keys.length + ks.length ≤ m → (b.keys ++ ks).Nodup →
      (∀ k ∈ ks, mapGet w.l.cache k = none) →
      (admitAll w ks).heap = w.heap.set i
        { b with keys := b.keys ++ ks, closing := decide (b.keys.length + ks.length = m) } ∧
      (admitAll w ks).l.batch = (if b.keys.length + ks.length = m then none else some i) ∧
      (admitAll w ks).enders
        = (if b.keys.length + ks.length = m then w.enders ++ [i] else w.enders) ∧
      (admitAll w ks).timers = w.timers := by
  induction ks with
  | nil =>
    intro w i b _ ho hb hc _ hlt _ _ _
    have hne : ¬ (b.keys.length + ([] : List Int).length = m) := by
      simp only [List.length_nil, Nat.add_zero]
      omega
    simp only [hne, decide_False, if_false]
    rw [batch_eta b hc, set_same hb]
    exact ⟨rfl, ho, rfl, rfl⟩
  | cons k ks ih =>
    intro w i b hmb ho hb hc hne hlt hle hnd hun
    have hmiss : mapGet w.l.cache k = none := hun k (List.mem_cons_self _ _)
    have hk : k ∉ b.keys := by
      intro hmem
      have := (List.nodup_append.mp hnd).2.2
      exact this hmem (List.mem_cons_self _ _)
    have hlen : (b.keys.length == 0) = false := by
      cases hkk : b.keys with
      | nil => exact absurd hkk hne
      | cons a t => rfl
    have hmpos : (0 : Int) < (m : Int) := by omega
    have hwrap : wrapInt (w.l.maxBatch - 1) = (m : Int) - 1 := by
      rw [hmb]
      exact wrapInt_pred hint hmpos
    rw [admitAll_cons, LoadThunk_open hmiss ho hb]
    simp only [List.length_cons] at hle
    by_cases hs : w.l.maxBatch ≠ 0 ∧ (b.keys.length : Int) ≥ wrapInt (w.l.maxBatch - 1)
    · have hfull : b.keys.length + 1 = m := by
        rw [hwrap] at hs
        omega
      have hks : ks = [] := by
        cases ks with
        | nil => rfl
        | cons a t => simp only [List.length_cons] at hle; omega
      subst hks
      rw [keyIndex_seal hk hc hs]
      simp only [hlen, Bool.false_eq_true, if_false, if_true, List.length_cons,
        List.length_nil, Nat.zero_add, hfull, decide_True]
      exact ⟨rfl, rfl, rfl, rfl⟩
    · have hless : b.keys.length + 1 < m := by
        rw [hwrap, hmb] at hs
        by_contra hge
        exact hs ⟨by omega, by omega⟩
      rw [keyIndex_append hk hs]
      simp only [hlen, Bool.false_eq_true, if_false]
      have hb1 : (w.heap.set i { b with keys := b.keys ++ [k] })[i]? =
          some { b with keys := b.keys ++ [k] } := by
        rw [get_set hb, if_pos rfl]
      have hnd1 : (b.keys ++ [k] ++ ks).Nodup := by
        rw [List.append_assoc]
        exact hnd
      obtain ⟨r1, r2, r3, r4⟩ := ih
        { l := w.l, heap := w.heap.set i { b with keys := b.keys ++ [k] }, timers := w.timers,
          enders := w.enders, calls := w.calls,
          handles := w.handles ++ [Thunk.waiting i b.keys.length k] }
        i { b with keys := b.keys ++ [k] } hmb ho hb1 hc (by simp)
        (by simp only [List.length_append, List.length_singleton]; exact hless)
        (by simp only [List.length_append, List.length_singleton]; omega) hnd1
        (fun k1 hk1 => hun k1 (List.mem_cons_of_mem _ hk1))
      have harith : (b.keys ++ [k]).length + ks.length = b.keys.length + (ks.length + 1) := by
        simp only [List.length_append, List.length_singleton]
        omega
      rw [harith] at r1 r2 r3
      simp only [List.length_cons]
      refine ⟨?_, r2, r3, r4⟩
      rw [r1, List.set_set]
      simp only [List.append_assoc, List.singleton_append]

/-- Admissions from a state with no open batch, of at most `m` keys: they open a batch
that holds these keys, and seal it when they are `m`. -/
theorem admit_fresh (m : Nat) (hint : isInt (m : Int)) (w : World) (k : Int) (ks : List Int)
    (hmb : w.l.maxBatch = (m : Int)) (ho : w.l.batch = none)
    (hle : (k :: ks).length ≤ m) (hnd : (k :: ks).Nodup)
    (hun : ∀ k1 ∈ k :: ks, mapGet w.l.cache k1 = none) :
    (admitAll w (k :: ks)).heap
      = w.heap ++ [⟨k :: ks, [], none, decide ((k :: ks).length = m), false⟩] ∧
    (admitAll w (k :: ks)).l.batch
      = (if (k :: ks).length = m then none else some w.heap.length) ∧
    (admitAll w (k :: ks)).enders
      = (if (k :: ks).length = m then w.enders ++ [w.heap.length] else w.enders) ∧
    (admitAll w (k :: ks)).timers = w.timers ++ [w.heap.length] := by
  have hmiss : mapGet w.l.cache k = none := hun k (List.mem_cons_self _ _)
  simp only [List.length_cons] at hle
  have hmpos : (0 : Int) < (m : Int) := by omega
  have hwrap : wrapInt (w.l.maxBatch - 1) = (m : Int) - 1 := by
    rw [hmb]
    exact wrapInt_pred hint hmpos
  rw [admitAll_cons]
  by_cases hs : w.l.maxBatch ≠ 0 ∧ (0 : Int) ≥ wrapInt (w.l.maxBatch - 1)
  · have hone : m = 1 := by
      rw [hwrap] at hs
      omega
    have hks : ks = [] := by
      cases ks with
      | nil => rfl
      | cons a t => simp only [List.length_cons] at hle; omega
    subst hks
    rw [LoadThunk_new hmiss ho true (by simpa using hs)]
    simp only [List.length_cons, List.length_nil, Nat.zero_add, hone, decide_True, if_true]
    exact ⟨rfl, rfl, rfl, rfl⟩
  · have hbig : 1 < m := by
      rw [hwrap, hmb] at hs
      by_contra hge
      exact hs ⟨by omega, by omega⟩
    rw [LoadThunk_new hmiss ho false (by simpa using hs)]
    simp only [Bool.false_eq_true, if_false]
    have hb1 : (w.heap ++ [(⟨[k], [], none, false, false⟩ : characterLoaderBatch)])[
        w.heap.length]? = some ⟨[k], [], none, false, false⟩ :=
      List.getElem?_concat_length _ _
    obtain ⟨r1, r2, r3, r4⟩ := admit_fill m hint ks
      { l := { w.l with batch := some w.heap.length },
        heap := w.heap ++ [⟨[k], [], none, false, false⟩],
        timers := w.timers ++ [w.heap.length], enders := w.enders, calls := w.calls,
        handles := w.handles ++ [Thunk.waiting w.heap.length 0 k] }
      w.heap.length ⟨[k], [], none, false, false⟩ hmb rfl hb1 rfl (by simp)
      (by simpa using hbig) (by simp only [List.length_singleton]; omega) hnd
      (fun k1 hk1 => hun k1 (List.mem_cons_of_mem _ hk1))
    have harith : ([k] : List Int).length + ks.length = ks.length + 1 := by
      simp only [List.length_singleton]
      omega
    simp only [harith] at r1 r2 r3
    simp only [List.length_cons]
    refine ⟨?_, r2, r3, r4⟩
    rw [r1]
    simp only [List.singleton_append]
    rw [List.set_append_right _ _ (le_refl _)]
    simp

theorem admit_chunks (m : Nat) (hint : isInt (m : Int)) (cs : List (List Int)) :
    ∀ (w : World) (r : List Int), w.l.maxBatch = (m : Int) → w.l.batch = none →
      (∀ c ∈ cs, c.length = m) → 0 < m → r.length < m → (cs.flatten ++ r).Nodup →
      (∀ k ∈ cs.flatten ++ r, mapGet w.l.cache k = none) →
      (admitAll w (cs.flatten ++ r)).heap
        = w.heap ++ cs.map (fun c => ⟨c, [], none, true, false⟩)
            ++ (if r = [] then [] else [⟨r, [], none, false, false⟩]) ∧
      (admitAll w (cs.flatten ++ r)).l.batch
        = (if r = [] then none else some (w.heap.length + cs.length)) ∧
      (admitAll w (cs.flatten ++ r)).enders = w.enders ++ List.range' w.heap.length cs.length ∧
      (admitAll w (cs.flatten ++ r)).timers
        = w.timers ++ List.range' w.heap.length (cs.length + (if r = [] then 0 else 1)) := by
  induction cs with
  | nil =>
    intro w r hmb ho _ _ hr hnd hun
    simp only [List.flatten_nil, List.nil_append, List.map_nil, List.append_nil,
      List.length_nil, Nat.add_zero, Nat.zero_add, List.range'_zero] at hnd hun ⊢
    cases r with
    | nil => exact ⟨by simp [admitAll], by simp [admitAll, ho], rfl, by simp [admitAll]⟩
    | cons k ks =>
      obtain ⟨r1, r2, r3, r4⟩ := admit_fresh m hint w k ks hmb ho (by omega) hnd hun
      have hne : ¬ ((k :: ks).length = m) := by omega
      simp only [hne, decide_False, if_false] at r1 r2 r3
      simp only [reduceCtorEq, if_false, List.range'_one]
      exact ⟨r1, r2, r3, r4⟩
  | cons c cs ih =>
    intro w r hmb ho hcs hm hr hnd hun
    have hc : c.length = m := hcs c (List.mem_cons_self _ _)
    cases c with
    | nil => simp only [List.length_nil] at hc; omega
    | cons k ks =>
      have hsplit : (List.flatten ((k :: ks) :: cs)) ++ r = (k :: ks) ++ (cs.flatten ++ r) := by
        simp only [List.flatten_cons, List.append_assoc]
      rw [hsplit] at hnd hun ⊢
      rw [admitAll_append]
      obtain ⟨f1, f2, _, _⟩ := admitAll_frame (k :: ks) w
      obtain ⟨r1, r2, r3, r4⟩ := admit_fresh m hint w k ks hmb ho (by omega)
        (List.Nodup.of_append_left hnd) (fun k1 hk1 => hun k1 (List.mem_append.mpr (Or.inl hk1)))
      simp only [hc, decide_True, if_true] at r1 r2 r3
      obtain ⟨i1, i2, i3, i4⟩ := ih (admitAll w (k :: ks)) r (by rw [f2, hmb]) r2
        (fun c1 hc1 => hcs c1 (List.mem_cons_of_mem _ hc1)) hm hr
        (List.Nodup.of_append_right hnd)
        (fun k1 hk1 => by rw [f1]; exact hun k1 (List.mem_append.mpr (Or.inr hk1)))
      rw [r1] at i1 i2 i3 i4
      rw [r3] at i3
      rw [r4] at i4
      simp only [List.length_append, List.length_singleton, List.length_cons, List.length_nil,
        Nat.zero_add] at i2 i3 i4
      refine ⟨?_, ?_, ?_, ?_⟩
      · rw [i1]
        simp only [List.map_cons, List.append_assoc, List.singleton_append, List.cons_append,
          List.nil_append]
      · rw [i2, List.length_cons]
        split
        · rfl
        · congr 1
          omega
      · rw [i3, List.length_cons, List.range'_succ]
        simp only [List.append_assoc, List.singleton_append]
      · rw [i4, List.length_cons]
        have : cs.length + 1 + (if r = [] then 0 else 1)
            = (cs.length + (if r = [] then 0 else 1)) + 1 := by omega
        rw [this, List.range'_succ]
        simp only [List.append_assoc, List.singleton_append]

theorem chunk_decomp (m : Nat) (hm : 0 < m) :
    ∀ (n : Nat) (keys : List Int), keys.length = n →
      ∃ (cs : List (List Int)) (r : List Int), keys = cs.flatten ++ r ∧
        (∀ c ∈ cs, c.length = m) ∧ cs.length = n / m ∧ r.length = n % m := by
  intro n
  induction n using Nat.strong_induction_on with
  | _ n ih =>
    intro keys hlen
    by_cases hlt : n < m
    · exact ⟨[], keys, by simp, by simp, by simp [Nat.div_eq_of_lt hlt],
        by rw [Nat.mod_eq_of_lt hlt]; exact hlen⟩
    · have hge : m ≤ n := by omega
      obtain ⟨cs, r, h1, h2, h3, h4⟩ := ih (n - m) (by omega) (keys.drop m)
        (by rw [List.length_drop, hlen])
      refine ⟨keys.take m :: cs, r, ?_, ?_, ?_, ?_⟩
      · rw [List.flatten_cons, List.append_assoc, ← h1, List.take_append_drop]
      · intro c hc
        rcases List.mem_cons.mp hc with hc | hc
        · rw [hc, List.length_take, hlen]
          omega
        · exact h2 c hc
      · rw [List.length_cons, h3, Nat.div_eq_sub_div hm hge]
      · rw [h4, ← Nat.mod_eq_sub_mod hge]

/-- C13 (max-batch chunking).  Let the loader have `MaxBatch = m > 0` and no open batch, and
let distinct uncached keys be admitted one after the other with no other step in between.
Then the key list splits into `n / m` chunks of `m` keys and a rest of `n % m` keys such
that the heap has grown by one sealed batch per chunk, in admission order, each with its
`end` scheduled, and by one more batch holding the rest when there is one; that batch is
the open batch, and when its timer fires its `end` is scheduled and passes the rest to
fetch. -/
theorem max_batch_chunking (w : World) (m : Nat) (hm : 0 < m) (hint : isInt (m : Int))
    (hmb : w.l.maxBatch = (m : Int)) (ho : w.l.batch = none) (keys : List Int)
    (hnd : keys.Nodup) (hun : ∀ k ∈ keys, mapGet w.l.cache k = none) :
    ∃ (cs : List (List Int)) (r : List Int), keys = cs.flatten ++ r ∧
      (∀ c ∈ cs, c.length = m) ∧ cs.length = keys.length / m ∧
      r.length = keys.length % m ∧
      (admitAll w keys).heap
        = w.heap ++ cs.map (fun c => ⟨c, [], none, true, false⟩)
            ++ (if r = [] then [] else [⟨r, [], none, false, false⟩]) ∧
      (admitAll w keys).enders = w.enders ++ List.range' w.heap.length cs.length ∧
      (admitAll w keys).timers
        = w.timers ++ List.range' w.heap.length (cs.length + (if r = [] then 0 else 1)) ∧
      (admitAll w keys).calls = w.calls ∧
      (r = [] → (admitAll w keys).l.batch = none) ∧
      (r ≠ [] →
        (admitAll w keys).l.batch = some (w.heap.length + cs.length) ∧
        (w.heap.length + cs.length) ∈ (admitAll w keys).timers ∧
        (startTimer (admitAll w keys) (w.heap.length + cs.length)).enders
          = (admitAll w keys).enders ++ [w.heap.length + cs.length] ∧
        ∀ res, w.l.fetch w.calls.length r = some res →
          ∃ w2, endBatch (startTimer (admitAll w keys) (w.heap.length + cs.length))
              (w.heap.length + cs.length) = Run.ret w2 ∧
            w2.calls = w.calls ++ [⟨w.heap.length + cs.length, r, res⟩]) := by
  obtain ⟨cs, r, h1, h2, h3, h4⟩ := chunk_decomp m hm keys.length keys rfl
  have hr : r.length < m := by
    rw [h4]
    exact Nat.mod_lt _ hm
  obtain ⟨f1, f2, f3, f4⟩ := admitAll_frame keys w
  subst h1
  obtain ⟨a1, a2, a3, a4⟩ := admit_chunks m hint cs w r hmb ho h2 hm hr hnd hun
  refine ⟨cs, r, rfl, h2, h3, h4, a1, a3, a4, f4, ?_, ?_⟩
  · intro hre
    rw [a2, if_pos hre]
  · intro hre
    rw [if_neg hre] at a1 a2 a4
    have hget : (admitAll w (cs.flatten ++ r)).heap[w.heap.length + cs.length]?
        = some ⟨r, [], none, false, false⟩ := by
      rw [a1]
      have hl : (w.heap ++ cs.map (fun c => (⟨c, [], none, true, false⟩ : characterLoaderBatch))).length
          = w.heap.length + cs.length := by simp
      rw [← hl]
      exact List.getElem?_concat_length _ _
    have hd := deref_of_get hget
    have hst := startTimer_open (w := admitAll w (cs.flatten ++ r))
      (i := w.heap.length + cs.length) (by rw [hd])
    refine ⟨a2, ?_, hst.2, ?_⟩
    · rw [a4, List.range'_concat]
      simp
    · intro res hres
      have hderef : (startTimer (admitAll w (cs.flatten ++ r)) (w.heap.length + cs.length)).deref
          (w.heap.length + cs.length) = ⟨r, [], none, false, false⟩ := by
        unfold startTimer
        rw [hd]
        exact hd
      unfold endBatch
      simp only [hderef]
      have hfc : (startTimer (admitAll w (cs.flatten ++ r)) (w.heap.length + cs.length)).l.fetch
          (startTimer (admitAll w (cs.flatten ++ r)) (w.heap.length + cs.length)).calls.length r
          = some res := by
        unfold startTimer
        rw [hd]
        simp only [Bool.false_eq_true, if_false, f3, f4]
        exact hres
      rw [hfc]
      simp only [Bool.false_eq_true, if_false]
      refine ⟨_, rfl, ?_⟩
      show (startTimer (admitAll w (cs.flatten ++ r)) (w.heap.length + cs.length)).calls ++ _ = _
      unfold startTimer
      rw [hd]
      simp only [Bool.false_eq_true, if_false, f4]

theorem max_batch_chunking_witness :
    admitAll (World.new { Fetch := fetchAll, Wait := 1, MaxBatch := 2 }) [1, 2, 3]
      = worldAfter { Fetch := fetchAll, Wait := 1, MaxBatch := 2 }
          [Op.loadThunk 1, Op.loadThunk 2, Op.loadThunk 3] ∧
    chunkedWorld.calls.map (fun c => c.keys.length) = [2, 1] ∧
    ∃ (cs : List (List Int)) (r : List Int), [1, 2, 3] = cs.flatten ++ r ∧
      cs.length = 1 ∧ r.length = 1 ∧
      (admitAll (World.new { Fetch := fetchAll, Wait := 1, MaxBatch := 2 }) [1, 2, 3]).enders
        = [] ++ List.range' 0 cs.length :=
  ⟨rfl, rfl,
    (max_batch_chunking (World.new { Fetch := fetchAll, Wait := 1, MaxBatch := 2 }) 2
      (by decide) (by decide) rfl rfl [1, 2, 3] (by decide) (fun _ _ => rfl)).imp
      fun cs hcs => hcs.imp fun r hr => ⟨hr.1, hr.2.2.1, hr.2.2.2.1, hr.2.2.2.2.2.1⟩⟩

/-- C14 (unbounded mode and wait window).  For a loader with `MaxBatch = 0`, in every
reachable world: an admission schedules no `end`, keeps the open batch open and puts an
uncached key on a batch that is open afterwards; no batch is marked as closing; the timer
of a batch sleeps exactly as long as the batch is the open batch; a batch whose timer
sleeps has not been fetched, its `end` is not scheduled and cannot run, and every handle on
it blocks; the timer, when it fires, detaches the batch and schedules its `end`; and every
key a handle waits for is, at the handle's position, in the key list of the one fetch
invocation of its batch. -/
theorem unbounded_wait_window (config : CharacterLoaderConfig) (hm0 : config.MaxBatch = 0)
    (w : World) (hw : Reachable config w) :
    (∀ k, (LoadThunk w k).1.enders = w.enders ∧
      (∀ b, w.l.batch = some b → (LoadThunk w k).1.l.batch = some b) ∧
      (mapGet w.l.cache k = none → ∃ b pos, (LoadThunk w k).2 = Thunk.waiting b pos k ∧
        (LoadThunk w k).1.l.batch = some b)) ∧
    (∀ (i : Nat) (b : characterLoaderBatch), w.heap[i]? = some b → b.closing = false) ∧
    (∀ i, i ∈ w.timers ↔ w.l.batch = some i) ∧
    (∀ i ∈ w.timers, i ∉ w.enders ∧ i ∉ w.calls.map FetchCall.batch ∧
      step w (Op.finish i) = none ∧
      ∀ (pos : Nat) (k : Int), (Thunk.waiting i pos k).call w = Run.blocks) ∧
    (∀ i ∈ w.timers, (startTimer w i).l.batch = none ∧ i ∈ (startTimer w i).enders) ∧
    (∀ (i pos : Nat) (k : Int), Thunk.waiting i pos k ∈ w.handles →
      ∀ c ∈ w.calls, c.batch = i → c.keys[pos]? = some k) ∧
    (∀ i, (w.calls.map FetchCall.batch).count i ≤ 1) := by
  have h := inv_reachable hw
  have hl := log_reachable hw
  have hcl : ∀ (i : Nat) (b : characterLoaderBatch), w.heap[i]? = some b →
      b.closing = false := by
    intro i b hb
    cases hc : b.closing with
    | false => rfl
    | true => exact absurd hm0 (hl.closing_ok i b hb hc)
  have htm : ∀ i, i ∈ w.timers → w.l.batch = some i := by
    intro i hi
    obtain ⟨b, hb, ho⟩ := h.timers_ok i hi
    exact ho (hcl i b hb)
  refine ⟨?_, hcl, ?_, ?_, ?_, ?_, ?_⟩
  · intro k
    obtain ⟨u1, u2, u3⟩ := LoadThunk_unbounded h hm0 k
    exact ⟨u3, u1, u2⟩
  · intro i
    refine ⟨htm i, ?_⟩
    intro ho
    obtain ⟨_, _, _, _, h4, _⟩ := h.open_ok i ho
    exact h4
  · intro i hi
    obtain ⟨b, hb, _, hdn, _, hne, hnf⟩ := h.open_ok i (htm i hi)
    refine ⟨hne, hnf, by simp [step, hne], ?_⟩
    intro pos k
    simp only [Thunk.call, deref_of_get hb, hdn, Bool.not_false, if_true]
  · intro i hi
    obtain ⟨b, hb, _⟩ := h.timers_ok i hi
    have hst := startTimer_open (w := w) (i := i) (by rw [deref_of_get hb]; exact hcl i b hb)
    refine ⟨hst.1, ?_⟩
    rw [hst.2]
    exact List.mem_append.mpr (Or.inr (List.mem_singleton.mpr rfl))
  · intro i pos k ht c hc hci
    obtain ⟨b, hb, hp⟩ := h.handles_ok i pos k ht
    obtain ⟨b2, hb2, hk, _⟩ := h.calls_ok c hc
    rw [hci, hb] at hb2
    cases hb2
    rw [← hk]
    exact hp
  · intro i
    have := h.once i
    unfold World.fetched at this
    omega

theorem unbounded_wait_window_witness :
    Reachable { Fetch := fetchAll, Wait := 1, MaxBatch := 0 } loneWorld ∧
    loneWorld.timers = [0] ∧ loneWorld.calls = [] ∧
    step loneWorld (Op.finish 0) = none ∧
    (Thunk.waiting 0 0 1).call loneWorld = Run.blocks ∧
    (startTimer loneWorld 0).enders = [0] :=
  have hr : Reachable { Fetch := fetchAll, Wait := 1, MaxBatch := 0 } loneWorld :=
    ⟨[Op.loadThunk 1], rfl⟩
  have hu := (unbounded_wait_window { Fetch := fetchAll, Wait := 1, MaxBatch := 0 } rfl
    loneWorld hr).2.2.2.1 0 (by decide)
  ⟨hr, rfl, rfl, hu.2.2.1, hu.2.2.2 0 1, rfl⟩

/-- C15 (contract violation), as amended.  The loader synthesizes no error, whatever the
lengths of the slices that fetch returned.  In a reachable world a handle at position
`pos` of a fetched batch resolves to the value at `pos`, nil when the value slice has no
such position, together with: no error when the error slice is nil; the one error of an
error slice of length one; the error at `pos` of any other error slice that has such a
position.  The value is written to the cache exactly when that error is nil. -/
theorem contract_violation (config : CharacterLoaderConfig) (w : World)
    (hw : Reachable config w) (c : FetchCall) (hc : c ∈ w.calls) (pos : Nat) (k : Int) :
    (c.result.error = none →
      (Thunk.waiting c.batch pos k).call w
        = Run.ret (cacheResult w k (c.result.data.getD pos none) none,
            (c.result.data.getD pos none, none))) ∧
    (∀ e, c.result.error = some [e] →
      (Thunk.waiting c.batch pos k).call w
        = Run.ret (cacheResult w k (c.result.data.getD pos none) e,
            (c.result.data.getD pos none, e))) ∧
    (∀ es e, c.result.error = some es → es.length ≠ 1 → es[pos]? = some e →
      (Thunk.waiting c.batch pos k).call w
        = Run.ret (cacheResult w k (c.result.data.getD pos none) e,
            (c.result.data.getD pos none, e))) := by
  have h := inv_reachable hw
  obtain ⟨b, hb, _, hdata, herr, hdone⟩ := h.calls_ok c hc
  have hv : (if pos < c.result.data.length then c.result.data.getD pos none else none)
      = c.result.data.getD pos none := by
    split
    · rfl
    · rename_i hlt
      rw [List.getD_eq_getElem?_getD, List.getElem?_eq_none (by omega)]
      rfl
  refine ⟨?_, ?_, ?_⟩
  · intro he
    simp only [Thunk.call, deref_of_get hb, hdone, herr, he, hdata, hv, Bool.not_true,
      Bool.false_eq_true, if_false, cacheResult, if_true]
  · intro e he
    simp only [Thunk.call, deref_of_get hb, hdone, herr, he, hdata, hv, Bool.not_true,
      Bool.false_eq_true, if_false, List.length_singleton, if_true, List.getD_cons_zero]
    cases e <;> simp [cacheResult]
  · intro es e he hlen hpos
    simp only [Thunk.call, deref_of_get hb, hdone, herr, he, hdata, hv, Bool.not_true,
      Bool.false_eq_true, if_false, hlen, List.get?_eq_getElem?, hpos]
    cases e <;> simp [cacheResult]

theorem contract_violation_witness :
    Reachable { Fetch := fetchShort, Wait := 1, MaxBatch := 0 } shortWorld ∧
    shortCall ∈ shortWorld.calls ∧
    (Thunk.waiting 0 0 1).call shortWorld
      = Run.ret (cacheResult shortWorld 1 (some (exampleCharacter 1)) none,
          (some (exampleCharacter 1), none)) :=
  have hr : Reachable { Fetch := fetchShort, Wait := 1, MaxBatch := 0 } shortWorld :=
    ⟨[Op.loadThunk 1, Op.loadThunk 2, Op.timer 0, Op.finish 0], rfl⟩
  ⟨hr, by decide,
    (contract_violation _ shortWorld hr shortCall (by decide) 0 1).1 rfl⟩

/-- C15, as stated, fails: fetch returned one value for the two keys 1 and 2 and a nil
error slice; the handle for key 2 resolves to a nil value with a nil error, and the nil
value is cached for key 2. -/
theorem contract_violation_counterexample :
    shortCall ∈ shortWorld.calls ∧ shortCall.keys.length = 2 ∧
    shortCall.result.data.length = 1 ∧
    Thunk.waiting 0 1 2 ∈ shortWorld.handles ∧
    ((Thunk.waiting 0 1 2).call shortWorld).map Prod.snd = Run.ret (none, none) ∧
    ((Thunk.waiting 0 1 2).call shortWorld).map (fun p => mapGet p.1.l.cache 2)
      = Run.ret (some none) :=
  ⟨by decide, rfl, rfl, by decide, rfl, rfl⟩

/-- C16 fails on the code when the error slice is empty but not nil: fetch returned the
value for key 1 and an empty error slice, and the handle for key 1 faults on
`batch.error[pos]` instead of resolving. -/
theorem empty_error_vector_faults :
    emptyErrorsCall ∈ emptyErrorsWorld.calls ∧
    emptyErrorsCall.result.data.length = emptyErrorsCall.keys.length ∧
    emptyErrorsCall.result.error = some [] ∧
    Thunk.waiting 0 0 1 ∈ emptyErrorsWorld.handles ∧
    (Thunk.waiting 0 0 1).call emptyErrorsWorld = Run.panics Fault.indexOutOfRange :=
  ⟨by decide, rfl, rfl, by decide, rfl⟩

theorem LoadThunk_heap {config : CharacterLoaderConfig} {w : World} (h : Inv config w)
    (key : Int) {i : Nat} {b1 : characterLoaderBatch}
    (hi : (LoadThunk w key).1.heap[i]? = some b1) :
    ∃ b0, (w.heap[i]? = some b0 ∨ (i = w.heap.length ∧ b0 = ⟨[], [], none, false, false⟩)) ∧
      b1.data = b0.data ∧ b1.error = b0.error ∧ b1.done = b0.done ∧
      ∀ k, k ∈ b1.keys → k ∈ b0.keys ∨ k = key := by
  cases hm : mapGet w.l.cache key with
  | some it =>
    rw [LoadThunk_hit hm] at hi
    exact ⟨b1, Or.inl hi, rfl, rfl, rfl, fun k hk => Or.inl hk⟩
  | none =>
    cases ho : w.l.batch with
    | none =>
      have heq := LoadThunk_new hm ho
        (decide (w.l.maxBatch ≠ 0 ∧ (0 : Int) ≥ wrapInt (w.l.maxBatch - 1))) (by simp)
      rw [heq] at hi
      rcases get_concat _ _ _ hi with ⟨-, h1⟩ | ⟨h1, h2⟩
      · exact ⟨b1, Or.inl h1, rfl, rfl, rfl, fun k hk => Or.inl hk⟩
      · refine ⟨⟨[], [], none, false, false⟩, Or.inr ⟨h1, rfl⟩, ?_⟩
        rw [h2]
        refine ⟨rfl, rfl, rfl, ?_⟩
        intro k hk
        exact Or.inr (List.mem_singleton.mp hk)
    | some j =>
      obtain ⟨b, hb, hc, -⟩ := h.open_ok j ho
      have heq := LoadThunk_open hm ho hb
      rw [heq] at hi
      have hi2 : (w.heap.set j (keyIndex b w.l key).b)[i]? = some b1 := hi
      rw [get_set hb] at hi2
      by_cases hij : j = i
      · rw [if_pos hij] at hi2
        simp only [Option.some.injEq] at hi2
        refine ⟨b, Or.inl (hij ▸ hb), ?_⟩
        rw [← hi2]
        by_cases hk : key ∈ b.keys
        · rw [keyIndex_found hk]
          exact ⟨rfl, rfl, rfl, fun k hk => Or.inl hk⟩
        · by_cases hmb : w.l.maxBatch ≠ 0 ∧ (b.keys.length : Int) ≥ wrapInt (w.l.maxBatch - 1)
          · rw [keyIndex_seal hk hc hmb]
            refine ⟨rfl, rfl, rfl, ?_⟩
            intro k hk1
            rcases List.mem_append.mp hk1 with h1 | h1
            · exact Or.inl h1
            · exact Or.inr (List.mem_singleton.mp h1)
          · rw [keyIndex_append hk hmb]
            refine ⟨rfl, rfl, rfl, ?_⟩
            intro k hk1
            rcases List.mem_append.mp hk1 with h1 | h1
            · exact Or.inl h1
            · exact Or.inr (List.mem_singleton.mp h1)
      · rw [if_neg hij] at hi2
        exact ⟨b1, Or.inl hi2, rfl, rfl, rfl, fun k hk => Or.inl hk⟩

theorem fresh_step {config : CharacterLoaderConfig} {w w1 : World} (h : Inv config w)
    (hf : ∀ (i : Nat) (b : characterLoaderBatch), w.heap[i]? = some b → b.done = false →
      b.data = [] ∧ b.error = none)
    (op : Op) (hs : step w op = some w1) :
    ∀ (i : Nat) (b : characterLoaderBatch), w1.heap[i]? = some b → b.done = false →
      b.data = [] ∧ b.error = none := by
  intro i b hi hd
  rcases step_cases op hs with ⟨key, -, e⟩ | ⟨j, r, -, -, -, -, -, e, -⟩ | ⟨e, -⟩
  · rw [e] at hi
    obtain ⟨b0, hb0, e1, e2, e3, -⟩ := LoadThunk_heap h key hi
    rw [e1, e2]
    rcases hb0 with hb0 | ⟨-, hb0⟩
    · exact hf i b0 hb0 (by rw [← e3]; exact hd)
    · rw [hb0]
      exact ⟨rfl, rfl⟩
  · rw [e] at hi
    cases hx : w.heap[j]? with
    | none =>
      rw [List.set_eq_of_length_le (by
        rcases Nat.lt_or_ge j w.heap.length with hlt | hge
        · rw [List.getElem?_eq_getElem hlt] at hx; cases hx
        · exact hge)] at hi
      exact hf i b hi hd
    | some y =>
      rw [get_set hx] at hi
      split at hi
      · simp only [Option.some.injEq] at hi
        rw [← hi] at hd
        cases hd
      · exact hf i b hi hd
  · rw [e] at hi
    exact hf i b hi hd

theorem fresh_exec {config : CharacterLoaderConfig} (ops : List Op) {w w1 : World}
    (h : Inv config w)
    (hf : ∀ (i : Nat) (b : characterLoaderBatch), w.heap[i]? = some b → b.done = false →
      b.data = [] ∧ b.error = none)
    (hs : exec w ops = some w1) :
    ∀ (i : Nat) (b : characterLoaderBatch), w1.heap[i]? = some b → b.done = false →
      b.data = [] ∧ b.error = none := by
  induction ops generalizing w with
  | nil =>
    simp only [exec, Option.some.injEq] at hs
    rw [← hs]; exact hf
  | cons op ops ih =>
    simp only [exec] at hs
    cases hw : step w op with
    | none => rw [hw] at hs; cases hs
    | some w2 =>
      rw [hw] at hs
      exact ih (inv_step h op hw) (fresh_step h hf op hw) hs

theorem fresh_reachable {config : CharacterLoaderConfig} {w : World}
    (hw : Reachable config w) :
    ∀ (i : Nat) (b : characterLoaderBatch), w.heap[i]? = some b → b.done = false →
      b.data = [] ∧ b.error = none := by
  obtain ⟨ops, hs⟩ := hw
  exact fresh_exec ops (inv_new config) (fun i b hi => by simp [World.new] at hi) hs

theorem await_abort {config : CharacterLoaderConfig} {w : World} (hw : Reachable config w)
    {b : Nat} (hb : b ∈ w.enders)
    (hf : w.l.fetch w.calls.length (w.deref b).keys = none) : await w b = Run.blocks := by
  have h := inv_reachable hw
  have he : endBatch w b = Run.panics Fault.fetchAborted := by
    unfold endBatch
    simp only [hf]
  by_cases ht : b ∈ w.timers
  · obtain ⟨bb, hbb, hopen⟩ := h.timers_ok b ht
    have hc : (w.deref b).closing = true := by
      rw [deref_of_get hbb]
      cases hcl : bb.closing with
      | true => rfl
      | false =>
        obtain ⟨-, -, -, -, -, hne, -⟩ := h.open_ok b (hopen hcl)
        exact absurd hb hne
    have hst : startTimer w b = { w with timers := w.timers.erase b } := by
      unfold startTimer
      rw [if_pos hc]
    have he2 : endBatch (startTimer w b) b = Run.panics Fault.fetchAborted := by
      rw [hst]
      unfold endBatch
      have hf2 : w.l.fetch w.calls.length (w.deref b).keys = none := hf
      simp only [World.deref] at hf2 ⊢
      simp only [hf2]
    have hb2 : b ∈ (startTimer w b).enders := by rw [hst]; exact hb
    unfold await
    simp only [ht, if_true, hb2, he2]
  · unfold await
    simp only [ht, if_false, hb, if_true, he]

/-- C17 (fetch-failure isolation), as amended.  In a reachable world in which the `end`
of a batch is scheduled, let the invocation of fetch that this `end` makes abort.  Then
`end` aborts with it, before it stores a result and before it closes the channel; the
step has no world after it, and neither has any run of steps that begins with it, so
nothing recovers the abort, and no state follows in which the batch is done, holds an
error or has a key cached.  At that moment the batch is not done, its value slice is
empty and its error slice is nil, every handle on the batch blocks, and a caller that
waits on a handle of the batch is not woken. -/
theorem fetch_abort (config : CharacterLoaderConfig) (w : World) (hw : Reachable config w)
    (b : Nat) (hb : b ∈ w.enders)
    (hf : w.l.fetch w.calls.length (w.deref b).keys = none) :
    endBatch w b = Run.panics Fault.fetchAborted ∧
    step w (Op.finish b) = none ∧
    (∀ ops, exec w (Op.finish b :: ops) = none) ∧
    (w.deref b).done = false ∧ (w.deref b).data = [] ∧ (w.deref b).error = none ∧
    (∀ (pos : Nat) (k : Int), (Thunk.waiting b pos k).call w = Run.blocks) ∧
    (∀ (pos : Nat) (k : Int), (Thunk.waiting b pos k).wait w = Run.blocks) := by
  have h := inv_reachable hw
  obtain ⟨bb, hbb, hd⟩ := h.enders_ok b hb
  have hd1 : (w.deref b).done = false := by rw [deref_of_get hbb]; exact hd
  have he : endBatch w b = Run.panics Fault.fetchAborted := by
    unfold endBatch
    simp only [hf]
  have hst : step w (Op.finish b) = none := by
    simp only [step, he, Run.toOption]
    split <;> rfl
  have hfr := fresh_reachable hw b bb hbb hd
  refine ⟨he, hst, ?_, hd1, ?_, ?_, ?_, ?_⟩
  · intro ops
    simp only [exec, hst, Option.bind]
  · rw [deref_of_get hbb]; exact hfr.1
  · rw [deref_of_get hbb]; exact hfr.2
  · intro pos k
    simp only [Thunk.call, hd1, Bool.not_false, if_true]
  · intro pos k
    simp only [Thunk.wait, hd1, Bool.false_eq_true, if_false, await_abort hw hb hf]

theorem fetch_abort_witness :
    Reachable { Fetch := fetchAborts, Wait := 1, MaxBatch := 0 } abortWorld ∧
    0 ∈ abortWorld.enders ∧
    abortWorld.l.fetch abortWorld.calls.length (abortWorld.deref 0).keys = none ∧
    endBatch abortWorld 0 = Run.panics Fault.fetchAborted ∧
    (∀ ops, exec abortWorld (Op.finish 0 :: ops) = none) ∧
    (Thunk.waiting 0 0 1).wait abortWorld = Run.blocks :=
  ⟨⟨[Op.loadThunk 1, Op.timer 0], rfl⟩, by decide, rfl,
    (fetch_abort { Fetch := fetchAborts, Wait := 1, MaxBatch := 0 } abortWorld
      ⟨[Op.loadThunk 1, Op.timer 0], rfl⟩ 0 (by decide) rfl).1,
    (fetch_abort { Fetch := fetchAborts, Wait := 1, MaxBatch := 0 } abortWorld
      ⟨[Op.loadThunk 1, Op.timer 0], rfl⟩ 0 (by decide) rfl).2.2.1,
    (fetch_abort { Fetch := fetchAborts, Wait := 1, MaxBatch := 0 } abortWorld
      ⟨[Op.loadThunk 1, Op.timer 0], rfl⟩ 0 (by decide) rfl).2.2.2.2.2.2.2 0 1⟩

/-- C17, as stated, fails: with a fetch function that aborts, the `end` of the batch of
key 1 aborts and no world follows it; the batch is not done, its error slice is still
nil, the handle for key 1 blocks instead of resolving to an error, and a caller that
waits on it is not woken. -/
theorem fetch_abort_counterexample :
    abortWorld.enders = [0] ∧
    endBatch abortWorld 0 = Run.panics Fault.fetchAborted ∧
    step abortWorld (Op.finish 0) = none ∧
    (abortWorld.deref 0).done = false ∧ (abortWorld.deref 0).error = none ∧
    (Thunk.waiting 0 0 1).call abortWorld = Run.blocks ∧
    (Thunk.waiting 0 0 1).wait abortWorld = Run.blocks :=
  ⟨rfl, rfl, rfl, rfl, rfl, rfl, rfl⟩

/-- C19 (single open batch).  In every reachable world the open-batch reference is empty
or points to a batch on the heap that is not closing, not done, whose `end` is not
scheduled and that has not been fetched.  An admission that schedules an `end` leaves the
reference empty, and so does the timer of a batch that is not closing, which schedules
the `end`; the timer of a closing batch changes neither.  With the reference empty, the
admission of an uncached key puts a new batch holding exactly that key at the end of the
heap and returns the handle at its position 0; and an admission never changes a batch
other than the open one. -/
theorem single_open_batch (config : CharacterLoaderConfig) (w : World)
    (hw : Reachable config w) :
    (∀ i, w.l.batch = some i → ∃ b, w.heap[i]? = some b ∧ b.closing = false ∧
      b.done = false ∧ i ∉ w.enders ∧ i ∉ w.calls.map FetchCall.batch) ∧
    (∀ (k : Int) (i : Nat), i ∈ (LoadThunk w k).1.enders → i ∉ w.enders →
      (LoadThunk w k).1.l.batch = none) ∧
    (∀ i ∈ w.timers, (w.deref i).closing = false →
      (startTimer w i).l.batch = none ∧ (startTimer w i).enders = w.enders ++ [i]) ∧
    (∀ i ∈ w.timers, (w.deref i).closing = true →
      (startTimer w i).l.batch = w.l.batch ∧ (startTimer w i).enders = w.enders) ∧
    (∀ k : Int, w.l.batch = none → mapGet w.l.cache k = none →
      (LoadThunk w k).2 = Thunk.waiting w.heap.length 0 k ∧
      ∃ c, (LoadThunk w k).1.heap = w.heap ++ [⟨[k], [], none, c, false⟩]) ∧
    (∀ (k : Int) (j : Nat) (b : characterLoaderBatch), w.heap[j]? = some b →
      w.l.batch ≠ some j → (LoadThunk w k).1.heap[j]? = some b) := by
  have h := inv_reachable hw
  refine ⟨?_, ?_, ?_, ?_, ?_, ?_⟩
  · intro i ho
    obtain ⟨b, hb, h1, h2, _, h4, h5⟩ := h.open_ok i ho
    exact ⟨b, hb, h1, h2, h4, h5⟩
  · intro k i hi hni
    cases hm : mapGet w.l.cache k with
    | some it =>
      rw [LoadThunk_hit hm] at hi
      exact absurd hi hni
    | none =>
      cases ho : w.l.batch with
      | none =>
        by_cases hs : w.l.maxBatch ≠ 0 ∧ (0 : Int) ≥ wrapInt (w.l.maxBatch - 1)
        · rw [LoadThunk_new hm ho true (by simpa using hs)]
          rfl
        · rw [LoadThunk_new hm ho false (by simpa using hs)] at hi
          exact absurd hi hni
      | some j =>
        obtain ⟨b0, hb0, hcl0, _⟩ := h.open_ok j ho
        rw [LoadThunk_open hm ho hb0] at hi ⊢
        by_cases hmem : k ∈ b0.keys
        · rw [keyIndex_found hmem] at hi
          exact absurd hi hni
        · by_cases hs : w.l.maxBatch ≠ 0 ∧
              (b0.keys.length : Int) ≥ wrapInt (w.l.maxBatch - 1)
          · rw [keyIndex_seal hmem hcl0 hs]
          · rw [keyIndex_append hmem hs] at hi
            exact absurd hi hni
  · intro i _ hc
    exact startTimer_open hc
  · intro i _ hc
    unfold startTimer
    rw [if_pos hc]
    exact ⟨rfl, rfl⟩
  · intro k ho hm
    by_cases hs : w.l.maxBatch ≠ 0 ∧ (0 : Int) ≥ wrapInt (w.l.maxBatch - 1)
    · rw [LoadThunk_new hm ho true (by simpa using hs)]
      exact ⟨rfl, true, rfl⟩
    · rw [LoadThunk_new hm ho false (by simpa using hs)]
      exact ⟨rfl, false, rfl⟩
  · intro k j b hj hne
    exact LoadThunk_frame h k hj hne

theorem single_open_batch_witness :
    Reachable { Fetch := fetchAll, Wait := 1, MaxBatch := 2 } thresholdWorld ∧
    thresholdWorld.l.batch = none ∧ thresholdWorld.heap.length = 1 ∧
    (LoadThunk thresholdWorld 3).2 = Thunk.waiting thresholdWorld.heap.length 0 3 ∧
    (LoadThunk thresholdWorld 3).1.heap
      = [⟨[1, 2], [], none, true, false⟩, ⟨[3], [], none, false, false⟩] :=
  have hr : Reachable { Fetch := fetchAll, Wait := 1, MaxBatch := 2 } thresholdWorld :=
    ⟨[Op.loadThunk 1, Op.loadThunk 2], rfl⟩
  ⟨hr, rfl, rfl, ((single_open_batch _ thresholdWorld hr).2.2.2.2.1 3 rfl rfl).1, rfl⟩

/-! ## The two seal paths, the write-back and the degenerate thresholds -/

theorem deref_concat (w : World) (heap : List characterLoaderBatch) (x : characterLoaderBatch)
    (h : w.heap = heap ++ [x]) : w.deref heap.length = x := by
  unfold World.deref
  rw [h]
  simp

theorem deref_set (w : World) (heap : List characterLoaderBatch) (i : Nat)
    (b x : characterLoaderBatch) (hb : heap[i]? = some b) (h : w.heap = heap.set i x) :
    w.deref i = x := by
  unfold World.deref
  rw [h, List.getD_eq_getElem?_getD, get_set hb, if_pos rfl]
  rfl

/-- C25 (the flag on the two seal paths).  In every reachable world: when an admission
schedules the `end` of a batch (the size threshold path), that batch has its `closing`
flag set to true and the loader's reference to it is detached; when the timer of a batch
finds it not closing, that batch is the open batch, and the timer detaches the loader's
reference and schedules the `end` of the batch but writes to no batch, so the `closing`
flag of the batch it sealed is still false. -/
theorem sealed_flag (config : CharacterLoaderConfig) (w : World) (hw : Reachable config w) :
    (∀ key i, i ∈ (LoadThunk w key).1.enders → i ∉ w.enders →
      ((LoadThunk w key).1.deref i).closing = true ∧ (LoadThunk w key).1.l.batch = none) ∧
    (∀ i ∈ w.timers, (w.deref i).closing = false →
      w.l.batch = some i ∧ (startTimer w i).l.batch = none ∧
      (startTimer w i).enders = w.enders ++ [i] ∧ (startTimer w i).heap = w.heap ∧
      ((startTimer w i).deref i).closing = false) := by
  have hinv := inv_reachable hw
  constructor
  · intro key i hin hnot
    cases hm : mapGet w.l.cache key with
    | some it =>
      rw [LoadThunk_hit hm] at hin
      exact absurd hin hnot
    | none =>
      cases ho : w.l.batch with
      | none =>
        have heq := LoadThunk_new hm ho
          (decide (w.l.maxBatch ≠ 0 ∧ (0 : Int) ≥ wrapInt (w.l.maxBatch - 1))) (by simp)
        cases hs : decide (w.l.maxBatch ≠ 0 ∧ (0 : Int) ≥ wrapInt (w.l.maxBatch - 1)) with
        | false =>
          rw [hs] at heq
          rw [heq] at hin
          exact absurd hin hnot
        | true =>
          rw [hs] at heq
          rw [heq] at hin ⊢
          simp only [if_true] at hin ⊢
          rcases List.mem_append.mp hin with h1 | h1
          · exact absurd h1 hnot
          · rw [List.mem_singleton.mp h1]
            refine ⟨?_, trivial⟩
            rw [deref_concat _ w.heap _ rfl]
      | some j =>
        obtain ⟨b, hb, hc, -, -, -, -⟩ := hinv.open_ok j ho
        have heq := LoadThunk_open hm ho hb
        by_cases hk : key ∈ b.keys
        · rw [keyIndex_found hk] at heq
          rw [heq] at hin
          exact absurd hin hnot
        · by_cases hmb : w.l.maxBatch ≠ 0 ∧ (b.keys.length : Int) ≥ wrapInt (w.l.maxBatch - 1)
          · rw [keyIndex_seal hk hc hmb] at heq
            rw [heq] at hin ⊢
            simp only [if_true] at hin ⊢
            rcases List.mem_append.mp hin with h1 | h1
            · exact absurd h1 hnot
            · rw [List.mem_singleton.mp h1]
              refine ⟨?_, trivial⟩
              rw [deref_set _ w.heap j b _ hb rfl]
          · rw [keyIndex_append hk hmb] at heq
            rw [heq] at hin
            exact absurd hin hnot
  · intro i hi hc
    obtain ⟨b, hb, hopen⟩ := hinv.timers_ok i hi
    have hcb : b.closing = false := by rw [← deref_of_get hb]; exact hc
    have hst : startTimer w i
        = { w with l := { w.l with batch := none }, timers := w.timers.erase i,
                   enders := w.enders ++ [i] } := by
      unfold startTimer
      rw [if_neg (by simp [hc])]
    refine ⟨hopen hcb, ?_, ?_, ?_, ?_⟩
    · rw [hst]
    · rw [hst]
    · rw [hst]
    · rw [hst]; exact hc

theorem sealed_flag_witness :
    (0 ∈ (LoadThunk (worldAfter { Fetch := fetchAll, Wait := 1, MaxBatch := 2 }
        [Op.loadThunk 1]) 2).1.enders ∧
      0 ∉ (worldAfter { Fetch := fetchAll, Wait := 1, MaxBatch := 2 } [Op.loadThunk 1]).enders ∧
      ((LoadThunk (worldAfter { Fetch := fetchAll, Wait := 1, MaxBatch := 2 }
        [Op.loadThunk 1]) 2).1.deref 0).closing = true ∧
      (LoadThunk (worldAfter { Fetch := fetchAll, Wait := 1, MaxBatch := 2 }
        [Op.loadThunk 1]) 2).1.l.batch = none) ∧
    (0 ∈ loneWorld.timers ∧ (loneWorld.deref 0).closing = false ∧
      loneWorld.l.batch = some 0 ∧ (startTimer loneWorld 0).l.batch = none ∧
      (startTimer loneWorld 0).enders = loneWorld.enders ++ [0] ∧
      (startTimer loneWorld 0).heap = loneWorld.heap ∧
      ((startTimer loneWorld 0).deref 0).closing = false) :=
  ⟨⟨by decide, by decide,
      (sealed_flag { Fetch := fetchAll, Wait := 1, MaxBatch := 2 }
        (worldAfter { Fetch := fetchAll, Wait := 1, MaxBatch := 2 } [Op.loadThunk 1])
        ⟨[Op.loadThunk 1], rfl⟩).1 2 0 (by decide) (by decide)⟩,
    ⟨by decide, rfl,
      (sealed_flag { Fetch := fetchAll, Wait := 1, MaxBatch := 0 } loneWorld
        ⟨[Op.loadThunk 1], rfl⟩).2 0 (by decide) rfl⟩⟩

/-- In `loneWorld` the batch of key 1 is open and not closing.  Its timer fires and seals
it: the loader's reference is detached and the `end` of the batch is scheduled, and the
`closing` flag of the batch is false; it is still false after the fetch. -/
theorem sealed_flag_counterexample :
    loneWorld.l.batch = some 0 ∧ (loneWorld.deref 0).closing = false ∧
    step loneWorld (Op.timer 0) = some timedWorld ∧
    timedWorld.l.batch = none ∧ 0 ∈ timedWorld.enders ∧
    (timedWorld.deref 0).closing = false ∧
    ∃ w, step timedWorld (Op.finish 0) = some w ∧ (w.deref 0).done = true ∧
      (w.deref 0).closing = false :=
  ⟨rfl, rfl, rfl, rfl, by decide, rfl, _, rfl, rfl, rfl⟩

theorem getD_guard (data : List Value) (pos : Nat) :
    (if pos < data.length then data.getD pos none else none) = data.getD pos none := by
  split
  · rfl
  · rename_i h
    rw [List.getD_eq_getElem?_getD, List.getElem?_eq_none (by omega)]
    rfl

theorem call_ret_eq {w w1 : World} {b pos : Nat} {key : Int} {v : Value} {e : Err}
    (h : (Thunk.waiting b pos key).call w = Run.ret (w1, (v, e))) :
    v = (w.deref b).data.getD pos none ∧ w1 = cacheResult w key v e := by
  simp only [Thunk.call, getD_guard] at h
  split at h
  · cases h
  · split at h
    · cases h
    · simp only [Run.ret.injEq, Prod.mk.injEq] at h
      obtain ⟨h1, h2, h3⟩ := h
      rw [← h3, ← h2, ← h1]
      exact ⟨rfl, by simp [cacheResult]⟩
    · simp only [Run.ret.injEq, Prod.mk.injEq] at h
      obtain ⟨h1, h2, h3⟩ := h
      rw [← h3, ← h2, ← h1]
      exact ⟨rfl, by simp [cacheResult]⟩

theorem mapSet_idem (es : Entries) (k : Int) (v : Value) :
    mapSet (mapSet es k v) k v = mapSet es k v := by
  unfold mapSet
  rw [filter_drop, List.filter_filter]
  simp

theorem unsafeSet_idem (l : CharacterLoader) (k : Int) (v : Value) :
    unsafeSet (unsafeSet l k v) k v = unsafeSet l k v := by
  simp only [unsafeSet, Option.getD_some, mapSet_idem]

theorem cacheResult_idem (w : World) (k : Int) (v : Value) (e : Err) :
    cacheResult (cacheResult w k v e) k v e = cacheResult w k v e := by
  unfold cacheResult
  split
  · simp only [unsafeSet_idem]
  · rfl

theorem cacheResult_deref (w : World) (k : Int) (v : Value) (e : Err) (b : Nat) :
    (cacheResult w k v e).deref b = w.deref b := by
  unfold cacheResult
  split <;> rfl

theorem call_twice {w w1 : World} {t : Thunk} {r : Value × Err}
    (h : t.call w = Run.ret (w1, r)) : t.call w1 = Run.ret (w1, r) := by
  cases t with
  | cached it =>
    simp only [Thunk.call, Run.ret.injEq, Prod.mk.injEq] at h ⊢
    exact ⟨trivial, h.2⟩
  | waiting b pos key =>
    obtain ⟨v, e⟩ := r
    obtain ⟨hv, hw1⟩ := call_ret_eq h
    have hd : w1.deref b = w.deref b := by rw [hw1, cacheResult_deref]
    have hdone := (call_ret_done h).1
    simp only [Thunk.call, getD_guard, hdone, Bool.not_true, Bool.false_eq_true, if_false] at h
    simp only [Thunk.call, getD_guard, hd, hdone, Bool.not_true, Bool.false_eq_true, if_false]
    split at h
    · cases h
    · simp only [Run.ret.injEq, Prod.mk.injEq] at h ⊢
      obtain ⟨h1, h2, h3⟩ := h
      refine ⟨?_, h2, h3⟩
      rw [← h1]
      show ({ w with l := unsafeSet (unsafeSet w.l key _) key _ } : World) = _
      rw [unsafeSet_idem]
    · simp only [Run.ret.injEq, Prod.mk.injEq] at h ⊢
      obtain ⟨h1, h2, h3⟩ := h
      exact ⟨trivial, h2, h3⟩

theorem wellBehaved_fetchPerKey : WellBehaved fetchPerKey :=
  fun _ keys => ⟨_, rfl, Or.inr ⟨_, rfl, Or.inr (by simp)⟩⟩

/-- C26 (handle idempotence).  In every reachable world, for every thunk that `LoadThunk`
has returned: when the fetch function keeps its contract and the batch of the thunk is
completed, resolving the thunk returns; and whenever resolving the thunk returns,
resolving it again in the world that the first resolution left returns the same value
and error and leaves that world, its cache included, as it is. -/
theorem handle_idempotent (config : CharacterLoaderConfig) (w : World)
    (hw : Reachable config w) (t : Thunk) (ht : Issued w t) :
    (WellBehaved config.Fetch →
      (∀ b pos key, t = Thunk.waiting b pos key → (w.deref b).done = true) →
      ∃ w1 r, t.call w = Run.ret (w1, r)) ∧
    (∀ w1 r, t.call w = Run.ret (w1, r) →
      ∃ w2, t.call w1 = Run.ret (w2, r) ∧ w2.l.cache = w1.l.cache ∧ w2 = w1) := by
  constructor
  · intro hf hd
    cases t with
    | cached it => exact ⟨w, (it, none), rfl⟩
    | waiting b pos key =>
      obtain ⟨p, hp⟩ := call_total hw hf ht (hd b pos key rfl)
      exact ⟨p.1, p.2, hp⟩
  · intro w1 r h
    exact ⟨w1, call_twice h, rfl, rfl⟩

theorem handle_idempotent_witness :
    Reachable { Fetch := fetchPerKey, Wait := 1, MaxBatch := 0 } dedupWorld ∧
    Issued dedupWorld (Thunk.waiting 0 0 1) ∧
    (∃ w1 r, (Thunk.waiting 0 0 1).call dedupWorld = Run.ret (w1, r)) ∧
    (Thunk.waiting 0 0 1).call dedupWorld
      = Run.ret (resolvedWorld, (some (exampleCharacter 1), none)) ∧
    ∃ w2, (Thunk.waiting 0 0 1).call resolvedWorld
        = Run.ret (w2, (some (exampleCharacter 1), none)) ∧
      w2.l.cache = resolvedWorld.l.cache ∧ w2 = resolvedWorld :=
  ⟨⟨[Op.loadThunk 1, Op.loadThunk 2, Op.loadThunk 1, Op.timer 0, Op.finish 0], rfl⟩,
    (by show Thunk.waiting 0 0 1 ∈ dedupWorld.handles; decide),
    (handle_idempotent { Fetch := fetchPerKey, Wait := 1, MaxBatch := 0 } dedupWorld
      ⟨[Op.loadThunk 1, Op.loadThunk 2, Op.loadThunk 1, Op.timer 0, Op.finish 0], rfl⟩
      (Thunk.waiting 0 0 1) (by show Thunk.waiting 0 0 1 ∈ dedupWorld.handles; decide)).1 wellBehaved_fetchPerKey
      (fun b pos key e => by cases e; rfl),
    rfl,
    (handle_idempotent { Fetch := fetchPerKey, Wait := 1, MaxBatch := 0 } dedupWorld
      ⟨[Op.loadThunk 1, Op.loadThunk 2, Op.loadThunk 1, Op.timer 0, Op.finish 0], rfl⟩
      (Thunk.waiting 0 0 1) (by show Thunk.waiting 0 0 1 ∈ dedupWorld.handles; decide)).2 resolvedWorld (some (exampleCharacter 1), none) rfl⟩

/-- C27 (unconditional write-back).  When a handle for `key` that waits on a batch
resolves with a nil error, the value it returns is the one the batch holds at the
position of the handle (nil when the batch holds none there), the cache then maps `key`
to that value whatever it held for `key` before, every other key reads as before and
nothing but the cache has changed.  So when `Prime` had stored a value under `key` just
before the resolution, the cache holds the fetched value afterwards, and when `Clear`
had removed `key` just before the resolution, `key` is in the cache afterwards. -/
theorem write_back (w w1 : World) (b pos : Nat) (key : Int) (v : Value)
    (h : (Thunk.waiting b pos key).call w = Run.ret (w1, (v, none))) :
    v = (w.deref b).data.getD pos none ∧
    mapGet w1.l.cache key = some v ∧
    (∀ k, k ≠ key → mapGet w1.l.cache k = mapGet w.l.cache k) ∧
    w1 = { w with l := unsafeSet w.l key v } ∧
    (∀ (w0 : World) (c : Character), Prime w0 key (some c) = Run.ret (w, true) →
      mapGet w.l.cache key = some (some c) ∧ mapGet w1.l.cache key = some v) ∧
    (∀ w0 : World, w = Clear w0 key →
      mapGet w.l.cache key = none ∧ mapGet w1.l.cache key = some v) := by
  obtain ⟨hv, hw1⟩ := call_ret_eq h
  have hw2 : w1 = { w with l := unsafeSet w.l key v } := by
    rw [hw1]; simp [cacheResult]
  have hk : mapGet w1.l.cache key = some v := by
    rw [hw2]; exact mapGet_unsafeSet_self w.l key v
  refine ⟨hv, hk, ?_, hw2, ?_, ?_⟩
  · intro k hne
    rw [hw2]
    exact mapGet_unsafeSet_ne w.l hne v
  · intro w0 c hp
    refine ⟨?_, hk⟩
    unfold Prime at hp
    split at hp
    · simp at hp
    · simp only [Run.ret.injEq, Prod.mk.injEq, and_true] at hp
      rw [← hp]
      exact mapGet_unsafeSet_self w0.l key (some c)
  · intro w0 hc
    refine ⟨?_, hk⟩
    rw [hc]
    exact mapGet_mapDelete_self w0.l.cache key

theorem write_back_witness :
    (Thunk.waiting 0 0 1).call overwriteWorld
      = Run.ret ({ overwriteWorld with
          l := unsafeSet overwriteWorld.l 1 (some (exampleCharacter 1)) },
        (some (exampleCharacter 1), none)) ∧
    mapGet overwriteWorld.l.cache 1 = some (some (exampleCharacter 9)) ∧
    mapGet (unsafeSet overwriteWorld.l 1 (some (exampleCharacter 1))).cache 1
      = some (some (exampleCharacter 1)) :=
  ⟨rfl, rfl,
    (write_back overwriteWorld
      { overwriteWorld with l := unsafeSet overwriteWorld.l 1 (some (exampleCharacter 1)) }
      0 0 1 (some (exampleCharacter 1)) rfl).2.1⟩

/-- C30 (Prime with an absent value).  For every world and key, `Prime` with the nil
value panics on the dereference of the value exactly when the key is not in the cache;
when the key is in the cache it returns false and leaves the world, its cache included,
as it is.  With a non-nil value `Prime` always returns. -/
theorem prime_nil (w : World) (k : Int) :
    (Prime w k none = Run.panics Fault.nilDereference ↔ mapGet w.l.cache k = none) ∧
    ((∃ it, mapGet w.l.cache k = some it) → Prime w k none = Run.ret (w, false)) ∧
    (∀ c : Character, ∃ w1 found, Prime w k (some c) = Run.ret (w1, found)) := by
  unfold Prime
  cases h : mapGet w.l.cache k with
  | none =>
    refine ⟨by simp, ?_, fun c => ⟨_, _, rfl⟩⟩
    rintro ⟨it, hit⟩
    cases hit
  | some it =>
    exact ⟨by simp, fun _ => rfl, fun c => ⟨_, _, rfl⟩⟩

theorem prime_nil_witness :
    (∃ it, mapGet primedWorld.l.cache 7 = some it) ∧
    Prime primedWorld 7 none = Run.ret (primedWorld, false) ∧
    Prime primedWorld 8 none = Run.panics Fault.nilDereference :=
  ⟨⟨_, rfl⟩, (prime_nil primedWorld 7).2.1 ⟨_, rfl⟩, rfl⟩

theorem seals_at_once {m : Int} (hm : (-(2 ^ 63) < m ∧ m < 0) ∨ m = 1) :
    m ≠ 0 ∧ (0 : Int) ≥ wrapInt (m - 1) := by
  unfold wrapInt
  have e63 : (2 : Int) ^ 63 = 9223372036854775808 := by norm_num
  have e64 : (2 : Int) ^ 64 = 18446744073709551616 := by norm_num
  rw [e63] at hm
  rw [e63, e64]
  omega

theorem single_step {w w1 : World} (hm : w.l.maxBatch ≠ 0 ∧ (0 : Int) ≥ wrapInt (w.l.maxBatch - 1))
    (h : Single w) (op : Op) (hs : step w op = some w1) : Single w1 := by
  obtain ⟨hb, hk⟩ := h
  cases op with
  | loadThunk key =>
    simp only [step, Option.some.injEq] at hs
    rw [← hs]
    cases hc : mapGet w.l.cache key with
    | some it =>
      rw [LoadThunk_hit hc]
      exact ⟨hb, hk⟩
    | none =>
      rw [LoadThunk_new hc hb true (by simp [hm])]
      refine ⟨rfl, ?_⟩
      intro i b hi
      rcases get_concat _ _ _ hi with ⟨-, h1⟩ | ⟨-, h1⟩
      · exact hk i b h1
      · rw [h1]
        exact ⟨⟨key, rfl⟩, rfl⟩
  | call t =>
    simp only [step] at hs
    split at hs
    · cases t with
      | cached it =>
        simp only [Thunk.call, Run.map, Run.toOption, Option.some.injEq] at hs
        rw [← hs]; exact ⟨hb, hk⟩
      | waiting j pos key =>
        simp only [Thunk.call] at hs
        split at hs
        · simp [Run.map, Run.toOption] at hs
        · split at hs
          · simp [Run.map, Run.toOption] at hs
          · simp only [Run.map, Run.toOption, Option.some.injEq] at hs
            rw [← hs]; exact ⟨hb, hk⟩
          · simp only [Run.map, Run.toOption, Option.some.injEq] at hs
            rw [← hs]; exact ⟨hb, hk⟩
    · cases hs
  | prime key value =>
    simp only [step, Prime] at hs
    split at hs
    · simp only [Run.map, Run.toOption, Option.some.injEq] at hs
      rw [← hs]; exact ⟨hb, hk⟩
    · split at hs
      · simp [Run.map, Run.toOption] at hs
      · simp only [Run.map, Run.toOption, Option.some.injEq] at hs
        rw [← hs]; exact ⟨hb, hk⟩
  | clear key =>
    simp only [step, Option.some.injEq] at hs
    rw [← hs]; exact ⟨hb, hk⟩
  | timer b =>
    simp only [step] at hs
    split at hs
    · simp only [Option.some.injEq] at hs
      rw [← hs]
      unfold startTimer
      split
      · exact ⟨hb, hk⟩
      · exact ⟨rfl, hk⟩
    · cases hs
  | finish b =>
    simp only [step] at hs
    split at hs
    · unfold endBatch at hs
      simp only at hs
      split at hs
      · simp [Run.toOption] at hs
      · split at hs
        · simp [Run.toOption] at hs
        · simp only [Run.toOption, Option.some.injEq] at hs
          rw [← hs]
          refine ⟨hb, ?_⟩
          intro i x hi
          simp only at hi
          cases hx : w.heap[b]? with
          | none =>
            rw [List.set_eq_of_length_le (by
              rcases Nat.lt_or_ge b w.heap.length with hlt | hge
              · rw [List.getElem?_eq_getElem hlt] at hx; cases hx
              · exact hge)] at hi
            exact hk i x hi
          | some y =>
            rw [get_set hx] at hi
            split at hi
            · simp only [Option.some.injEq] at hi
              rw [← hi, deref_of_get hx]
              exact hk b y hx
            · exact hk i x hi
    · cases hs

theorem single_exec {config : CharacterLoaderConfig}
    (hm : config.MaxBatch ≠ 0 ∧ (0 : Int) ≥ wrapInt (config.MaxBatch - 1))
    (ops : List Op) {w w1 : World} (hi : Inv config w) (h : Single w)
    (hs : exec w ops = some w1) : Single w1 := by
  induction ops generalizing w with
  | nil =>
    simp only [exec, Option.some.injEq] at hs
    rw [← hs]; exact h
  | cons op ops ih =>
    simp only [exec] at hs
    cases hw : step w op with
    | none => rw [hw] at hs; cases hs
    | some w2 =>
      rw [hw] at hs
      exact ih (inv_step hi op hw) (single_step (by rw [hi.maxBatch_eq]; exact hm) h op hw) hs

theorem single_reachable {config : CharacterLoaderConfig}
    (hm : config.MaxBatch ≠ 0 ∧ (0 : Int) ≥ wrapInt (config.MaxBatch - 1))
    {w : World} (hw : Reachable config w) : Single w := by
  obtain ⟨ops, hs⟩ := hw
  exact single_exec hm ops (inv_new config) ⟨rfl, fun i b hi => by simp [World.new] at hi⟩ hs

/-- C28 (negative or unit max batch).  For every loader whose `MaxBatch` is 1 or is
negative and above the least 64-bit integer, in every reachable world: no batch is open;
the admission of a key that is not cached creates a batch of its own, which no handle
issued before waits on, seals it in the same step (the batch holds that one key, is
closing, its `end` is scheduled and the loader's reference is detached); and every fetch
invocation of the log received exactly one key. -/
theorem unit_max_batch (config : CharacterLoaderConfig)
    (hm : (-(2 ^ 63) < config.MaxBatch ∧ config.MaxBatch < 0) ∨ config.MaxBatch = 1)
    (w : World) (hw : Reachable config w) :
    w.l.batch = none ∧
    (∀ key, mapGet w.l.cache key = none →
      (LoadThunk w key).2 = Thunk.waiting w.heap.length 0 key ∧
      (∀ b pos k, Thunk.waiting b pos k ∈ w.handles → b ≠ w.heap.length) ∧
      (LoadThunk w key).1.l.batch = none ∧
      ((LoadThunk w key).1.deref w.heap.length).keys = [key] ∧
      ((LoadThunk w key).1.deref w.heap.length).closing = true ∧
      w.heap.length ∈ (LoadThunk w key).1.enders) ∧
    (∀ c ∈ w.calls, ∃ k, c.keys = [k]) := by
  have hs := seals_at_once hm
  have hinv := inv_reachable hw
  obtain ⟨hb, hk⟩ := single_reachable hs hw
  refine ⟨hb, ?_, ?_⟩
  · intro key hc
    rw [LoadThunk_new hc hb true (by simp [hinv.maxBatch_eq, hs])]
    refine ⟨rfl, ?_, rfl, ?_, ?_, ?_⟩
    · intro b pos k ht
      obtain ⟨x, hx, -⟩ := hinv.handles_ok b pos k ht
      exact Nat.ne_of_lt (get_lt hx)
    · simp [World.deref]
    · simp [World.deref]
    · simp
  · intro c hc
    obtain ⟨b, hb1, hb2, -⟩ := hinv.calls_ok c hc
    rw [← hb2]
    exact (hk c.batch b hb1).1

theorem unit_max_batch_witness :
    ((-(2 ^ 63) < (1 : Int) ∧ (1 : Int) < 0) ∨ (1 : Int) = 1) ∧
    (worldAfter { Fetch := fetchAll, Wait := 1, MaxBatch := 1 }
      [Op.loadThunk 1, Op.loadThunk 2, Op.finish 0, Op.finish 1]).calls
      = [⟨0, [1], ⟨[some (exampleCharacter 1)], none⟩⟩,
         ⟨1, [2], ⟨[some (exampleCharacter 2)], none⟩⟩] ∧
    ∀ c ∈ (worldAfter { Fetch := fetchAll, Wait := 1, MaxBatch := 1 }
      [Op.loadThunk 1, Op.loadThunk 2, Op.finish 0, Op.finish 1]).calls, ∃ k, c.keys = [k] :=
  ⟨Or.inr rfl, rfl,
    (unit_max_batch { Fetch := fetchAll, Wait := 1, MaxBatch := 1 } (Or.inr rfl) _
      ⟨[Op.loadThunk 1, Op.loadThunk 2, Op.finish 0, Op.finish 1], rfl⟩).2.2⟩

/-- With `MaxBatch` the least 64-bit integer, `maxBatch - 1` wraps around to the greatest
one: the first admission leaves its batch open, the second request joins it, and after
the timer the two keys go to the fetch function in one invocation. -/
theorem unit_max_batch_counterexample :
    isInt (-(2 ^ 63)) ∧ (-(2 ^ 63) : Int) < 0 ∧
    wrapInt (-(2 ^ 63) - 1) = 2 ^ 63 - 1 ∧
    (worldAfter { Fetch := fetchAll, Wait := 1, MaxBatch := -(2 ^ 63) } [Op.loadThunk 1]).l.batch
      = some 0 ∧
    ((worldAfter { Fetch := fetchAll, Wait := 1, MaxBatch := -(2 ^ 63) }
      [Op.loadThunk 1]).deref 0).closing = false ∧
    exec (World.new { Fetch := fetchAll, Wait := 1, MaxBatch := -(2 ^ 63) })
      [Op.loadThunk 1, Op.loadThunk 2, Op.timer 0, Op.finish 0] = some leastWorld ∧
    leastWorld.calls = [leastCall] :=
  ⟨by decide, by decide, by decide, rfl, rfl, rfl, rfl⟩

/-! ## Prime then Load -/

theorem kept_step {config : CharacterLoaderConfig} {w0 w w1 : World} {k : Int}
    (h : Inv config w)
    (hc : ∃ it, mapGet w.l.cache k = some it)
    (hk : ∀ (i : Nat) (b : characterLoaderBatch), w.heap[i]? = some b → k ∈ b.keys →
      ∃ b0, w0.heap[i]? = some b0 ∧ k ∈ b0.keys)
    (op : Op) (hne : op ≠ Op.clear k) (hs : step w op = some w1) :
    (∃ it, mapGet w1.l.cache k = some it) ∧
    ∀ (i : Nat) (b : characterLoaderBatch), w1.heap[i]? = some b → k ∈ b.keys →
      ∃ b0, w0.heap[i]? = some b0 ∧ k ∈ b0.keys := by
  refine ⟨cached_step op hs hne hc, ?_⟩
  intro i b hi hkb
  rcases step_cases op hs with ⟨key, -, e⟩ | ⟨j, r, -, -, -, -, -, e, -⟩ | ⟨e, -⟩
  · by_cases hkey : key = k
    · obtain ⟨it, hit⟩ := hc
      rw [e, hkey, LoadThunk_hit hit] at hi
      exact hk i b hi hkb
    · rw [e] at hi
      obtain ⟨b0, hb0, -, -, -, hks⟩ := LoadThunk_heap h key hi
      rcases hks k hkb with h1 | h1
      · rcases hb0 with hb0 | ⟨-, hb0⟩
        · exact hk i b0 hb0 h1
        · rw [hb0] at h1
          cases h1
      · exact absurd h1.symm hkey
  · rw [e] at hi
    cases hx : w.heap[j]? with
    | none =>
      rw [List.set_eq_of_length_le (by
        rcases Nat.lt_or_ge j w.heap.length with hlt | hge
        · rw [List.getElem?_eq_getElem hlt] at hx; cases hx
        · exact hge)] at hi
      exact hk i b hi hkb
    | some y =>
      rw [get_set hx] at hi
      split at hi
      · rename_i hji
        simp only [Option.some.injEq] at hi
        rw [← hi, deref_of_get hx] at hkb
        exact hk i y (hji ▸ hx) hkb
      · exact hk i b hi hkb
  · rw [e] at hi
    exact hk i b hi hkb

theorem kept_exec {config : CharacterLoaderConfig} {w0 : World} {k : Int} (ops : List Op)
    {w w1 : World} (h : Inv config w)
    (hc : ∃ it, mapGet w.l.cache k = some it)
    (hk : ∀ (i : Nat) (b : characterLoaderBatch), w.heap[i]? = some b → k ∈ b.keys →
      ∃ b0, w0.heap[i]? = some b0 ∧ k ∈ b0.keys)
    (hne : ∀ op ∈ ops, op ≠ Op.clear k) (hs : exec w ops = some w1) :
    (∃ it, mapGet w1.l.cache k = some it) ∧
    ∀ (i : Nat) (b : characterLoaderBatch), w1.heap[i]? = some b → k ∈ b.keys →
      ∃ b0, w0.heap[i]? = some b0 ∧ k ∈ b0.keys := by
  induction ops generalizing w with
  | nil =>
    simp only [exec, Option.some.injEq] at hs
    rw [← hs]; exact ⟨hc, hk⟩
  | cons op ops ih =>
    simp only [exec] at hs
    cases hw : step w op with
    | none => rw [hw] at hs; cases hs
    | some w2 =>
      rw [hw] at hs
      obtain ⟨hc2, hk2⟩ := kept_step h hc hk op (hne op (List.mem_cons_self _ _)) hw
      exact ih (inv_step h op hw) hc2 hk2 (fun o ho => hne o (List.mem_cons_of_mem _ ho)) hs

/-- C9 (Prime then Load), as amended.  When the key is not cached and the value is not
nil, `Prime` returns true, and in the world it leaves `LoadThunk` returns the closure
over the primed value and `Load` returns that value with a nil error, both without
changing the world: no batch is opened, no key admitted and no fetch invocation made;
`Prime` itself changed nothing but the cache.  In a reachable world, whatever steps
follow the `Prime`, as long as none of them is `Clear` of the key: the key stays cached,
every batch that holds the key held it before the `Prime`, and so every fetch invocation
that contains the key is of a batch that held the key before the `Prime`; when no batch
held the key before the `Prime`, no fetch invocation contains it. -/
theorem prime_then_load (w : World) (k : Int) (v : Character)
    (h : mapGet w.l.cache k = none) :
    ∃ w1 : World, Prime w k (some v) = Run.ret (w1, true) ∧
      LoadThunk w1 k = (w1, Thunk.cached (some v)) ∧
      Load w1 k = Run.ret (w1, (some v, none)) ∧
      w1.l.batch = w.l.batch ∧ w1.heap = w.heap ∧ w1.timers = w.timers ∧
      w1.enders = w.enders ∧ w1.calls = w.calls ∧ w1.handles = w.handles ∧
      ∀ config, Reachable config w → ∀ ops w2, (∀ op ∈ ops, op ≠ Op.clear k) →
        exec w1 ops = some w2 →
        (∃ it, mapGet w2.l.cache k = some it) ∧
        (∀ (i : Nat) (b : characterLoaderBatch), w2.heap[i]? = some b → k ∈ b.keys →
          ∃ b0, w.heap[i]? = some b0 ∧ k ∈ b0.keys) ∧
        (∀ c ∈ w2.calls, k ∈ c.keys → ∃ b0, w.heap[c.batch]? = some b0 ∧ k ∈ b0.keys) ∧
        ((∀ (i : Nat) (b : characterLoaderBatch), w.heap[i]? = some b → k ∉ b.keys) →
          ∀ c ∈ w2.calls, k ∉ c.keys) := by
  have hp : Prime w k (some v) = Run.ret ({ w with l := unsafeSet w.l k (some v) }, true) := by
    unfold Prime
    rw [h]
  refine ⟨{ w with l := unsafeSet w.l k (some v) }, hp, ?_, ?_, rfl, rfl, rfl, rfl, rfl, rfl, ?_⟩
  · exact LoadThunk_hit (mapGet_unsafeSet_self _ _ _)
  · exact Load_hit (mapGet_unsafeSet_self _ _ _)
  · intro config hw ops w2 hne hs
    have hw1 : Reachable config { w with l := unsafeSet w.l k (some v) } :=
      reachable_exec hw [Op.prime k (some v)] (by simp [exec, step, hp, Run.map, Run.toOption])
    have hw2 := reachable_exec hw1 ops hs
    obtain ⟨hc2, hk2⟩ := kept_exec ops (inv_reachable hw1)
      ⟨some v, mapGet_unsafeSet_self _ _ _⟩
      (fun i b hi hkb => ⟨b, hi, hkb⟩) hne hs
    have hcalls : ∀ c ∈ w2.calls, k ∈ c.keys →
        ∃ b0, w.heap[c.batch]? = some b0 ∧ k ∈ b0.keys := by
      intro c hc hkc
      obtain ⟨b, hb1, hb2, -⟩ := (inv_reachable hw2).calls_ok c hc
      exact hk2 c.batch b hb1 (by rw [hb2]; exact hkc)
    refine ⟨hc2, hk2, hcalls, ?_⟩
    intro hnone c hc hkc
    obtain ⟨b0, hb0, hk0⟩ := hcalls c hc hkc
    exact hnone c.batch b0 hb0 hk0

theorem prime_then_load_witness :
    mapGet (World.new { Fetch := fetchAll, Wait := 1, MaxBatch := 0 }).l.cache 7 = none ∧
    Prime (World.new { Fetch := fetchAll, Wait := 1, MaxBatch := 0 }) 7
      (some (exampleCharacter 7)) = Run.ret (primedWorld, true) ∧
    Load primedWorld 7 = Run.ret (primedWorld, (some (exampleCharacter 7), none)) ∧
    primedWorld.heap = [] ∧
    exec primedWorld [Op.loadThunk 7, Op.loadThunk 8, Op.timer 0, Op.finish 0]
      = some (worldAfter { Fetch := fetchAll, Wait := 1, MaxBatch := 0 }
          [Op.prime 7 (some (exampleCharacter 7)), Op.loadThunk 7, Op.loadThunk 8, Op.timer 0,
           Op.finish 0]) ∧
    (worldAfter { Fetch := fetchAll, Wait := 1, MaxBatch := 0 }
      [Op.prime 7 (some (exampleCharacter 7)), Op.loadThunk 7, Op.loadThunk 8, Op.timer 0,
       Op.finish 0]).calls = [⟨0, [8], ⟨[some (exampleCharacter 8)], none⟩⟩] ∧
    ∀ c ∈ (worldAfter { Fetch := fetchAll, Wait := 1, MaxBatch := 0 }
      [Op.prime 7 (some (exampleCharacter 7)), Op.loadThunk 7, Op.loadThunk 8, Op.timer 0,
       Op.finish 0]).calls, (7 : Int) ∉ c.keys := by
  refine ⟨rfl, rfl, rfl, rfl, rfl, rfl, ?_⟩
  obtain ⟨w1, hp, -, -, -, -, -, -, -, -, hlater⟩ :=
    prime_then_load (World.new { Fetch := fetchAll, Wait := 1, MaxBatch := 0 }) 7
      (exampleCharacter 7) rfl
  have e : w1 = primedWorld := by
    have e1 : Run.ret (w1, true) = Run.ret (primedWorld, true) := hp.symm.trans rfl
    simp only [Run.ret.injEq, Prod.mk.injEq, and_true] at e1
    exact e1
  rw [e] at hlater
  exact (hlater { Fetch := fetchAll, Wait := 1, MaxBatch := 0 } ⟨[], rfl⟩
    [Op.loadThunk 7, Op.loadThunk 8, Op.timer 0, Op.finish 0] _ (by decide) rfl).2.2.2
    (fun i b hi => by simp [World.new] at hi)

/-- C9, as stated, fails.  Key 5 is requested, so that its batch holds it, and is not
cached.  `Prime` of key 5 returns true and the `Load` that follows returns the primed
value with a nil error, without opening a batch.  The timer of the batch then fires and
its `end` passes key 5 to the fetch function. -/
theorem prime_then_load_counterexample :
    mapGet (worldAfter { Fetch := fetchAll, Wait := 1, MaxBatch := 0 }
      [Op.loadThunk 5]).l.cache 5 = none ∧
    Prime (worldAfter { Fetch := fetchAll, Wait := 1, MaxBatch := 0 } [Op.loadThunk 5]) 5
      (some (exampleCharacter 5)) = Run.ret (admittedWorld, true) ∧
    Load admittedWorld 5 = Run.ret (admittedWorld, (some (exampleCharacter 5), none)) ∧
    ∃ w, exec admittedWorld [Op.timer 0, Op.finish 0] = some w ∧
      w.calls = [⟨0, [5], ⟨[some (exampleCharacter 5)], none⟩⟩] :=
  ⟨rfl, rfl, rfl, _, rfl, rfl⟩

end Loaders

namespace character

/-! ## Validation of the hierarchy -/

theorem lookup_set (m : PathMap) (path : CharacterPath) (id : Int) :
    (PathMap.set m path).lookup id
      = if id = path.ID then some path else m.lookup id := by
  unfold PathMap.set
  rw [List.lookup_cons]
  by_cases h : id = path.ID
  · have hb : (id == path.ID) = true := by simpa using h
    rw [hb, if_pos h]
  · have hb : (id == path.ID) = false := by simpa using h
    rw [hb, if_neg h]
    simp only
    induction m with
    | nil => rfl
    | cons e m ih =>
      obtain ⟨a, v⟩ := e
      by_cases ha : a = path.ID
      · have hne : ¬ (id = a) := fun e => h (e.trans ha)
        have hb2 : (id == a) = false := by simpa using hne
        rw [List.filter_cons_of_neg (by simpa using ha), ih, List.lookup_cons, hb2]
      · rw [List.filter_cons_of_pos (by simpa using ha), List.lookup_cons, List.lookup_cons, ih]

theorem lookup_foldl (paths : List CharacterPath) (m : PathMap) (id : Int) :
    (paths.foldl PathMap.set m).lookup id = none
      ↔ m.lookup id = none ∧ ∀ p ∈ paths, p.ID ≠ id := by
  induction paths generalizing m with
  | nil => simp
  | cons p paths ih =>
    rw [List.foldl_cons, ih, lookup_set]
    constructor
    · rintro ⟨h1, h2⟩
      by_cases hid : id = p.ID
      · rw [if_pos hid] at h1
        cases h1
      · rw [if_neg hid] at h1
        refine ⟨h1, ?_⟩
        intro q hq
        rcases List.mem_cons.mp hq with hq | hq
        · rw [hq]
          exact fun e => hid e.symm
        · exact h2 q hq
    · rintro ⟨h1, h2⟩
      have hid : ¬ (id = p.ID) := fun e => h2 p (List.mem_cons_self _ _) e.symm
      rw [if_neg hid]
      exact ⟨h1, fun q hq => h2 q (List.mem_cons_of_mem _ hq)⟩

theorem lookup_collect (paths : List CharacterPath) (id : Int) :
    (collect paths).lookup id = none ↔ ∀ p ∈ paths, p.ID ≠ id := by
  unfold collect
  rw [lookup_foldl]
  simp

theorem firstError_none (validate : Int → Option Error) (ids : List Int) :
    firstError validate ids = none ↔ ∀ id ∈ ids, validate id = none := by
  induction ids with
  | nil => simp [firstError]
  | cons id ids ih =>
    unfold firstError
    cases hv : validate id with
    | some err =>
      simp only [List.mem_cons, forall_eq_or_imp, hv, false_and]
      exact ⟨(fun e => by cases e), fun e => by cases e.1⟩
    | none =>
      simp only [List.mem_cons, forall_eq_or_imp, hv, true_and]
      exact ih

/-- C20 (hierarchy validation of an existing character).  When the query for the
ancestors fails, `ValidateHierarchyExisting` returns its error; when that query succeeds
and the query for the descendants fails, it returns the error of the latter; when both
succeed, it returns no error if and only if no proposed parent ID is the ID of a
descendant and no proposed child ID is the ID of an ancestor. -/
theorem validate_hierarchy_existing (character : Character) (parentIDs childIDs : List Int)
    (qb : RelationshipFinder) :
    (∀ err, (qb.FindAllAncestors character.ID []).2 = some err →
      ValidateHierarchyExisting character parentIDs childIDs qb = some err) ∧
    ((qb.FindAllAncestors character.ID []).2 = none →
      ∀ err, (qb.FindAllDescendants character.ID []).2 = some err →
        ValidateHierarchyExisting character parentIDs childIDs qb = some err) ∧
    ((qb.FindAllAncestors character.ID []).2 = none →
      (qb.FindAllDescendants character.ID []).2 = none →
      (ValidateHierarchyExisting character parentIDs childIDs qb = none ↔
        (∀ p ∈ parentIDs, ∀ d ∈ (qb.FindAllDescendants character.ID []).1, d.ID ≠ p) ∧
        (∀ c ∈ childIDs, ∀ a ∈ (qb.FindAllAncestors character.ID []).1, a.ID ≠ c))) := by
  unfold ValidateHierarchyExisting
  cases ha : qb.FindAllAncestors character.ID [] with
  | mk anc ea =>
    cases ea with
    | some e1 =>
      refine ⟨(fun err he => by simpa using he), (fun hn => by cases hn), (fun hn => by cases hn)⟩
    | none =>
      cases hd : qb.FindAllDescendants character.ID [] with
      | mk desc ed =>
        cases ed with
        | some e2 =>
          refine ⟨(fun err he => by cases he), (fun _ err he => by simpa using he),
            (fun _ hn => by cases hn)⟩
        | none =>
          refine ⟨(fun err he => by cases he), (fun _ err he => by cases he), fun _ _ => ?_⟩
          simp only
          constructor
          · intro hv
            split at hv
            · cases hv
            · rename_i hp
              rw [firstError_none] at hp hv
              constructor
              · intro p hpm
                have := hp p hpm
                split at this
                · cases this
                · rename_i hl
                  exact (lookup_collect desc p).mp hl
              · intro c hcm
                have := hv c hcm
                split at this
                · cases this
                · rename_i hl
                  exact (lookup_collect anc c).mp hl
          · rintro ⟨hp, hc⟩
            have h1 : firstError (fun testID =>
                match (collect desc).lookup testID with
                | some parentCharacter =>
                  some (Error.invalidHierarchy
                    { Direction := "parent", CurrentRelation := "a descendant",
                      InvalidCharacter := parentCharacter.Name,
                      ApplyingCharacter := character.Name,
                      CharacterPath := parentCharacter.Path })
                | none => none) parentIDs = none := by
              rw [firstError_none]
              intro p hpm
              rw [(lookup_collect desc p).mpr (hp p hpm)]
            rw [h1]
            simp only
            rw [firstError_none]
            intro c hcm
            rw [(lookup_collect anc c).mpr (hc c hcm)]

theorem validate_hierarchy_existing_witness :
    ValidateHierarchyExisting (testCharacter 1 "one") [2] [3]
      (testFinder [testPath 2 "two"] [testPath 3 "three"]) = none ∧
    ValidateHierarchyExisting (testCharacter 1 "one") [2] [3]
      (testFinder [testPath 2 "two", testPath 3 "three"] [testPath 3 "three"])
      = some (Error.invalidHierarchy
          { Direction := "child", CurrentRelation := "an ancestor",
            InvalidCharacter := "three", ApplyingCharacter := "one", CharacterPath := "" }) ∧
    ValidateHierarchyExisting (testCharacter 1 "one") [2] [3]
      (testFinder [testPath 2 "two"] [testPath 3 "three", testPath 2 "two"])
      = some (Error.invalidHierarchy
          { Direction := "parent", CurrentRelation := "a descendant",
            InvalidCharacter := "two", ApplyingCharacter := "one", CharacterPath := "" }) :=
  ⟨((validate_hierarchy_existing (testCharacter 1 "one") [2] [3]
      (testFinder [testPath 2 "two"] [testPath 3 "three"])).2.2 rfl rfl).mpr
      ⟨by decide, by decide⟩, rfl, rfl⟩

/-! ## Precedence and text of the hierarchy error -/

theorem firstError_some (validate : Int → Option Error) (ids : List Int) (err : Error) :
    firstError validate ids = some err ↔
      ∃ pre id post, ids = pre ++ id :: post ∧ (∀ q ∈ pre, validate q = none) ∧
        validate id = some err := by
  induction ids with
  | nil => simp [firstError]
  | cons id ids ih =>
    unfold firstError
    cases hv : validate id with
    | some e =>
      simp only [Option.some.injEq]
      constructor
      · intro he
        exact ⟨[], id, ids, rfl, (fun q hq => by cases hq), by rw [hv, he]⟩
      · rintro ⟨pre, x, post, hl, hpre, hx⟩
        cases pre with
        | nil =>
          simp only [List.nil_append, List.cons.injEq] at hl
          rw [← hl.1, hv] at hx
          exact Option.some.inj hx
        | cons q pre =>
          simp only [List.cons_append, List.cons.injEq] at hl
          have := hpre q (List.mem_cons_self _ _)
          rw [← hl.1, hv] at this
          cases this
    | none =>
      simp only
      rw [ih]
      constructor
      · rintro ⟨pre, x, post, hl, hpre, hx⟩
        refine ⟨id :: pre, x, post, by rw [hl]; rfl, ?_, hx⟩
        intro q hq
        rcases List.mem_cons.mp hq with hq | hq
        · rw [hq]; exact hv
        · exact hpre q hq
      · rintro ⟨pre, x, post, hl, hpre, hx⟩
        cases pre with
        | nil =>
          simp only [List.nil_append, List.cons.injEq] at hl
          rw [← hl.1, hv] at hx
          cases hx
        | cons q pre =>
          simp only [List.cons_append, List.cons.injEq] at hl
          exact ⟨pre, x, post, hl.2, (fun r hr => hpre r (List.mem_cons_of_mem _ hr)), hx⟩

theorem collect_concat (paths : List CharacterPath) (path : CharacterPath) :
    collect (paths ++ [path]) = PathMap.set (collect paths) path := by
  unfold collect
  rw [List.foldl_append]
  rfl

theorem lookup_collect_last (paths : List CharacterPath) (id : Int) :
    (collect paths).lookup id = paths.reverse.find? (fun d => d.ID = id) := by
  induction paths using List.reverseRecOn with
  | nil => rfl
  | append_singleton paths path ih =>
    rw [collect_concat, lookup_set, List.reverse_append, List.reverse_singleton,
      List.singleton_append, List.find?_cons]
    by_cases h : id = path.ID
    · rw [if_pos h]
      simp [h]
    · rw [if_neg h, ih]
      have : ¬ (path.ID = id) := fun e => h e.symm
      simp [this]

theorem parent_message (n a p : String) :
    InvalidCharacterHierarchyError.Error
        { Direction := "parent", CurrentRelation := "a descendant", InvalidCharacter := n,
          ApplyingCharacter := a, CharacterPath := p }
      = if a = "" then
          "cannot apply character \"" ++ n
            ++ "\" as a parent of character as it is already a descendant"
        else
          "cannot apply character \"" ++ n ++ "\" as a parent of \"" ++ a
            ++ "\" as it is already a descendant (" ++ p ++ ")" := by
  unfold InvalidCharacterHierarchyError.Error
  simp only [String.append_assoc]
  have e1 : ∀ x : String, "\" as a " ++ ("parent" ++ x) = "\" as a parent" ++ x :=
    fun x => by rw [← String.append_assoc]; rfl
  have e2 : ∀ x : String, "\" as a parent" ++ (" of \"" ++ x) = "\" as a parent of \"" ++ x :=
    fun x => by rw [← String.append_assoc]; rfl
  have e3 : ∀ x : String, "\" as it is already " ++ ("a descendant" ++ x)
      = "\" as it is already a descendant" ++ x :=
    fun x => by rw [← String.append_assoc]; rfl
  have e4 : ∀ x : String, "\" as it is already a descendant" ++ (" (" ++ x)
      = "\" as it is already a descendant (" ++ x :=
    fun x => by rw [← String.append_assoc]; rfl
  have e5 : "\" as a parent" ++ (" of character as it is already " ++ "a descendant")
      = "\" as a parent of character as it is already a descendant" := rfl
  split
  · rw [e1, e5]
  · rw [e1, e2, e3, e4]

theorem child_message (n a p : String) :
    InvalidCharacterHierarchyError.Error
        { Direction := "child", CurrentRelation := "an ancestor", InvalidCharacter := n,
          ApplyingCharacter := a, CharacterPath := p }
      = if a = "" then
          "cannot apply character \"" ++ n
            ++ "\" as a child of character as it is already an ancestor"
        else
          "cannot apply character \"" ++ n ++ "\" as a child of \"" ++ a
            ++ "\" as it is already an ancestor (" ++ p ++ ")" := by
  unfold InvalidCharacterHierarchyError.Error
  simp only [String.append_assoc]
  have e1 : ∀ x : String, "\" as a " ++ ("child" ++ x) = "\" as a child" ++ x :=
    fun x => by rw [← String.append_assoc]; rfl
  have e2 : ∀ x : String, "\" as a child" ++ (" of \"" ++ x) = "\" as a child of \"" ++ x :=
    fun x => by rw [← String.append_assoc]; rfl
  have e3 : ∀ x : String, "\" as it is already " ++ ("an ancestor" ++ x)
      = "\" as it is already an ancestor" ++ x :=
    fun x => by rw [← String.append_assoc]; rfl
  have e4 : ∀ x : String, "\" as it is already an ancestor" ++ (" (" ++ x)
      = "\" as it is already an ancestor (" ++ x :=
    fun x => by rw [← String.append_assoc]; rfl
  have e5 : "\" as a child" ++ (" of character as it is already " ++ "an ancestor")
      = "\" as a child of character as it is already an ancestor" := rfl
  split
  · rw [e1, e5]
  · rw [e1, e2, e3, e4]

theorem firstError_congr (f g : Int → Option Error) (ids : List Int)
    (h : ∀ id, f id = g id) : firstError f ids = firstError g ids := by
  have e : f = g := funext h
  rw [e]

theorem validate_eq (character : Character) (parentIDs childIDs : List Int)
    (qb : RelationshipFinder) (anc desc : List CharacterPath)
    (ha : qb.FindAllAncestors character.ID [] = (anc, none))
    (hd : qb.FindAllDescendants character.ID [] = (desc, none)) :
    ValidateHierarchyExisting character parentIDs childIDs qb =
      match firstError (fun p => (desc.reverse.find? (fun d => d.ID = p)).map
          (fun path => Error.invalidHierarchy
            { Direction := "parent", CurrentRelation := "a descendant",
              InvalidCharacter := path.Name, ApplyingCharacter := character.Name,
              CharacterPath := path.Path })) parentIDs with
      | some err => some err
      | none => firstError (fun c => (anc.reverse.find? (fun a => a.ID = c)).map
          (fun path => Error.invalidHierarchy
            { Direction := "child", CurrentRelation := "an ancestor",
              InvalidCharacter := path.Name, ApplyingCharacter := character.Name,
              CharacterPath := path.Path })) childIDs := by
  unfold ValidateHierarchyExisting
  rw [ha, hd]
  simp only
  rw [firstError_congr _ (fun p => (desc.reverse.find? (fun d => d.ID = p)).map
      (fun path => Error.invalidHierarchy
        { Direction := "parent", CurrentRelation := "a descendant",
          InvalidCharacter := path.Name, ApplyingCharacter := character.Name,
          CharacterPath := path.Path })) parentIDs,
    firstError_congr _ (fun c => (anc.reverse.find? (fun a => a.ID = c)).map
      (fun path => Error.invalidHierarchy
        { Direction := "child", CurrentRelation := "an ancestor",
          InvalidCharacter := path.Name, ApplyingCharacter := character.Name,
          CharacterPath := path.Path })) childIDs]
  all_goals first
    | rfl
    | (intro t
       rw [lookup_collect_last]
       cases anc.reverse.find? (fun a => a.ID = t) <;> rfl)
    | (intro t
       rw [lookup_collect_last]
       cases desc.reverse.find? (fun d => d.ID = t) <;> rfl)

theorem find_last_none (paths : List CharacterPath) (id : Int) :
    paths.reverse.find? (fun d => d.ID = id) = none ↔ ∀ d ∈ paths, d.ID ≠ id := by
  rw [← lookup_collect_last, lookup_collect]

theorem firstError_map_some (paths : List CharacterPath) (f : CharacterPath → Error)
    (ids : List Int) (err : Error) :
    firstError (fun p => (paths.reverse.find? (fun d => d.ID = p)).map f) ids = some err ↔
      ∃ pre p post path, ids = pre ++ p :: post ∧ (∀ q ∈ pre, ∀ d ∈ paths, d.ID ≠ q) ∧
        paths.reverse.find? (fun d => d.ID = p) = some path ∧ err = f path := by
  rw [firstError_some]
  constructor
  · rintro ⟨pre, p, post, hl, hpre, hp⟩
    cases hf : paths.reverse.find? (fun d => d.ID = p) with
    | none => rw [hf] at hp; cases hp
    | some path =>
      rw [hf] at hp
      refine ⟨pre, p, post, path, hl, ?_, hf, (Option.some.inj hp).symm⟩
      intro q hq
      have := hpre q hq
      rw [Option.map_eq_none'] at this
      exact (find_last_none paths q).mp this
  · rintro ⟨pre, p, post, path, hl, hpre, hf, he⟩
    refine ⟨pre, p, post, hl, ?_, by rw [hf, he]; rfl⟩
    intro q hq
    rw [Option.map_eq_none']
    exact (find_last_none paths q).mpr (hpre q hq)

theorem firstError_map_none (paths : List CharacterPath) (f : CharacterPath → Error)
    (ids : List Int) :
    firstError (fun p => (paths.reverse.find? (fun d => d.ID = p)).map f) ids = none ↔
      ∀ q ∈ ids, ∀ d ∈ paths, d.ID ≠ q := by
  rw [firstError_none]
  constructor
  · intro h q hq
    have := h q hq
    rw [Option.map_eq_none'] at this
    exact (find_last_none paths q).mp this
  · intro h q hq
    rw [Option.map_eq_none']
    exact (find_last_none paths q).mpr (h q hq)

/-- C21 (precedence and text of the hierarchy error).  When the two queries of
`ValidateHierarchyExisting` succeed, it returns an error exactly in two cases.  Either a
proposed parent is the ID of a descendant: then the error is about the first such parent
in the order of the list, it has the direction "parent" and the relation "a descendant",
and it carries the name and the path of the last path with that ID that the query
returned.  Or no proposed parent is the ID of a descendant and a proposed child is the ID
of an ancestor: then the error is about the first such child, with the direction "child"
and the relation "an ancestor".  The message of the error is
`cannot apply character "<invalid name>" as a parent of "<character name>" as it is
already a descendant (<path>)`, or the same with `child` and `an ancestor`, when the
name of the character is not empty; when it is empty the message is
`cannot apply character "<invalid name>" as a parent of character as it is already a
descendant`, without the name and without the path. -/
theorem hierarchy_error (character : Character) (parentIDs childIDs : List Int)
    (qb : RelationshipFinder) (anc desc : List CharacterPath)
    (ha : qb.FindAllAncestors character.ID [] = (anc, none))
    (hd : qb.FindAllDescendants character.ID [] = (desc, none)) :
    (∀ err, ValidateHierarchyExisting character parentIDs childIDs qb = some err ↔
      (∃ pre p post path, parentIDs = pre ++ p :: post ∧
        (∀ q ∈ pre, ∀ d ∈ desc, d.ID ≠ q) ∧
        desc.reverse.find? (fun d => d.ID = p) = some path ∧
        err = Error.invalidHierarchy
          { Direction := "parent", CurrentRelation := "a descendant",
            InvalidCharacter := path.Name, ApplyingCharacter := character.Name,
            CharacterPath := path.Path }) ∨
      ((∀ q ∈ parentIDs, ∀ d ∈ desc, d.ID ≠ q) ∧
        ∃ pre c post path, childIDs = pre ++ c :: post ∧
        (∀ q ∈ pre, ∀ a ∈ anc, a.ID ≠ q) ∧
        anc.reverse.find? (fun a => a.ID = c) = some path ∧
        err = Error.invalidHierarchy
          { Direction := "child", CurrentRelation := "an ancestor",
            InvalidCharacter := path.Name, ApplyingCharacter := character.Name,
            CharacterPath := path.Path })) ∧
    (∀ path : CharacterPath,
      (Error.invalidHierarchy
          { Direction := "parent", CurrentRelation := "a descendant",
            InvalidCharacter := path.Name, ApplyingCharacter := character.Name,
            CharacterPath := path.Path }).message
        = if character.Name = "" then
            "cannot apply character \"" ++ path.Name
              ++ "\" as a parent of character as it is already a descendant"
          else
            "cannot apply character \"" ++ path.Name ++ "\" as a parent of \""
              ++ character.Name ++ "\" as it is already a descendant (" ++ path.Path ++ ")") ∧
    (∀ path : CharacterPath,
      (Error.invalidHierarchy
          { Direction := "child", CurrentRelation := "an ancestor",
            InvalidCharacter := path.Name, ApplyingCharacter := character.Name,
            CharacterPath := path.Path }).message
        = if character.Name = "" then
            "cannot apply character \"" ++ path.Name
              ++ "\" as a child of character as it is already an ancestor"
          else
            "cannot apply character \"" ++ path.Name ++ "\" as a child of \""
              ++ character.Name ++ "\" as it is already an ancestor (" ++ path.Path ++ ")") := by
  refine ⟨?_, (fun path => parent_message _ _ _), (fun path => child_message _ _ _)⟩
  intro err
  rw [validate_eq character parentIDs childIDs qb anc desc ha hd]
  cases hP : firstError (fun p => (desc.reverse.find? (fun d => d.ID = p)).map
      (fun path => Error.invalidHierarchy
        { Direction := "parent", CurrentRelation := "a descendant",
          InvalidCharacter := path.Name, ApplyingCharacter := character.Name,
          CharacterPath := path.Path })) parentIDs with
  | some e =>
    simp only [Option.some.injEq]
    constructor
    · intro he
      rw [he] at hP
      exact Or.inl ((firstError_map_some desc _ parentIDs err).mp hP)
    · rintro (h | ⟨hn, -⟩)
      · rw [(firstError_map_some desc _ parentIDs err).mpr h] at hP
        exact (Option.some.inj hP).symm
      · rw [(firstError_map_none desc _ parentIDs).mpr hn] at hP
        cases hP
  | none =>
    simp only
    rw [firstError_map_some anc _ childIDs err]
    have hn := (firstError_map_none desc _ parentIDs).mp hP
    constructor
    · intro h
      exact Or.inr ⟨hn, h⟩
    · rintro (h | ⟨-, h⟩)
      · rw [(firstError_map_some desc _ parentIDs err).mpr h] at hP
        cases hP
      · exact h

theorem hierarchy_error_witness :
    ValidateHierarchyExisting (testCharacter 1 "one") [4, 2, 3] [3]
        (testFinder [testPath 3 "three"] [testPath 3 "three", testPath 2 "two"])
      = some (Error.invalidHierarchy
          { Direction := "parent", CurrentRelation := "a descendant",
            InvalidCharacter := "two", ApplyingCharacter := "one", CharacterPath := "" }) ∧
    (Error.invalidHierarchy
          { Direction := "child", CurrentRelation := "an ancestor",
            InvalidCharacter := "three", ApplyingCharacter := "one", CharacterPath := "" }).message
      = "cannot apply character \"three\" as a child of \"one\" as it is already an ancestor ()" :=
  ⟨((hierarchy_error (testCharacter 1 "one") [4, 2, 3] [3]
      (testFinder [testPath 3 "three"] [testPath 3 "three", testPath 2 "two"])
      [testPath 3 "three"] [testPath 3 "three", testPath 2 "two"] rfl rfl).1 _).mpr
      (Or.inl ⟨[4], 2, [3], testPath 2 "two", rfl, by decide, rfl, rfl⟩),
    ((hierarchy_error (testCharacter 1 "one") [4, 2, 3] [3]
      (testFinder [testPath 3 "three"] [testPath 3 "three", testPath 2 "two"])
      [testPath 3 "three"] [testPath 3 "three", testPath 2 "two"] rfl rfl).2.2
      (testPath 3 "three")).trans rfl⟩

/-- A character whose name is empty gets the parent 2, which is one of its descendants:
the message of the error has neither a quoted name of the character nor a path. -/
theorem hierarchy_error_counterexample :
    ∃ err, ValidateHierarchyExisting (testCharacter 1 "") [2] []
        (testFinder [] [testPath 2 "two"]) = some err ∧
      err.message = "cannot apply character \"two\" as a parent of character as it is already a descendant" ∧
      err.message ≠ "cannot apply character \"two\" as a parent of \"\" as it is already a descendant ()" :=
  ⟨_, rfl, rfl, by decide⟩

/-! ## Uniqueness of names -/

theorem filter_other (id : Int) (o : Option Character) (c : Character) :
    o.filter (fun c => id ≠ c.ID) = some c ↔ o = some c ∧ c.ID ≠ id := by
  cases o with
  | none => simp [Option.filter]
  | some x =>
    simp only [Option.filter, Option.some.injEq]
    by_cases h : id = x.ID
    · simp only [h, ne_eq, not_true_eq_false, decide_False, Bool.false_eq_true, if_false]
      constructor
      · intro e; cases e
      · rintro ⟨e, hne⟩
        rw [e] at hne
        exact absurd rfl hne
    · simp only [ne_eq, h, not_false_eq_true, decide_True, if_true, Option.some.injEq]
      constructor
      · intro e
        rw [← e]
        exact ⟨rfl, fun e1 => h e1.symm⟩
      · rintro ⟨e, -⟩
        exact e

theorem filter_other_none (id : Int) (o : Option Character) :
    o.filter (fun c => id ≠ c.ID) = none ↔ ∀ c, o = some c → c.ID = id := by
  cases o with
  | none => simp [Option.filter]
  | some x =>
    simp only [Option.filter, Option.some.injEq]
    by_cases h : id = x.ID
    · simp only [h, ne_eq, not_true_eq_false, decide_False, Bool.false_eq_true, if_false, true_iff]
      intro c e
      rw [← e]
    · simp only [ne_eq, h, not_false_eq_true, decide_True, if_true]
      constructor
      · intro e; cases e
      · intro hc
        exact absurd (hc x rfl).symm h

theorem ensure_name (id : Int) (name : String) (qb : CharacterQueryer)
    (h1 : (qb.ByName name).2 = none) (h2 : (qb.ByAlias name).2 = none) (err : Error) :
    EnsureCharacterNameUnique id name qb = some err ↔
      (∃ c, (qb.ByName name).1 = some c ∧ c.ID ≠ id ∧
        err = Error.nameExists { Name := name }) ∨
      ((∀ c, (qb.ByName name).1 = some c → c.ID = id) ∧
        ∃ c, (qb.ByAlias name).1 = some c ∧ c.ID ≠ id ∧
          err = Error.nameUsedByAlias { Name := name, OtherCharacter := c.Name }) := by
  unfold EnsureCharacterNameUnique
  cases hN : qb.ByName name with
  | mk c1 e1 =>
    rw [hN] at h1
    simp only at h1
    subst h1
    cases hA : qb.ByAlias name with
    | mk c2 e2 =>
      rw [hA] at h2
      simp only at h2
      subst h2
      simp only
      cases hf : c1.filter (fun c => id ≠ c.ID) with
      | some c =>
        have hc := (filter_other id c1 c).mp hf
        simp only [Option.some.injEq]
        constructor
        · intro he
          exact Or.inl ⟨c, hc.1, hc.2, he.symm⟩
        · rintro (⟨x, -, -, he⟩ | ⟨hall, -⟩)
          · exact he.symm
          · exact absurd (hall c hc.1) hc.2
      | none =>
        have hc := (filter_other_none id c1).mp hf
        simp only
        cases hg : c2.filter (fun c => id ≠ c.ID) with
        | some c =>
          have hd := (filter_other id c2 c).mp hg
          simp only [Option.some.injEq]
          constructor
          · intro he
            exact Or.inr ⟨hc, c, hd.1, hd.2, he.symm⟩
          · rintro (⟨x, hx, hne, -⟩ | ⟨-, x, hx, -, he⟩)
            · exact absurd (hc x hx) hne
            · rw [hd.1] at hx
              cases hx
              exact he.symm
        | none =>
          have hd := (filter_other_none id c2).mp hg
          simp only
          constructor
          · intro he; cases he
          · rintro (⟨x, hx, hne, -⟩ | ⟨-, x, hx, hne, -⟩)
            · exact absurd (hc x hx) hne
            · exact absurd (hd x hx) hne

theorem ensure_aliases_none (id : Int) (qb : CharacterQueryer) (aliases : List String) :
    EnsureAliasesUnique id aliases qb = none ↔
      ∀ a ∈ aliases, EnsureCharacterNameUnique id a qb = none := by
  induction aliases with
  | nil => simp [EnsureAliasesUnique]
  | cons a rest ih =>
    unfold EnsureAliasesUnique
    cases h : EnsureCharacterNameUnique id a qb with
    | some e =>
      simp only [List.mem_cons, forall_eq_or_imp, h]
      exact ⟨(fun e => by cases e), (fun e => by cases e.1)⟩
    | none =>
      simp only [List.mem_cons, forall_eq_or_imp, h, true_and]
      exact ih

theorem ensure_aliases_first (id : Int) (qb : CharacterQueryer) (pre : List String)
    (a : String) (post : List String) (err : Error)
    (hpre : ∀ q ∈ pre, EnsureCharacterNameUnique id q qb = none)
    (ha : EnsureCharacterNameUnique id a qb = some err) :
    EnsureAliasesUnique id (pre ++ a :: post) qb = some err := by
  induction pre with
  | nil =>
    simp only [List.nil_append]
    unfold EnsureAliasesUnique
    rw [ha]
  | cons q pre ih =>
    simp only [List.cons_append]
    unfold EnsureAliasesUnique
    rw [hpre q (List.mem_cons_self _ _)]
    exact ih (fun r hr => hpre r (List.mem_cons_of_mem _ hr))

/-- C24 (uniqueness of names).  For every id and name whose two lookups succeed,
`EnsureCharacterNameUnique` returns an error exactly in two cases: the lookup by name
found a character whose ID differs from id, and the error is `NameExistsError` with the
name; or it found none or one with the ID id, the lookup by alias found a character whose
ID differs from id, and the error is `NameUsedByAliasError` with the name and the name of
that character.  When each lookup finds nothing or a character with the ID id, there is
no error.  `EnsureAliasesUnique` returns no error for the empty list, returns the error
of the first alias in the list for which `EnsureCharacterNameUnique` returns one, and
returns no error exactly when no alias has one. -/
theorem name_unique (id : Int) (qb : CharacterQueryer) :
    (∀ name, (qb.ByName name).2 = none → (qb.ByAlias name).2 = none → ∀ err,
      (EnsureCharacterNameUnique id name qb = some err ↔
        (∃ c, (qb.ByName name).1 = some c ∧ c.ID ≠ id ∧
          err = Error.nameExists { Name := name }) ∨
        ((∀ c, (qb.ByName name).1 = some c → c.ID = id) ∧
          ∃ c, (qb.ByAlias name).1 = some c ∧ c.ID ≠ id ∧
            err = Error.nameUsedByAlias { Name := name, OtherCharacter := c.Name }))) ∧
    (∀ name, (qb.ByName name).2 = none → (qb.ByAlias name).2 = none →
      (∀ c, (qb.ByName name).1 = some c → c.ID = id) →
      (∀ c, (qb.ByAlias name).1 = some c → c.ID = id) →
      EnsureCharacterNameUnique id name qb = none) ∧
    EnsureAliasesUnique id [] qb = none ∧
    (∀ pre a post err, (∀ q ∈ pre, EnsureCharacterNameUnique id q qb = none) →
      EnsureCharacterNameUnique id a qb = some err →
      EnsureAliasesUnique id (pre ++ a :: post) qb = some err) ∧
    (∀ aliases, EnsureAliasesUnique id aliases qb = none ↔
      ∀ a ∈ aliases, EnsureCharacterNameUnique id a qb = none) := by
  refine ⟨(fun name h1 h2 err => ensure_name id name qb h1 h2 err), ?_, rfl,
    (fun pre a post err hpre ha => ensure_aliases_first id qb pre a post err hpre ha),
    (fun aliases => ensure_aliases_none id qb aliases)⟩
  intro name h1 h2 hn ha
  cases h : EnsureCharacterNameUnique id name qb with
  | none => rfl
  | some err =>
    rcases (ensure_name id name qb h1 h2 err).mp h with ⟨c, hc, hne, -⟩ | ⟨-, c, hc, hne, -⟩
    · exact absurd (hn c hc) hne
    · exact absurd (ha c hc) hne

theorem name_unique_witness :
    EnsureCharacterNameUnique 2 "one" testQueryer
      = some (Error.nameExists { Name := "one" }) ∧
    EnsureCharacterNameUnique 2 "uno" testQueryer
      = some (Error.nameUsedByAlias { Name := "uno", OtherCharacter := "one" }) ∧
    EnsureCharacterNameUnique 1 "one" testQueryer = none ∧
    EnsureAliasesUnique 2 ["three", "uno", "one"] testQueryer
      = some (Error.nameUsedByAlias { Name := "uno", OtherCharacter := "one" }) :=
  ⟨((name_unique 2 testQueryer).1 "one" rfl rfl _).mpr
      (Or.inl ⟨testCharacter 1 "one", rfl, by decide, rfl⟩),
    ((name_unique 2 testQueryer).1 "uno" rfl rfl _).mpr
      (Or.inr ⟨(fun c hc => by cases hc), testCharacter 1 "one", rfl, by decide, rfl⟩),
    (name_unique 1 testQueryer).2.1 "one" rfl rfl
      (fun c hc => by cases hc; rfl) (fun c hc => by cases hc),
    (name_unique 2 testQueryer).2.2.2.1 ["three"] "uno" ["one"] _
      (by decide) rfl⟩

/-! ## Merging the hierarchy -/

theorem addTo_append (allIds m xs ys : List Int) :
    addTo allIds (addTo allIds m xs) ys = addTo allIds m (xs ++ ys) := by
  unfold addTo
  rw [List.foldl_append]

theorem addTo_nil (allIds m : List Int) : addTo allIds m [] = m := rfl

theorem addTo_cons (allIds m : List Int) (x : Int) (xs : List Int) :
    addTo allIds m (x :: xs)
      = addTo allIds (if x ∈ m then m else if x ∈ allIds then m else m ++ [x]) xs := rfl

theorem mem_firstOccurrences (l : List Int) (x : Int) : x ∈ firstOccurrences l ↔ x ∈ l := by
  induction l with
  | nil => simp [firstOccurrences]
  | cons a l ih =>
    simp only [firstOccurrences, List.mem_cons, List.mem_filter, ih, ne_eq, decide_not,
      Bool.not_eq_true', decide_eq_false_iff_not]
    constructor
    · rintro (h | ⟨h, -⟩)
      · exact Or.inl h
      · exact Or.inr h
    · rintro (h | h)
      · exact Or.inl h
      · by_cases e : x = a
        · exact Or.inl e
        · exact Or.inr ⟨h, e⟩

theorem nodup_firstOccurrences (l : List Int) : (firstOccurrences l).Nodup := by
  induction l with
  | nil => simp [firstOccurrences]
  | cons a l ih =>
    simp only [firstOccurrences, List.nodup_cons, List.mem_filter, ne_eq, decide_not,
      Bool.not_eq_true', decide_eq_false_iff_not, not_and, not_not]
    exact ⟨fun _ => trivial, ih.filter _⟩

theorem firstOccurrences_filter (p : Int → Bool) (l : List Int) :
    firstOccurrences (l.filter p) = (firstOccurrences l).filter p := by
  induction l with
  | nil => rfl
  | cons a l ih =>
    by_cases h : p a = true
    · rw [List.filter_cons_of_pos h]
      simp only [firstOccurrences]
      rw [List.filter_cons_of_pos h, ih, List.filter_filter, List.filter_filter]
      congr 1
      apply List.filter_congr
      intro x _
      exact Bool.and_comm _ _
    · rw [List.filter_cons_of_neg h]
      simp only [firstOccurrences]
      rw [List.filter_cons_of_neg h, ih, List.filter_filter]
      apply List.filter_congr
      intro x _
      by_cases e : x = a
      · rw [e]
        simp [h]
      · simp [e]

theorem addTo_eq (allIds : List Int) (xs m : List Int) :
    addTo allIds m xs
      = m ++ (firstOccurrences (xs.filter (fun x => x ∉ allIds))).filter (fun x => x ∉ m) := by
  induction xs generalizing m with
  | nil => simp [addTo_nil, firstOccurrences]
  | cons x xs ih =>
    rw [addTo_cons]
    by_cases hm : x ∈ m
    · rw [if_pos hm, ih]
      congr 1
      by_cases ha : x ∈ allIds
      · rw [List.filter_cons_of_neg (by simpa using ha)]
      · rw [List.filter_cons_of_pos (by simpa using ha)]
        simp only [firstOccurrences]
        rw [List.filter_cons_of_neg (by simpa using hm), List.filter_filter]
        apply List.filter_congr
        intro y _
        by_cases e : y = x
        · rw [e]; simp [hm]
        · simp [e]
    · rw [if_neg hm]
      by_cases ha : x ∈ allIds
      · rw [if_pos ha, ih, List.filter_cons_of_neg (by simpa using ha)]
      · rw [if_neg ha, ih, List.filter_cons_of_pos (by simpa using ha)]
        simp only [firstOccurrences]
        rw [List.filter_cons_of_pos (by simpa using hm), List.filter_filter, List.append_assoc,
          List.singleton_append]
        congr 2
        apply List.filter_congr
        intro y _
        by_cases e : y = x
        · rw [e]; simp
        · simp [e]

theorem addTo_empty (allIds xs : List Int) :
    addTo allIds [] xs = firstOccurrences (xs.filter (fun x => x ∉ allIds)) := by
  rw [addTo_eq]
  simp

theorem indexOf_filter_lt (p : Int → Bool) (l : List Int) (x y : Int) (hx : p x = true)
    (hy : p y = true) :
    (l.filter p).indexOf x < (l.filter p).indexOf y ↔ l.indexOf x < l.indexOf y := by
  induction l with
  | nil => simp
  | cons b l ih =>
    by_cases hb : p b = true
    · rw [List.filter_cons_of_pos hb]
      by_cases ex : x = b
      · by_cases ey : y = b
        · rw [ex, ey]
          simp
        · rw [ex, List.indexOf_cons_self, List.indexOf_cons_self,
            List.indexOf_cons_ne _ (fun e => ey e.symm), List.indexOf_cons_ne _ (fun e => ey e.symm)]
          simp
      · by_cases ey : y = b
        · rw [ey, List.indexOf_cons_self, List.indexOf_cons_self]
          simp
        · rw [List.indexOf_cons_ne _ (fun e => ex e.symm), List.indexOf_cons_ne _ (fun e => ey e.symm),
            List.indexOf_cons_ne _ (fun e => ex e.symm), List.indexOf_cons_ne _ (fun e => ey e.symm)]
          simp only [Nat.succ_eq_add_one, Nat.add_lt_add_iff_right]
          exact ih
    · rw [List.filter_cons_of_neg hb]
      have ex : b ≠ x := fun e => hb (e ▸ hx)
      have ey : b ≠ y := fun e => hb (e ▸ hy)
      rw [List.indexOf_cons_ne _ ex, List.indexOf_cons_ne _ ey]
      simp only [Nat.succ_eq_add_one, Nat.add_lt_add_iff_right]
      exact ih

theorem indexOf_firstOccurrences_lt (l : List Int) (x y : Int) :
    (firstOccurrences l).indexOf x < (firstOccurrences l).indexOf y
      ↔ l.indexOf x < l.indexOf y := by
  induction l with
  | nil => simp [firstOccurrences]
  | cons b l ih =>
    simp only [firstOccurrences]
    by_cases ex : x = b
    · by_cases ey : y = b
      · rw [ex, ey]
        simp
      · rw [ex, List.indexOf_cons_self, List.indexOf_cons_self,
          List.indexOf_cons_ne _ (fun e => ey e.symm), List.indexOf_cons_ne _ (fun e => ey e.symm)]
        simp
    · by_cases ey : y = b
      · rw [ey, List.indexOf_cons_self, List.indexOf_cons_self]
        simp
      · rw [List.indexOf_cons_ne _ (fun e => ex e.symm), List.indexOf_cons_ne _ (fun e => ey e.symm),
          List.indexOf_cons_ne _ (fun e => ex e.symm), List.indexOf_cons_ne _ (fun e => ey e.symm)]
        simp only [Nat.succ_eq_add_one, Nat.add_lt_add_iff_right]
        rw [indexOf_filter_lt _ _ x y (by simpa using ex) (by simpa using ey)]
        exact ih

theorem addTo_spec (allIds xs : List Int) :
    (addTo allIds [] xs).Nodup ∧
    (∀ x, x ∈ addTo allIds [] xs ↔ x ∉ allIds ∧ x ∈ xs) ∧
    (∀ x y, x ∈ addTo allIds [] xs → y ∈ addTo allIds [] xs →
      ((addTo allIds [] xs).indexOf x < (addTo allIds [] xs).indexOf y
        ↔ xs.indexOf x < xs.indexOf y)) := by
  rw [addTo_empty]
  have hmem : ∀ x, x ∈ firstOccurrences (xs.filter (fun x => x ∉ allIds))
      ↔ x ∉ allIds ∧ x ∈ xs := by
    intro x
    rw [mem_firstOccurrences, List.mem_filter]
    simp only [decide_not, Bool.not_eq_true', decide_eq_false_iff_not]
    exact And.comm
  refine ⟨nodup_firstOccurrences _, hmem, ?_⟩
  intro x y hx hy
  rw [indexOf_firstOccurrences_lt]
  exact indexOf_filter_lt _ xs x y (by simpa using ((hmem x).mp hx).1)
    (by simpa using ((hmem y).mp hy).1)

theorem mergeLoop_ok (allIds : List Int) (qb : RelationshipFinder) (rest : List Int)
    (ps cs : List Int)
    (h : ∀ id ∈ rest, (qb.GetParentIDs id).2 = none ∧ (qb.GetChildIDs id).2 = none) :
    mergeLoop allIds qb ps cs rest
      = Except.ok (addTo allIds ps (rest.flatMap (fun id => (qb.GetParentIDs id).1)),
          addTo allIds cs (rest.flatMap (fun id => (qb.GetChildIDs id).1))) := by
  induction rest generalizing ps cs with
  | nil => rfl
  | cons id rest ih =>
    obtain ⟨h1, h2⟩ := h id (List.mem_cons_self _ _)
    unfold mergeLoop
    cases hP : qb.GetParentIDs id with
    | mk parents e1 =>
      rw [hP] at h1
      simp only at h1
      subst h1
      cases hC : qb.GetChildIDs id with
      | mk children e2 =>
        rw [hC] at h2
        simp only at h2
        subst h2
        simp only
        rw [ih _ _ (fun q hq => h q (List.mem_cons_of_mem _ hq)), addTo_append, addTo_append,
          List.flatMap_cons, List.flatMap_cons, hP, hC]

theorem mergeLoop_error (allIds : List Int) (qb : RelationshipFinder) (pre : List Int)
    (id : Int) (post : List Int) (err : Error) (ps cs : List Int)
    (hpre : ∀ q ∈ pre, (qb.GetParentIDs q).2 = none ∧ (qb.GetChildIDs q).2 = none)
    (hid : (qb.GetParentIDs id).2 = some err ∨
      ((qb.GetParentIDs id).2 = none ∧ (qb.GetChildIDs id).2 = some err)) :
    mergeLoop allIds qb ps cs (pre ++ id :: post) = Except.error err := by
  induction pre generalizing ps cs with
  | nil =>
    simp only [List.nil_append]
    unfold mergeLoop
    cases hP : qb.GetParentIDs id with
    | mk parents e1 =>
      cases hC : qb.GetChildIDs id with
      | mk children e2 =>
        rw [hP, hC] at hid
        simp only at hid
        rcases hid with h1 | ⟨h1, h2⟩
        · subst h1
          rfl
        · subst h1
          subst h2
          rfl
  | cons q pre ih =>
    obtain ⟨h1, h2⟩ := hpre q (List.mem_cons_self _ _)
    simp only [List.cons_append]
    unfold mergeLoop
    cases hP : qb.GetParentIDs q with
    | mk parents e1 =>
      rw [hP] at h1
      simp only at h1
      subst h1
      cases hC : qb.GetChildIDs q with
      | mk children e2 =>
        rw [hC] at h2
        simp only at h2
        subst h2
        simp only
        exact ih _ _ (fun r hr => hpre r (List.mem_cons_of_mem _ hr))

/-- C29 (merging the hierarchy).  When every query for the parents and for the children
of the destination and of the sources succeeds, `MergeHierarchy` returns two lists.  The
list of merged parents has no duplicate; an ID is in it exactly when it is none of the
destination and source IDs and is a parent of the destination or of a source; and one ID
comes before another in it exactly when its first occurrence comes first in the scan of
the parents of the destination and then of the sources in order.  The same holds of the
merged children.  When the queries succeed for the IDs before some ID, and for that ID
the query for the parents fails, or it succeeds and the query for the children fails,
`MergeHierarchy` returns that error and no lists. -/
theorem merge_hierarchy (destination : Int) (sources : List Int) (qb : RelationshipFinder) :
    ((∀ id ∈ destination :: sources,
        (qb.GetParentIDs id).2 = none ∧ (qb.GetChildIDs id).2 = none) →
      (∃ ps cs, MergeHierarchy destination sources qb = Except.ok (ps, cs)) ∧
      ∀ ps cs, MergeHierarchy destination sources qb = Except.ok (ps, cs) →
        (ps.Nodup ∧
          (∀ x, x ∈ ps ↔ x ∉ destination :: sources ∧
            ∃ id ∈ destination :: sources, x ∈ (qb.GetParentIDs id).1) ∧
          (∀ x y, x ∈ ps → y ∈ ps →
            (ps.indexOf x < ps.indexOf y ↔
              ((destination :: sources).flatMap (fun id => (qb.GetParentIDs id).1)).indexOf x
                < ((destination :: sources).flatMap
                    (fun id => (qb.GetParentIDs id).1)).indexOf y))) ∧
        (cs.Nodup ∧
          (∀ x, x ∈ cs ↔ x ∉ destination :: sources ∧
            ∃ id ∈ destination :: sources, x ∈ (qb.GetChildIDs id).1) ∧
          (∀ x y, x ∈ cs → y ∈ cs →
            (cs.indexOf x < cs.indexOf y ↔
              ((destination :: sources).flatMap (fun id => (qb.GetChildIDs id).1)).indexOf x
                < ((destination :: sources).flatMap
                    (fun id => (qb.GetChildIDs id).1)).indexOf y)))) ∧
    (∀ pre id post err, destination :: sources = pre ++ id :: post →
      (∀ q ∈ pre, (qb.GetParentIDs q).2 = none ∧ (qb.GetChildIDs q).2 = none) →
      ((qb.GetParentIDs id).2 = some err ∨
        ((qb.GetParentIDs id).2 = none ∧ (qb.GetChildIDs id).2 = some err)) →
      MergeHierarchy destination sources qb = Except.error err) := by
  constructor
  · intro h
    have hm := mergeLoop_ok (destination :: sources) qb (destination :: sources) [] [] h
    refine ⟨⟨_, _, hm⟩, ?_⟩
    intro ps cs he
    unfold MergeHierarchy at he
    rw [hm] at he
    simp only [Except.ok.injEq, Prod.mk.injEq] at he
    obtain ⟨hp, hc⟩ := he
    rw [← hp, ← hc]
    have sp := addTo_spec (destination :: sources)
      ((destination :: sources).flatMap (fun id => (qb.GetParentIDs id).1))
    have sc := addTo_spec (destination :: sources)
      ((destination :: sources).flatMap (fun id => (qb.GetChildIDs id).1))
    refine ⟨⟨sp.1, ?_, sp.2.2⟩, ⟨sc.1, ?_, sc.2.2⟩⟩
    · intro x
      rw [sp.2.1 x, List.mem_flatMap]
    · intro x
      rw [sc.2.1 x, List.mem_flatMap]
  · intro pre id post err hl hpre hid
    unfold MergeHierarchy
    rw [hl]
    exact mergeLoop_error _ qb pre id post err [] [] hpre hid

theorem merge_hierarchy_witness :
    MergeHierarchy 1 [2] mergeFinder = Except.ok ([10, 11, 12], [20, 21]) ∧
    ([10, 11, 12] : List Int).Nodup ∧
    (∀ x : Int, x ∈ [10, 11, 12] ↔ x ∉ [1, 2] ∧
      ∃ id ∈ [1, 2], x ∈ (mergeFinder.GetParentIDs id).1) ∧
    MergeHierarchy 1 [2] failingFinder = Except.error (Error.other "no children") :=
  ⟨rfl,
    (((merge_hierarchy 1 [2] mergeFinder).1 (by decide)).2 [10, 11, 12] [20, 21] rfl).1.1,
    (((merge_hierarchy 1 [2] mergeFinder).1 (by decide)).2 [10, 11, 12] [20, 21] rfl).1.2.1,
    (merge_hierarchy 1 [2] failingFinder).2 [1] 2 [] _ rfl (by decide) (Or.inr ⟨rfl, rfl⟩)⟩

/-! ## Import: the parents -/

theorem loop_error {σ : Type} (i : Importer σ) (newCharacter : Character) {s s1 : σ}
    {name : String} {o : Option Character} {err : Error}
    (h : i.ReaderWriter.FindByName s name false = (s1, (o, some err)))
    (acc : List Int) (rest : List String) :
    i.getParentsLoop newCharacter s acc (name :: rest)
      = (s1, Except.error (Errorf "error finding parent by name: " err)) := by
  rw [Importer.getParentsLoop, h]
  cases o <;> rfl

theorem loop_found {σ : Type} (i : Importer σ) (newCharacter : Character) {s s1 : σ}
    {name : String} {c : Character}
    (h : i.ReaderWriter.FindByName s name false = (s1, (some c, none)))
    (acc : List Int) (rest : List String) :
    i.getParentsLoop newCharacter s acc (name :: rest)
      = i.getParentsLoop newCharacter s1 (acc ++ [c.ID]) rest := by
  rw [Importer.getParentsLoop, h]

theorem loop_fail {σ : Type} (i : Importer σ) (newCharacter : Character) {s s1 : σ}
    {name : String} (h : i.ReaderWriter.FindByName s name false = (s1, (none, none)))
    (hb : i.MissingRefBehaviour = ImportMissingRefEnum.Fail)
    (acc : List Int) (rest : List String) :
    i.getParentsLoop newCharacter s acc (name :: rest)
      = (s1, Except.error (Error.parentNotExist { missingParent := name })) := by
  rw [Importer.getParentsLoop, h]
  simp [hb]

theorem loop_skip {σ : Type} (i : Importer σ) (newCharacter : Character) {s s1 : σ}
    {name : String} (h : i.ReaderWriter.FindByName s name false = (s1, (none, none)))
    (hb : i.MissingRefBehaviour = ImportMissingRefEnum.Ignore ∨
      i.MissingRefBehaviour = ImportMissingRefEnum.other)
    (acc : List Int) (rest : List String) :
    i.getParentsLoop newCharacter s acc (name :: rest)
      = i.getParentsLoop newCharacter s1 acc rest := by
  rw [Importer.getParentsLoop, h]
  rcases hb with hb | hb <;> simp [hb]

theorem loop_create_error {σ : Type} (i : Importer σ) (newCharacter : Character)
    {s s1 s2 : σ} {name : String} {created : Character} {err : Error}
    (h : i.ReaderWriter.FindByName s name false = (s1, (none, none)))
    (hb : i.MissingRefBehaviour = ImportMissingRefEnum.Create)
    (hc : i.ReaderWriter.Create s1 { newCharacter with Name := name }
      = (s2, (created, some err)))
    (acc : List Int) (rest : List String) :
    i.getParentsLoop newCharacter s acc (name :: rest) = (s2, Except.error err) := by
  rw [Importer.getParentsLoop, h]
  simp [hb, Importer.createParent, hc]

theorem loop_create {σ : Type} (i : Importer σ) (newCharacter : Character)
    {s s1 s2 : σ} {name : String} {created : Character}
    (h : i.ReaderWriter.FindByName s name false = (s1, (none, none)))
    (hb : i.MissingRefBehaviour = ImportMissingRefEnum.Create)
    (hc : i.ReaderWriter.Create s1 { newCharacter with Name := name } = (s2, (created, none)))
    (acc : List Int) (rest : List String) :
    i.getParentsLoop newCharacter s acc (name :: rest)
      = i.getParentsLoop newCharacter s2 (acc ++ [created.ID]) rest := by
  rw [Importer.getParentsLoop, h]
  simp [hb, Importer.createParent, hc]

/-- What the loop does at a name, by the answers of the store: it stops with an error and
a state, or goes on in a state with some IDs appended. -/
theorem loop_cons {σ : Type} (i : Importer σ) (newCharacter : Character) (s : σ)
    (name : String) :
    (∃ s1 err, ∀ acc rest, i.getParentsLoop newCharacter s acc (name :: rest)
      = (s1, Except.error err)) ∨
    (∃ s1 ids, ∀ acc rest, i.getParentsLoop newCharacter s acc (name :: rest)
      = i.getParentsLoop newCharacter s1 (acc ++ ids) rest) := by
  rcases hf : i.ReaderWriter.FindByName s name false with ⟨s1, o, e⟩
  cases e with
  | some err => exact Or.inl ⟨s1, _, fun acc rest => loop_error i newCharacter hf acc rest⟩
  | none =>
    cases o with
    | some c => exact Or.inr ⟨s1, [c.ID], fun acc rest => loop_found i newCharacter hf acc rest⟩
    | none =>
      cases hb : i.MissingRefBehaviour with
      | Fail => exact Or.inl ⟨s1, _, fun acc rest => loop_fail i newCharacter hf hb acc rest⟩
      | Ignore =>
        refine Or.inr ⟨s1, [], fun acc rest => ?_⟩
        rw [loop_skip i newCharacter hf (Or.inl hb), List.append_nil]
      | other =>
        refine Or.inr ⟨s1, [], fun acc rest => ?_⟩
        rw [loop_skip i newCharacter hf (Or.inr hb), List.append_nil]
      | Create =>
        rcases hc : i.ReaderWriter.Create s1 { newCharacter with Name := name }
          with ⟨s2, created, e2⟩
        cases e2 with
        | some err =>
          exact Or.inl ⟨s2, _, fun acc rest => loop_create_error i newCharacter hf hb hc acc rest⟩
        | none =>
          exact Or.inr ⟨s2, [created.ID], fun acc rest =>
            loop_create i newCharacter hf hb hc acc rest⟩

theorem loop_acc {σ : Type} (i : Importer σ) (newCharacter : Character)
    (names : List String) (s : σ) (acc : List Int) :
    (∀ s1 e, i.getParentsLoop newCharacter s [] names = (s1, Except.error e) →
      i.getParentsLoop newCharacter s acc names = (s1, Except.error e)) ∧
    (∀ s1 ps, i.getParentsLoop newCharacter s [] names = (s1, Except.ok ps) →
      i.getParentsLoop newCharacter s acc names = (s1, Except.ok (acc ++ ps))) := by
  induction names generalizing s acc with
  | nil =>
    constructor
    · intro s1 e h
      simp [Importer.getParentsLoop] at h
    · intro s1 ps h
      simp only [Importer.getParentsLoop, Prod.mk.injEq, Except.ok.injEq] at h ⊢
      rw [← h.2, List.append_nil]
      exact ⟨h.1, rfl⟩
  | cons name rest ih =>
    rcases loop_cons i newCharacter s name with ⟨s1, err, h⟩ | ⟨s1, ids, h⟩
    · rw [h, h]
      exact ⟨fun s2 e he => he, fun s2 ps he => by cases he⟩
    · rw [h, h, List.nil_append]
      constructor
      · intro s2 e he
        rcases hr : i.getParentsLoop newCharacter s1 [] rest with ⟨s3, r⟩
        cases r with
        | error e3 =>
          rw [(ih s1 ids).1 s3 e3 hr] at he
          rw [(ih s1 (acc ++ ids)).1 s3 e3 hr]
          exact he
        | ok ps3 =>
          rw [(ih s1 ids).2 s3 ps3 hr] at he
          cases he
      · intro s2 ps he
        rcases hr : i.getParentsLoop newCharacter s1 [] rest with ⟨s3, r⟩
        cases r with
        | error e3 =>
          rw [(ih s1 ids).1 s3 e3 hr] at he
          cases he
        | ok ps3 =>
          rw [(ih s1 ids).2 s3 ps3 hr] at he
          simp only [Prod.mk.injEq, Except.ok.injEq] at he
          rw [(ih s1 (acc ++ ids)).2 s3 ps3 hr, ← he.1, ← he.2, List.append_assoc]

theorem loop_append {σ : Type} (i : Importer σ) (newCharacter : Character)
    (xs ys : List String) (s : σ) (acc : List Int) :
    (∀ s1 e, i.getParentsLoop newCharacter s acc xs = (s1, Except.error e) →
      i.getParentsLoop newCharacter s acc (xs ++ ys) = (s1, Except.error e)) ∧
    (∀ s1 ps, i.getParentsLoop newCharacter s acc xs = (s1, Except.ok ps) →
      i.getParentsLoop newCharacter s acc (xs ++ ys)
        = i.getParentsLoop newCharacter s1 ps ys) := by
  induction xs generalizing s acc with
  | nil =>
    constructor
    · intro s1 e h
      simp [Importer.getParentsLoop] at h
    · intro s1 ps h
      simp only [Importer.getParentsLoop, Prod.mk.injEq, Except.ok.injEq] at h
      rw [← h.1, ← h.2]
      rfl
  | cons name rest ih =>
    rw [List.cons_append]
    rcases loop_cons i newCharacter s name with ⟨s1, err, h⟩ | ⟨s1, ids, h⟩
    · rw [h, h]
      exact ⟨fun s2 e he => he, fun s2 ps he => by cases he⟩
    · rw [h, h]
      exact ih s1 (acc ++ ids)

/-- C22 (resolution of the parents on import).  `getParents` runs its loop over the
parent names of the input, from the empty list.  Over no name the loop returns the empty
list.  Over a list followed by another it runs over the first and then, from the state
of the store that this left, over the second: an error of either is the result, with no
list, and otherwise the result is the IDs of the first followed by the IDs of the second.
Over one name: when the lookup finds a character, the result is its ID; when the lookup
fails, the result is a new error whose message is `error finding parent by name: `
followed by the message of the lookup error; when the lookup finds nothing, the result is
`ParentCharacterNotExistError` with the name under the behaviour Fail, no ID under the
behaviour Ignore or a behaviour that is none of the three, and under the behaviour Create
the ID that `Create` gave to a new character of that name, or the error of `Create`
itself. -/
theorem get_parents {σ : Type} (i : Importer σ) (newCharacter : Character) :
    (∀ s, i.getParents newCharacter s = i.getParentsLoop newCharacter s [] i.Input.Parents) ∧
    (∀ s, i.getParentsLoop newCharacter s [] [] = (s, Except.ok [])) ∧
    (∀ s xs ys s1 e, i.getParentsLoop newCharacter s [] xs = (s1, Except.error e) →
      i.getParentsLoop newCharacter s [] (xs ++ ys) = (s1, Except.error e)) ∧
    (∀ s xs ys s1 ps s2 e, i.getParentsLoop newCharacter s [] xs = (s1, Except.ok ps) →
      i.getParentsLoop newCharacter s1 [] ys = (s2, Except.error e) →
      i.getParentsLoop newCharacter s [] (xs ++ ys) = (s2, Except.error e)) ∧
    (∀ s xs ys s1 ps s2 qs, i.getParentsLoop newCharacter s [] xs = (s1, Except.ok ps) →
      i.getParentsLoop newCharacter s1 [] ys = (s2, Except.ok qs) →
      i.getParentsLoop newCharacter s [] (xs ++ ys) = (s2, Except.ok (ps ++ qs))) ∧
    (∀ s name s1 c, i.ReaderWriter.FindByName s name false = (s1, (some c, none)) →
      i.getParentsLoop newCharacter s [] [name] = (s1, Except.ok [c.ID])) ∧
    (∀ s name s1 o err, i.ReaderWriter.FindByName s name false = (s1, (o, some err)) →
      i.getParentsLoop newCharacter s [] [name]
        = (s1, Except.error (Error.other ("error finding parent by name: " ++ err.message)))) ∧
    (∀ s name s1, i.ReaderWriter.FindByName s name false = (s1, (none, none)) →
      (i.MissingRefBehaviour = ImportMissingRefEnum.Fail →
        i.getParentsLoop newCharacter s [] [name]
          = (s1, Except.error (Error.parentNotExist { missingParent := name }))) ∧
      (i.MissingRefBehaviour = ImportMissingRefEnum.Ignore →
        i.getParentsLoop newCharacter s [] [name] = (s1, Except.ok [])) ∧
      (i.MissingRefBehaviour = ImportMissingRefEnum.Create →
        ∀ s2 created, i.ReaderWriter.Create s1 { newCharacter with Name := name }
            = (s2, (created, none)) →
          i.getParentsLoop newCharacter s [] [name] = (s2, Except.ok [created.ID])) ∧
      (i.MissingRefBehaviour = ImportMissingRefEnum.Create →
        ∀ s2 created err, i.ReaderWriter.Create s1 { newCharacter with Name := name }
            = (s2, (created, some err)) →
          i.getParentsLoop newCharacter s [] [name] = (s2, Except.error err)) ∧
      (i.MissingRefBehaviour = ImportMissingRefEnum.other →
        i.getParentsLoop newCharacter s [] [name] = (s1, Except.ok []))) := by
  refine ⟨fun s => rfl, fun s => rfl, ?_, ?_, ?_, ?_, ?_, ?_⟩
  · intro s xs ys s1 e h
    exact (loop_append i newCharacter xs ys s []).1 s1 e h
  · intro s xs ys s1 ps s2 e h1 h2
    rw [(loop_append i newCharacter xs ys s []).2 s1 ps h1]
    exact (loop_acc i newCharacter ys s1 ps).1 s2 e h2
  · intro s xs ys s1 ps s2 qs h1 h2
    rw [(loop_append i newCharacter xs ys s []).2 s1 ps h1]
    exact (loop_acc i newCharacter ys s1 ps).2 s2 qs h2
  · intro s name s1 c h
    rw [loop_found i newCharacter h]
    rfl
  · intro s name s1 o err h
    rw [loop_error i newCharacter h]
    rfl
  · intro s name s1 h
    refine ⟨fun hb => loop_fail i newCharacter h hb [] [], fun hb => ?_, fun hb s2 created hc => ?_,
      fun hb s2 created err hc => loop_create_error i newCharacter h hb hc [] [], fun hb => ?_⟩
    · rw [loop_skip i newCharacter h (Or.inl hb)]
      rfl
    · rw [loop_create i newCharacter h hb hc]
      rfl
    · rw [loop_skip i newCharacter h (Or.inr hb)]
      rfl

theorem get_parents_witness :
    (testImporter listStore ["New", "Found"] ImportMissingRefEnum.Create).getParents
        (testCharacter 0 "") [testCharacter 7 "Found"]
      = ([testCharacter 7 "Found", testCharacter 101 "New"], Except.ok [101, 7]) ∧
    (testImporter listStore ["Found", "Missing"] ImportMissingRefEnum.Ignore).getParents
        (testCharacter 0 "") [testCharacter 7 "Found"]
      = ([testCharacter 7 "Found"], Except.ok [7]) ∧
    (testImporter listStore ["Found", "Missing"] ImportMissingRefEnum.Fail).getParents
        (testCharacter 0 "") [testCharacter 7 "Found"]
      = ([testCharacter 7 "Found"],
          Except.error (Error.parentNotExist { missingParent := "Missing" })) :=
  ⟨((get_parents (testImporter listStore ["New", "Found"] ImportMissingRefEnum.Create)
        (testCharacter 0 "")).1 _).trans
      ((get_parents (testImporter listStore ["New", "Found"] ImportMissingRefEnum.Create)
        (testCharacter 0 "")).2.2.2.2.1 [testCharacter 7 "Found"] ["New"] ["Found"]
        [testCharacter 7 "Found", testCharacter 101 "New"] [101]
        [testCharacter 7 "Found", testCharacter 101 "New"] [7] rfl rfl),
    ((get_parents (testImporter listStore ["Found", "Missing"] ImportMissingRefEnum.Ignore)
        (testCharacter 0 "")).1 _).trans
      ((get_parents (testImporter listStore ["Found", "Missing"] ImportMissingRefEnum.Ignore)
        (testCharacter 0 "")).2.2.2.2.1 [testCharacter 7 "Found"] ["Found"] ["Missing"]
        [testCharacter 7 "Found"] [7] [testCharacter 7 "Found"] [] rfl rfl),
    ((get_parents (testImporter listStore ["Found", "Missing"] ImportMissingRefEnum.Fail)
        (testCharacter 0 "")).1 _).trans
      ((get_parents (testImporter listStore ["Found", "Missing"] ImportMissingRefEnum.Fail)
        (testCharacter 0 "")).2.2.2.1 [testCharacter 7 "Found"] ["Found"] ["Missing"]
        [testCharacter 7 "Found"] [7] [testCharacter 7 "Found"] _ rfl rfl)⟩

/-- The lookup of the parent fails with the error "failed finding parent": `getParents`
returns another error, whose message begins with `error finding parent by name: `. -/
theorem get_parents_counterexample :
    failingStore.FindByName [] "Parent" false
      = ([], (none, some (Error.other "failed finding parent"))) ∧
    (testImporter failingStore ["Parent"] ImportMissingRefEnum.Create).getParents
        (testCharacter 0 "") []
      = ([], Except.error
          (Error.other "error finding parent by name: failed finding parent")) ∧
    Error.other "error finding parent by name: failed finding parent"
      ≠ Error.other "failed finding parent" :=
  ⟨rfl, rfl, by decide⟩

/-! ## Export -/

theorem GetNames_foldl (characters : List Character) (results : List String) :
    characters.foldl (fun results character => results ++ [character.Name]) results
      = results ++ characters.map (fun c => c.Name) := by
  induction characters generalizing results with
  | nil => simp
  | cons c cs ih =>
    rw [List.foldl_cons, ih, List.map_cons, List.append_assoc, List.singleton_append]

theorem GetNames_eq (characters : List Character) :
    GetNames characters = characters.map (fun c => c.Name) := by
  unfold GetNames
  rw [GetNames_foldl, List.nil_append]

/-- C23 (errors of the export).  `ToJSON` returns an error exactly when the read of the
aliases or the read of the parents returns one: a failed read of the aliases gives a new
error whose message is `error getting character aliases: ` followed by the message of
that error, and a failed read of the parents after a successful read of the aliases gives
`error getting parents: ` followed by the message of that error.  When both reads
succeed `ToJSON` returns an object, whatever the read of the image returned: the name,
the description, the favorite flag, the two times and the aliases are copied, the parents
are the names of the characters returned, in their order, and the image field is the
encoding of the bytes that the read of the image returned when there are any, and is
empty when there are none, whether that read returned an error or not. -/
theorem to_json (encode : List Nat → String) (reader : FinderAliasImageGetter)
    (character : Character) :
    ((∃ err, ToJSON encode reader character = Except.error err) ↔
      (reader.GetAliases character.ID).2 ≠ none ∨
        (reader.FindByChildCharacterID character.ID).2 ≠ none) ∧
    (∀ err, (reader.GetAliases character.ID).2 = some err →
      ToJSON encode reader character
        = Except.error (Error.other ("error getting character aliases: " ++ err.message))) ∧
    (∀ err, (reader.GetAliases character.ID).2 = none →
      (reader.FindByChildCharacterID character.ID).2 = some err →
      ToJSON encode reader character
        = Except.error (Error.other ("error getting parents: " ++ err.message))) ∧
    ((reader.GetAliases character.ID).2 = none →
      (reader.FindByChildCharacterID character.ID).2 = none →
      ToJSON encode reader character
        = Except.ok
          { Name := character.Name, Description := character.Description,
            Favorite := character.Favorite,
            Aliases := (reader.GetAliases character.ID).1,
            Image :=
              if (reader.GetImage character.ID).1.length > 0 then
                encode (reader.GetImage character.ID).1
              else "",
            Parents := (reader.FindByChildCharacterID character.ID).1.map (fun c => c.Name),
            CreatedAt := character.CreatedAt, UpdatedAt := character.UpdatedAt }) := by
  unfold ToJSON
  rcases ha : reader.GetAliases character.ID with ⟨aliases, e1⟩
  rcases hp : reader.FindByChildCharacterID character.ID with ⟨parents, e2⟩
  cases e1 with
  | some err1 =>
    refine ⟨⟨fun _ => Or.inl (by simp), fun _ => ⟨_, rfl⟩⟩, ?_, ?_, ?_⟩
    · intro err he
      simp only [Option.some.injEq] at he
      rw [he]
      rfl
    · intro err he
      cases he
    · intro he
      cases he
  | none =>
    cases e2 with
    | some err2 =>
      refine ⟨⟨fun _ => Or.inr (by simp), fun _ => ⟨_, rfl⟩⟩, ?_, ?_, ?_⟩
      · intro err he
        cases he
      · intro err _ he
        simp only [Option.some.injEq] at he
        rw [he]
        rfl
      · intro _ he
        cases he
    | none =>
      refine ⟨⟨?_, ?_⟩, ?_, ?_, ?_⟩
      · rintro ⟨err, he⟩
        simp only at he
        cases he
      · rintro (h | h) <;> exact absurd rfl h
      · intro err he
        cases he
      · intro err _ he
        cases he
      · intro _ _
        simp only [GetNames_eq]
        split <;> rfl

theorem to_json_witness :
    ToJSON testEncode testReader (createCharacter 5)
      = Except.ok
        { Name := "testCharacter", Description := "description", Favorite := true,
          Aliases := [], Image := "AAA", Parents := ["parent"],
          CreatedAt := 978307200, UpdatedAt := 1009843200 } ∧
    ToJSON testEncode testReader (createCharacter 3)
      = Except.ok
        { Name := "testCharacter", Description := "description", Favorite := true,
          Aliases := [], Image := "", Parents := [],
          CreatedAt := 978307200, UpdatedAt := 1009843200 } ∧
    ToJSON testEncode testReader (createCharacter 4)
      = Except.error (Error.other "error getting character aliases: error getting aliases") ∧
    ToJSON testEncode testReader (createCharacter 6)
      = Except.error (Error.other "error getting parents: error getting parents") :=
  ⟨((to_json testEncode testReader (createCharacter 5)).2.2.2 rfl rfl).trans rfl,
    ((to_json testEncode testReader (createCharacter 3)).2.2.2 rfl rfl).trans rfl,
    ((to_json testEncode testReader (createCharacter 4)).2.1 _ rfl).trans rfl,
    ((to_json testEncode testReader (createCharacter 6)).2.2.1 _ rfl rfl).trans rfl⟩

/-- The read of the image of character 7 returns an error together with one byte:
`ToJSON` returns an object whose image field is the encoding of that byte, not empty. -/
theorem to_json_counterexample :
    testReader.GetImage 7 = ([1], some (Error.other "error getting image")) ∧
    ToJSON testEncode testReader (createCharacter 7)
      = Except.ok
        { Name := "testCharacter", Description := "description", Favorite := true,
          Aliases := [], Image := testEncode [1], Parents := [],
          CreatedAt := 978307200, UpdatedAt := 1009843200 } ∧
    testEncode [1] ≠ "" :=
  ⟨rfl, rfl, by decide⟩

end character

end Stash
